import Mathlib

/-!
# Routing-key matchers of `matcher/matchers.go`

A shallow embedding of the three match functions `Direct`, `Fanout` and `Topic`.

* Go strings are modelled as `String` / `List Char` (sequences of Unicode scalar values).
* `strings.Replace(s, old, new, -1)` is modelled by `stringsReplace`.
* `regexp.MustCompile` and `(*Regexp).MatchString` belong to the Go standard library; they are
  modelled by a parser for the RE2 syntax fragment built from literals, escaped punctuation,
  bracket classes with ranges, groups, alternation, the postfix operators `*`, `+`, `?`
  (with an optional lazy marker), `.`, `^` and `$`, and by a matcher implementing the usual
  unanchored-search semantics. Counted repetition, `(?...)` groups, named classes and escapes
  of letters or digits lie outside that fragment and are rejected by the model.
* `Modelled` names the pattern texts of that fragment; `TopicBy` is `Topic` with the `regexp`
  package as a parameter, for statements that hold whatever the compiler accepts.
* The process-wide `patternCache` is passed explicitly; the write performed by the goroutine
  is returned as a deferred store. `TopicCall` and `runCalls` run calls one after another,
  each store before the next call.
* Concurrent calls are modelled by an interleaving semantics (`step`, `exec`) over the program
  points of `Topic` and of its goroutine; the embedded `sync.RWMutex` is a count of readers
  and a writer flag.
* The wildcard laws are stated over the dot-separated `segments` of the keys; `refMatch` is
  the segment-by-segment reference matcher the translation is compared with.
-/

namespace Matcher

/-! ## Collaborators (`amq.Message`, `amq.Binding`) -/

/-- The `amq.Message` capability used by the matchers: `RoutingKey()`. -/
structure Message where
  routingKey : String

/-- The `amq.Binding` capability used by the matchers: `BindingKey()`. -/
structure Binding where
  bindingKey : String

/-! ## `strings.Replace` -/

/-- Worker of `stringsReplace`: scans left to right; `skip` counts the characters of an
occurrence of `old` that was just replaced and still has to be stepped over. -/
def replaceGo (old new : List Char) : Nat → List Char → List Char
  | _, [] => []
  | k + 1, _ :: cs => replaceGo old new k cs
  | 0, c :: cs =>
    if old.isPrefixOf (c :: cs) then new ++ replaceGo old new (old.length - 1) cs
    else c :: replaceGo old new 0 cs

/-- Model of `strings.Replace(s, old, new, -1)` for a non-empty `old`: every non-overlapping
occurrence of `old`, found left to right, is replaced by `new`. -/
def stringsReplace (s old new : List Char) : List Char :=
  replaceGo old new 0 s

/-! ## Regular expressions (model of the `regexp` package) -/

/-- Abstract syntax of the modelled regular expressions. -/
inductive Regex where
  | empty : Regex
  | lit : Char → Regex
  | cls : Bool → List (Char × Char) → Regex
  | bol : Regex
  | eol : Regex
  | cat : Regex → Regex → Regex
  | alt : Regex → Regex → Regex
  | star : Regex → Regex
  | plus : Regex → Regex
  | quest : Regex → Regex
  deriving Repr, Inhabited

/-- Membership of a character in a bracket class given by its ranges and negation flag. -/
def clsMem (neg : Bool) (rs : List (Char × Char)) (c : Char) : Bool :=
  (rs.any fun r => decide (r.1.toNat ≤ c.toNat) && decide (c.toNat ≤ r.2.toNat)) != neg

/-- Concatenation of a list of expressions (`collapse` with `OpConcat`). -/
def mkCat : List Regex → Regex
  | [] => Regex.empty
  | [r] => r
  | r :: rs => Regex.cat r (mkCat rs)

/-- Alternation of a list of expressions (`collapse` with `OpAlternate`). -/
def mkAlt : List Regex → Regex
  | [] => Regex.empty
  | [r] => r
  | r :: rs => Regex.alt r (mkAlt rs)

/-- A parenthesis level of the parser: the finished alternatives (most recent first) and the
items of the alternative being read (most recent first). -/
structure Frame where
  alts : List Regex
  items : List Regex
  deriving Inhabited

/-- The expression denoted by a closed parenthesis level. -/
def Frame.close (f : Frame) : Regex :=
  mkAlt ((mkCat f.items.reverse :: f.alts).reverse)

/-- What the parser remembers about the previous token for the repetition rules. -/
inductive Rep where
  | none : Rep
  | fresh : Rep
  | lazy : Rep
  deriving DecidableEq, Inhabited

/-- Progress inside a bracket class. -/
inductive Pend where
  | idle : Pend
  | escLo : Pend
  | bracket : Pend
  | haveLo : Char → Pend
  | dash : Char → Pend
  | escHi : Char → Pend
  deriving Inhabited

/-- Lexical mode of the parser. -/
inductive Mode where
  | norm : Mode
  | esc : Mode
  | paren : Mode
  | clsStart : Mode
  | inCls : Bool → Bool → List (Char × Char) → Pend → Mode
  deriving Inhabited

/-- Parser state: lexical mode, repetition memory, current level and enclosing levels. -/
structure PState where
  mode : Mode
  rep : Rep
  cur : Frame
  stack : List Frame
  deriving Inhabited

/-- ASCII punctuation, the characters that a backslash turns into a literal. -/
def isPunct (c : Char) : Bool :=
  decide (c.toNat < 128) && !(c.isAlphanum)

/-- Push a finished item on the current level. -/
def PState.push (st : PState) (r : Regex) : PState :=
  { st with mode := Mode.norm, rep := Rep.none, cur := { st.cur with items := r :: st.cur.items } }

/-- Apply a postfix repetition operator to the last item of the current level. -/
def PState.repeat (st : PState) (op : Regex → Regex) : Option PState :=
  match st.rep, st.cur.items with
  | Rep.none, r :: rs =>
    some { st with rep := Rep.fresh, cur := { st.cur with items := op r :: rs } }
  | _, _ => none

/-- Bracket-class parsing after a single class character `lo` has been read. -/
def clsAfterLo (st : PState) (neg : Bool) (acc : List (Char × Char)) (lo c : Char) :
    Option PState :=
  if c = '-' then some { st with mode := Mode.inCls neg false acc (Pend.dash lo) }
  else if c = ']' then some (st.push (Regex.cls neg ((lo, lo) :: acc).reverse))
  else if c = '\\' then some { st with mode := Mode.inCls neg false ((lo, lo) :: acc) Pend.escLo }
  else if c = '[' then some { st with mode := Mode.inCls neg false ((lo, lo) :: acc) Pend.bracket }
  else some { st with mode := Mode.inCls neg false ((lo, lo) :: acc) (Pend.haveLo c) }

/-- One step of bracket-class parsing (`parseClass`), on the character `c`. -/
def clsStep (st : PState) (neg first : Bool) (acc : List (Char × Char)) :
    Pend → Char → Option PState
  | Pend.idle, c =>
    if c = ']' ∧ first = false then some (st.push (Regex.cls neg acc.reverse))
    else if c = '\\' then some { st with mode := Mode.inCls neg false acc Pend.escLo }
    else if c = '[' then some { st with mode := Mode.inCls neg false acc Pend.bracket }
    else some { st with mode := Mode.inCls neg false acc (Pend.haveLo c) }
  | Pend.escLo, c =>
    if isPunct c then some { st with mode := Mode.inCls neg false acc (Pend.haveLo c) }
    else none
  | Pend.bracket, c => if c = ':' then none else clsAfterLo st neg acc '[' c
  | Pend.haveLo lo, c => clsAfterLo st neg acc lo c
  | Pend.dash lo, c =>
    if c = ']' then some (st.push (Regex.cls neg (('-', '-') :: (lo, lo) :: acc).reverse))
    else if c = '\\' then some { st with mode := Mode.inCls neg false acc (Pend.escHi lo) }
    else if c.toNat < lo.toNat then none
    else some { st with mode := Mode.inCls neg false ((lo, c) :: acc) Pend.idle }
  | Pend.escHi lo, c =>
    if isPunct c then
      if c.toNat < lo.toNat then none
      else some { st with mode := Mode.inCls neg false ((lo, c) :: acc) Pend.idle }
    else none

/-- One step of the parser in normal mode, on the character `c`. -/
def normStep (st : PState) (c : Char) : Option PState :=
  if c = '\\' then some { st with mode := Mode.esc }
  else if c = '[' then some { st with mode := Mode.clsStart }
  else if c = '(' then
    some { mode := Mode.paren, rep := Rep.none, cur := ⟨[], []⟩, stack := st.cur :: st.stack }
  else if c = ')' then
    match st.stack with
    | [] => none
    | f :: fs =>
      some { mode := Mode.norm, rep := Rep.none,
             cur := { f with items := st.cur.close :: f.items }, stack := fs }
  else if c = '|' then
    some { st with rep := Rep.none,
                   cur := ⟨mkCat st.cur.items.reverse :: st.cur.alts, []⟩ }
  else if c = '*' then st.repeat Regex.star
  else if c = '+' then st.repeat Regex.plus
  else if c = '?' then
    match st.rep with
    | Rep.fresh => some { st with rep := Rep.lazy }
    | _ => st.repeat Regex.quest
  else if c = '^' then some (st.push Regex.bol)
  else if c = '$' then some (st.push Regex.eol)
  else if c = '.' then some (st.push (Regex.cls true [('\n', '\n')]))
  else if c = '{' then none
  else some (st.push (Regex.lit c))

/-- One step of the parser (the body of the loop of `regexp/syntax.parse`). -/
def parseStep (st : PState) (c : Char) : Option PState :=
  match st.mode with
  | Mode.norm => normStep st c
  | Mode.esc => if isPunct c then some (st.push (Regex.lit c)) else none
  | Mode.paren => if c = '?' then none else normStep { st with mode := Mode.norm } c
  | Mode.clsStart =>
    if c = '^' then some { st with mode := Mode.inCls true true [] Pend.idle }
    else clsStep st false true [] Pend.idle c
  | Mode.inCls neg first acc p => clsStep st neg first acc p c

/-- Run the parser over a pattern text. -/
def parseRun (st : PState) (s : List Char) : Option PState :=
  s.foldlM parseStep st

/-- The end of the input: only a complete top-level expression is accepted. -/
def parseFinish (st : PState) : Option Regex :=
  match st.mode, st.stack with
  | Mode.norm, [] => some st.cur.close
  | _, _ => none

/-- Pattern texts inside the modelled syntax: no `{`, no backslash directly before a letter or
digit, no `(?` and no `[:`. These are the texts on which `Compile` decides as
`regexp.Compile` does; on the others the model has no rule to offer. -/
def Modelled (pattern : List Char) : Bool :=
  !pattern.contains '{' &&
    (pattern.zip pattern.tail).all fun p =>
      !(p.1 == '\\' && p.2.isAlphanum) && !(p.1 == '(' && p.2 == '?') &&
        !(p.1 == '[' && p.2 == ':')

/-- Model of `regexp.Compile`: on a text of the modelled syntax (`Modelled`) `none` is the
syntax error of `regexp.Compile`; a text outside it also gives `none`, the model having no
rule for it. -/
def Compile (pattern : List Char) : Option Regex :=
  (parseRun ⟨Mode.norm, Rep.none, ⟨[], []⟩, []⟩ pattern).bind parseFinish

/-- All ways of cutting a list in two. -/
def splits : List Char → List (List Char × List Char)
  | [] => [([], [])]
  | c :: cs => ([], c :: cs) :: (splits cs).map fun p => (c :: p.1, p.2)

/-- Iteration of a matcher `f`, each round consuming at least one character; `n` bounds the
number of rounds and is taken to be the length of the text. -/
def starLoop (f : Bool → Bool → List Char → Bool) : Nat → Bool → Bool → List Char → Bool
  | 0, _, _, s => s.isEmpty
  | n + 1, b, e, s =>
    s.isEmpty || (splits s).any fun p =>
      !p.1.isEmpty && f b (e && p.2.isEmpty) p.1 && starLoop f n false e p.2

/-- The expression `r` matches exactly the text `s`, where `b` tells whether `s` begins at the
start of the whole text and `e` whether it ends at its end. -/
def Regex.accepts : Regex → Bool → Bool → List Char → Bool
  | Regex.empty, _, _, s => s.isEmpty
  | Regex.lit c, _, _, s => match s with
    | [x] => x == c
    | _ => false
  | Regex.cls neg rs, _, _, s => match s with
    | [x] => clsMem neg rs x
    | _ => false
  | Regex.bol, b, _, s => s.isEmpty && b
  | Regex.eol, _, e, s => s.isEmpty && e
  | Regex.cat r₁ r₂, b, e, s =>
    (splits s).any fun p =>
      r₁.accepts b (e && p.2.isEmpty) p.1 && r₂.accepts (b && p.1.isEmpty) e p.2
  | Regex.alt r₁ r₂, b, e, s => r₁.accepts b e s || r₂.accepts b e s
  | Regex.star r, b, e, s => starLoop (fun b e t => r.accepts b e t) s.length b e s
  | Regex.plus r, b, e, s =>
    (splits s).any fun p =>
      r.accepts b (e && p.2.isEmpty) p.1 &&
        starLoop (fun b e t => r.accepts b e t) p.2.length (b && p.1.isEmpty) e p.2
  | Regex.quest r, b, e, s => s.isEmpty || r.accepts b e s

/-- Model of `(*Regexp).MatchString`: some substring of `s` is matched by `r`. -/
def MatchString (r : Regex) (s : List Char) : Bool :=
  (splits s).any fun p => (splits p.2).any fun q =>
    r.accepts p.1.isEmpty q.2.isEmpty q.1

/-! ## The matchers -/

/-- Direct matcher (lines 28-31): routing key and binding key are equal. -/
def Direct (msg : Message) (binding : Binding) : Bool :=
  msg.routingKey == binding.bindingKey

/-- Fanout matcher (lines 33-36): always matches. -/
def Fanout (_msg : Message) (_binding : Binding) : Bool :=
  true

/-- The six substitutions of lines 55-60 turning a binding key into pattern text. -/
def translate (bindingKey : List Char) : List Char :=
  let pattern := stringsReplace bindingKey ".".toList "\\.".toList
  let pattern := stringsReplace pattern "*".toList "[0-9A-z]+".toList
  let pattern := stringsReplace pattern "\\.#\\.".toList "(\\.|\\.[0-9A-z\\.]*\\.)".toList
  let pattern := stringsReplace pattern "\\.#".toList "(\\.[0-9A-z\\.]*)?".toList
  let pattern := stringsReplace pattern "#\\.".toList "([0-9A-z\\.]*\\.)?".toList
  stringsReplace pattern "#".toList "[0-9A-z\\.]*".toList

/-- Line 62: `regexp.MustCompile(fmt.Sprintf("^%s$", pattern))`; `none` models the panic. -/
def MustCompileKey (bindingKey : String) : Option Regex :=
  Compile ('^' :: translate bindingKey.toList ++ ['$'])

/-- The shared `patternCache.cache` map, as an association list. -/
abbrev PatternCache := List (String × Regex)

/-- Outcome of a call of `Topic` that returns: the boolean and the map write handed to the
goroutine (`none` on a cache hit). -/
structure TopicResult where
  matched : Bool
  deferred : Option (String × Regex)

/-- Topic matcher (lines 48-73); `none` models the panic of `MustCompile`. -/
def Topic (cache : PatternCache) (msg : Message) (binding : Binding) : Option TopicResult :=
  match cache.lookup binding.bindingKey with
  | some matcher => some ⟨MatchString matcher msg.routingKey.toList, none⟩
  | none =>
    match MustCompileKey binding.bindingKey with
    | none => none
    | some matcher =>
      some ⟨MatchString matcher msg.routingKey.toList, some (binding.bindingKey, matcher)⟩

/-- The goroutine of lines 64-69: `patternCache.cache[key] = matcher`. -/
def store (cache : PatternCache) (entry : String × Regex) : PatternCache :=
  if (cache.lookup entry.1).isSome then
    cache.map fun kv => if kv.1 == entry.1 then entry else kv
  else cache ++ [entry]

/-- Every cached rule is the rule compiled from its key. -/
def CacheSound (cache : PatternCache) : Prop :=
  ∀ key matcher, cache.lookup key = some matcher → MustCompileKey key = some matcher

/-! ## Vocabulary of the specification -/

/-- The dot-separated segments of a key. -/
def segments (key : String) : List (List Char) :=
  key.toList.splitOn '.'

/-- A word: a non-empty run of ASCII letters and digits. -/
def IsWord (w : List Char) : Prop :=
  w ≠ [] ∧ ∀ c ∈ w, c.isAlphanum = true

instance (w : List Char) : Decidable (IsWord w) :=
  decidable_of_iff (w.isEmpty = false ∧ w.all Char.isAlphanum = true)
    (by simp [IsWord, List.isEmpty_iff])

/-- A valid routing key: one or more words joined by single dots. -/
def ValidKey (key : String) : Prop :=
  ∀ w ∈ segments key, IsWord w

instance (key : String) : Decidable (ValidKey key) :=
  inferInstanceAs (Decidable (∀ w ∈ segments key, IsWord w))

/-- The ranges of the class `[0-9A-z]`. -/
def wordRanges : List (Char × Char) := [('0', '9'), ('A', 'z')]

/-- The ranges of the class `[0-9A-z\.]`. -/
def pathRanges : List (Char × Char) := [('0', '9'), ('A', 'z'), ('.', '.')]

/-- The building blocks of the pattern text produced by `translate`. -/
inductive Piece where
  | chr : Char → Piece
  | dot : Piece
  | word : Piece
  | midHash : Piece
  | trailHash : Piece
  | leadHash : Piece
  | bareHash : Piece
  deriving DecidableEq

/-- Pattern text of a building block. -/
def Piece.text : Piece → List Char
  | Piece.chr c => [c]
  | Piece.dot => ['\\', '.']
  | Piece.word => ['[', '0', '-', '9', 'A', '-', 'z', ']', '+']
  | Piece.midHash =>
    ['(', '\\', '.', '|', '\\', '.', '[', '0', '-', '9', 'A', '-', 'z', '\\', '.', ']', '*',
     '\\', '.', ')']
  | Piece.trailHash =>
    ['(', '\\', '.', '[', '0', '-', '9', 'A', '-', 'z', '\\', '.', ']', '*', ')', '?']
  | Piece.leadHash =>
    ['(', '[', '0', '-', '9', 'A', '-', 'z', '\\', '.', ']', '*', '\\', '.', ')', '?']
  | Piece.bareHash => ['[', '0', '-', '9', 'A', '-', 'z', '\\', '.', ']', '*']

/-- Expression a building block is parsed into. -/
def Piece.re : Piece → Regex
  | Piece.chr c => Regex.lit c
  | Piece.dot => Regex.lit '.'
  | Piece.word => Regex.plus (Regex.cls false wordRanges)
  | Piece.midHash =>
    Regex.alt (Regex.lit '.')
      (Regex.cat (Regex.lit '.')
        (Regex.cat (Regex.star (Regex.cls false pathRanges)) (Regex.lit '.')))
  | Piece.trailHash =>
    Regex.quest (Regex.cat (Regex.lit '.') (Regex.star (Regex.cls false pathRanges)))
  | Piece.leadHash =>
    Regex.quest (Regex.cat (Regex.star (Regex.cls false pathRanges)) (Regex.lit '.'))
  | Piece.bareHash => Regex.star (Regex.cls false pathRanges)

/-- Texts matched by a building block. -/
def Piece.Lang : Piece → List Char → Prop
  | Piece.chr c, s => s = [c]
  | Piece.dot, s => s = ['.']
  | Piece.word, s => s ≠ [] ∧ ∀ x ∈ s, clsMem false wordRanges x = true
  | Piece.midHash, s =>
    s = ['.'] ∨ ∃ m, s = '.' :: m ++ ['.'] ∧ ∀ x ∈ m, clsMem false pathRanges x = true
  | Piece.trailHash, s =>
    s = [] ∨ ∃ m, s = '.' :: m ∧ ∀ x ∈ m, clsMem false pathRanges x = true
  | Piece.leadHash, s =>
    s = [] ∨ ∃ m, s = m ++ ['.'] ∧ ∀ x ∈ m, clsMem false pathRanges x = true
  | Piece.bareHash, s => ∀ x ∈ s, clsMem false pathRanges x = true

/-- A building block is well formed when a literal character is a letter or a digit. -/
def Piece.Ok : Piece → Prop
  | Piece.chr c => c.isAlphanum = true
  | _ => True

/-- Texts matched by a sequence of building blocks. -/
def PiecesLang : List Piece → List Char → Prop
  | [], s => s = []
  | p :: ps, s => ∃ s₁ s₂, s = s₁ ++ s₂ ∧ p.Lang s₁ ∧ PiecesLang ps s₂

/-- Building block of a key character other than `#`. -/
def toPiece (c : Char) : Piece :=
  if c = '.' then Piece.dot else if c = '*' then Piece.word else Piece.chr c

/-- The pattern text of a key after the first two substitutions (escaping of `.` and
replacement of `*`), character by character. -/
def tr2 (key : List Char) : List Char :=
  key.flatMap fun c => (toPiece c).text

/-- A routing-key segment `r` fits the pattern segment `p` of a key without `#`: a `*`
stands for any non-empty segment, a literal for itself. -/
def SegFits (p r : List Char) : Prop :=
  if p = ['*'] then r ≠ [] else r = p

instance (p r : List Char) : Decidable (SegFits p r) :=
  inferInstanceAs (Decidable (if p = ['*'] then r ≠ [] else r = p))

/-- Segments written one after another, each preceded by a dot. -/
def dotted (segs : List (List Char)) : List Char :=
  segs.flatMap fun seg => '.' :: seg

/-- Reference matcher of the specification, segment by segment: a literal matches an equal
segment, `*` matches exactly one segment and `#` matches zero or more segments. -/
def refMatch : List (List Char) → List (List Char) → Bool
  | [], rs => rs.isEmpty
  | p :: ps, rs =>
    if p = ['#'] then rs.tails.any fun t => refMatch ps t
    else match rs with
      | [] => false
      | r :: rs' => (decide (p = ['*']) || decide (r = p)) && refMatch ps rs'

/-- A pattern segment: a word, `*` or `#`. -/
def IsPatternSegment (p : List Char) : Prop :=
  p = ['*'] ∨ p = ['#'] ∨ IsWord p

instance (p : List Char) : Decidable (IsPatternSegment p) :=
  inferInstanceAs (Decidable (p = ['*'] ∨ p = ['#'] ∨ IsWord p))

/-- No two neighbouring segments are both `#`. -/
def NoAdjacentHash : List (List Char) → Prop
  | p :: q :: rest => ¬ (p = ['#'] ∧ q = ['#']) ∧ NoAdjacentHash (q :: rest)
  | [_] => True
  | [] => True

instance NoAdjacentHash.dec : (segs : List (List Char)) → Decidable (NoAdjacentHash segs)
  | [] => isTrue trivial
  | [_] => isTrue trivial
  | p :: q :: rest =>
    have := NoAdjacentHash.dec (q :: rest)
    inferInstanceAs (Decidable (¬ (p = ['#'] ∧ q = ['#']) ∧ NoAdjacentHash (q :: rest)))

/-- One call of `Topic` followed by the map write of its goroutine: the returned boolean
(`none` for the panic) and the cache afterwards. -/
def TopicCall (cache : PatternCache) (msg : Message) (binding : Binding) :
    Option Bool × PatternCache :=
  match Topic cache msg binding with
  | none => (none, cache)
  | some out =>
    (some out.matched,
      match out.deferred with
      | none => cache
      | some entry => store cache entry)

/-- The boolean obtained by translating the binding key afresh, without any cache. -/
def freshTopic (msg : Message) (binding : Binding) : Option Bool :=
  (MustCompileKey binding.bindingKey).map fun r => MatchString r msg.routingKey.toList

/-- A sequence of calls of `Topic`, the store of each call running before the next call
starts: the answers in order (`none` for a call that panicked, which leaves the cache as it
was) and the final cache. -/
def runCalls : PatternCache → List (Message × Binding) → List (Option Bool) × PatternCache
  | cache, [] => ([], cache)
  | cache, call :: calls =>
    let step := TopicCall cache call.1 call.2
    let rest := runCalls step.2 calls
    (step.1 :: rest.1, rest.2)

/-! ## The substitutions on building blocks -/

/-- Counterpart of `replaceGo` on building blocks: every non-overlapping occurrence of the
blocks `old`, found left to right, is replaced by the single block `new`. -/
def replaceTok (old : List Piece) (new : Piece) : Nat → List Piece → List Piece
  | _, [] => []
  | k + 1, _ :: ps => replaceTok old new k ps
  | 0, p :: ps =>
    if old.isPrefixOf (p :: ps) then new :: replaceTok old new (old.length - 1) ps
    else p :: replaceTok old new 0 ps

/-- The four substitutions for `#` (lines 57-60) on building blocks; an unreplaced `#` is
the block `Piece.chr '#'`. -/
def passes (ps : List Piece) : List Piece :=
  replaceTok [Piece.chr '#'] Piece.bareHash 0
    (replaceTok [Piece.chr '#', Piece.dot] Piece.leadHash 0
      (replaceTok [Piece.dot, Piece.chr '#'] Piece.trailHash 0
        (replaceTok [Piece.dot, Piece.chr '#', Piece.dot] Piece.midHash 0 ps)))

/-- Blocks that occur while a key over letters, digits, `.`, `*` and `#` is translated. -/
def Piece.Tok : Piece → Prop
  | Piece.chr c => c.isAlphanum = true ∨ c = '#'
  | _ => True

/-- The characters of a well-formed binding key. -/
def KeyChar (c : Char) : Prop :=
  c.isAlphanum = true ∨ c = '.' ∨ c = '*' ∨ c = '#'

instance (c : Char) : Decidable (KeyChar c) :=
  inferInstanceAs (Decidable (c.isAlphanum = true ∨ c = '.' ∨ c = '*' ∨ c = '#'))

/-- A text that is empty or starts with a dot. -/
def DotHead (u : List Char) : Prop :=
  u = [] ∨ ∃ v, u = '.' :: v

/-- Building blocks of the part of a key after its first segment, for segments of which no
two neighbours are `#`. -/
def restP : List (List Char) → List Piece
  | [] => []
  | s :: more =>
    if s = ['#'] then
      match more with
      | [] => [Piece.trailHash]
      | s' :: more' => Piece.midHash :: (s'.map toPiece ++ restP more')
    else Piece.dot :: (s.map toPiece ++ restP more)

/-- Building blocks of a key given by its segments, no two neighbours being `#`. -/
def firstP : List (List Char) → List Piece
  | [] => []
  | s :: more =>
    if s = ['#'] then
      match more with
      | [] => [Piece.bareHash]
      | s' :: more' => Piece.leadHash :: (s'.map toPiece ++ restP more')
    else s.map toPiece ++ restP more

/-! ## Concurrent calls of `Topic`

Calls of `Topic` and the goroutines they start run interleaved, one step at a time. The
`sync.RWMutex` embedded in `patternCache` is modelled by the number of holders of the read lock
and a flag for the write lock: `RLock` proceeds when no writer holds the lock, `Lock` when
nobody holds it. Each access to the map is one step. -/

/-- Program points of a call of `Topic` and of the goroutine of lines 64-69. -/
inductive Pc where
  /-- Line 49, before `patternCache.RLock()`. -/
  | start : Pc
  /-- Read lock held, before the map read of line 52. -/
  | locked : Pc
  /-- Result computed (`none` for the panic); the deferred `RUnlock` is still to run. -/
  | answered : Option Bool → Pc
  /-- After the deferred `RUnlock`: the call has returned (or its panic has propagated). -/
  | returned : Option Bool → Pc
  /-- Goroutine started (line 64), before `patternCache.Lock()`. -/
  | spawned : String × Regex → Pc
  /-- Write lock held, before the map write of line 68. -/
  | writing : String × Regex → Pc
  /-- Map written; the deferred `Unlock` is still to run. -/
  | written : Pc
  /-- Goroutine finished. -/
  | stopped : Pc

/-- A thread: a call of `Topic` on a message and a binding, or the goroutine started by such
a call (which captures the same binding). -/
structure Thread where
  msg : Message
  binding : Binding
  pc : Pc

/-- The thread holds the read lock: it is between `RLock` and the deferred `RUnlock`. -/
def Thread.holdsRead (th : Thread) : Bool :=
  match th.pc with
  | Pc.locked => true
  | Pc.answered _ => true
  | _ => false

/-- The thread holds the write lock: it is between `Lock` and the deferred `Unlock`. -/
def Thread.holdsWrite (th : Thread) : Bool :=
  match th.pc with
  | Pc.writing _ => true
  | Pc.written => true
  | _ => false

/-- The next step of the thread is the read of the map (line 52). -/
def Thread.readsMap (th : Thread) : Bool :=
  match th.pc with
  | Pc.locked => true
  | _ => false

/-- The next step of the thread is the write of the map (line 68). -/
def Thread.writesMap (th : Thread) : Bool :=
  match th.pc with
  | Pc.writing _ => true
  | _ => false

/-- The shared state: the map, the lock and the threads. -/
structure World where
  cache : PatternCache
  readers : Nat
  writer : Bool
  threads : List Thread

/-- One step of thread `i`; `none` when the thread does not exist, is blocked on the lock or
has finished. -/
def step (w : World) (i : Nat) : Option World :=
  match w.threads[i]? with
  | none => none
  | some th =>
    match th.pc with
    | Pc.start =>
      if w.writer then none
      else some { w with readers := w.readers + 1,
                         threads := w.threads.set i { th with pc := Pc.locked } }
    | Pc.locked =>
      match Topic w.cache th.msg th.binding with
      | none => some { w with threads := w.threads.set i { th with pc := Pc.answered none } }
      | some out =>
        some { w with threads :=
          w.threads.set i { th with pc := Pc.answered (some out.matched) } ++
            match out.deferred with
            | none => []
            | some entry => [{ th with pc := Pc.spawned entry }] }
    | Pc.answered r =>
      some { w with readers := w.readers - 1,
                    threads := w.threads.set i { th with pc := Pc.returned r } }
    | Pc.returned _ => none
    | Pc.spawned entry =>
      if w.writer || w.readers != 0 then none
      else some { w with writer := true,
                         threads := w.threads.set i { th with pc := Pc.writing entry } }
    | Pc.writing entry =>
      some { w with cache := store w.cache entry,
                    threads := w.threads.set i { th with pc := Pc.written } }
    | Pc.written =>
      some { w with writer := false,
                    threads := w.threads.set i { th with pc := Pc.stopped } }
    | Pc.stopped => none

/-- Run under a schedule: the listed threads take one step each, in order; a thread that
cannot step is passed over. -/
def exec (w : World) : List Nat → World
  | [] => w
  | i :: schedule => exec ((step w i).getD w) schedule

/-- Initial state: the given cache, the lock free, one thread per call, none started. -/
def initWorld (cache : PatternCache) (calls : List (Message × Binding)) : World :=
  ⟨cache, 0, false, calls.map fun call => ⟨call.1, call.2, Pc.start⟩⟩

/-- The answers of the calls that have returned, with their message and binding. -/
def World.answers (w : World) : List (Message × Binding × Option Bool) :=
  w.threads.filterMap fun th =>
    match th.pc with
    | Pc.returned r => some (th.msg, th.binding, r)
    | _ => none

/-- Every answer computed so far is the one of the uncached translation. -/
def World.AnswersFresh (w : World) : Prop :=
  ∀ th ∈ w.threads, ∀ r, (th.pc = Pc.answered r ∨ th.pc = Pc.returned r) →
    r = freshTopic th.msg th.binding

/-- Lock discipline: the lock counts are the threads inside their critical sections, the write
lock excludes readers, a thread about to read the map holds the read lock and a thread about
to write it holds the write lock. -/
def World.LockDiscipline (w : World) : Prop :=
  w.readers = w.threads.countP Thread.holdsRead ∧
  (if w.writer = true then 1 else 0) = w.threads.countP Thread.holdsWrite ∧
  (w.writer = true → w.readers = 0) ∧
  (∀ th ∈ w.threads, th.readsMap = true → th.holdsRead = true ∧ w.writer = false) ∧
  (∀ th ∈ w.threads, th.writesMap = true →
    th.holdsWrite = true ∧ w.writer = true ∧ w.readers = 0)

/-- No data race on the map: whenever a thread is about to write it, no other thread is about
to read or to write it. -/
def World.RaceFree (w : World) : Prop :=
  ∀ (i j : Nat) (a b : Thread), w.threads[i]? = some a → w.threads[j]? = some b → i ≠ j →
    a.writesMap = true → b.readsMap = false ∧ b.writesMap = false

/-- Invariant of the interleaved runs: the map holds only rules compiled from their keys, so
do the writes still to be done, every computed answer is the uncached one, and the lock
counts are the threads inside their critical sections. -/
structure World.Inv (w : World) : Prop where
  sound : CacheSound w.cache
  pending : ∀ th ∈ w.threads, ∀ e, (th.pc = Pc.spawned e ∨ th.pc = Pc.writing e) →
    MustCompileKey e.1 = some e.2
  fresh : ∀ th ∈ w.threads, ∀ r, (th.pc = Pc.answered r ∨ th.pc = Pc.returned r) →
    r = freshTopic th.msg th.binding
  readers_eq : w.readers = w.threads.countP Thread.holdsRead
  writer_eq : (if w.writer = true then 1 else 0) = w.threads.countP Thread.holdsWrite
  excl : w.writer = true → w.readers = 0

/-! ## `Topic` over an arbitrary `regexp` package -/

/-- Lines 48-73 with the `regexp` package as a parameter: `compile` stands for
`regexp.Compile` (`none` for its error, on which `MustCompile` panics), `run` for
`MatchString`, the rules being values of any type. The result is the boolean and the map
write handed to the goroutine; `none` is the panic. -/
def TopicBy {ρ : Type} (compile : List Char → Option ρ) (run : ρ → List Char → Bool)
    (cache : List (String × ρ)) (msg : Message) (binding : Binding) :
    Option (Bool × Option (String × ρ)) :=
  match cache.lookup binding.bindingKey with
  | some matcher => some (run matcher msg.routingKey.toList, none)
  | none =>
    match compile ('^' :: translate binding.bindingKey.toList ++ ['$']) with
    | none => none
    | some matcher =>
      some (run matcher msg.routingKey.toList, some (binding.bindingKey, matcher))

/-- One call of `TopicBy` followed by the map write of its goroutine. -/
def TopicCallBy {ρ : Type} (compile : List Char → Option ρ) (run : ρ → List Char → Bool)
    (cache : List (String × ρ)) (msg : Message) (binding : Binding) :
    Option Bool × List (String × ρ) :=
  match TopicBy compile run cache msg binding with
  | none => (none, cache)
  | some (b, none) => (some b, cache)
  | some (b, some entry) =>
    (some b,
      if (cache.lookup entry.1).isSome then
        cache.map fun kv => if kv.1 == entry.1 then entry else kv
      else cache ++ [entry])

/-- Every entry of the map holds the rule compiled from its key. -/
def EntriesSound (cache : PatternCache) : Prop :=
  ∀ kv ∈ cache, MustCompileKey kv.1 = some kv.2

/-! ## Progress of the interleaved runs -/

/-- The steps a thread can still take, those of the goroutine it may still start included. -/
def Pc.remaining : Pc → Nat
  | Pc.start => 6
  | Pc.locked => 5
  | Pc.answered _ => 1
  | Pc.returned _ => 0
  | Pc.spawned _ => 3
  | Pc.writing _ => 2
  | Pc.written => 1
  | Pc.stopped => 0

/-- The program point belongs to a call of `Topic` (not to a goroutine). -/
def Pc.isCall : Pc → Bool
  | Pc.start => true
  | Pc.locked => true
  | Pc.answered _ => true
  | Pc.returned _ => true
  | _ => false

/-- The thread has run to its end: the call has returned or the goroutine has finished. -/
def Thread.finished (th : Thread) : Bool :=
  match th.pc with
  | Pc.returned _ => true
  | Pc.stopped => true
  | _ => false

/-- The steps still to be taken by all threads together. -/
def World.remaining (w : World) : Nat :=
  (w.threads.map fun th => th.pc.remaining).sum

/-- Every call has returned and every goroutine has finished. -/
def World.Done (w : World) : Prop :=
  ∀ th ∈ w.threads, th.finished = true

instance (w : World) : Decidable w.Done :=
  inferInstanceAs (Decidable (∀ th ∈ w.threads, th.finished = true))

/-- What the first `n` threads, the calls, have returned so far: `some r` for a call that has
returned `r` (`r = none` being the panic), `none` for a call still running. -/
def World.results (w : World) (n : Nat) : List (Option (Option Bool)) :=
  (w.threads.take n).map fun th =>
    match th.pc with
    | Pc.returned r => some r
    | _ => none

/-- The first threads are the given calls, in order. -/
def World.Calls (w : World) (calls : List (Message × Binding)) : Prop :=
  ∀ (i : Nat) (call : Message × Binding), calls[i]? = some call →
    ∃ th, w.threads[i]? = some th ∧ th.msg = call.1 ∧ th.binding = call.2 ∧
      th.pc.isCall = true

/-! ## The matcher -/

theorem mem_splits (s a b : List Char) : (a, b) ∈ splits s ↔ a ++ b = s := by
  induction s generalizing a b with
  | nil => simp [splits]
  | cons c cs ih =>
    simp only [splits, List.mem_cons, List.mem_map, Prod.mk.injEq, Prod.exists]
    constructor
    · rintro (⟨rfl, rfl⟩ | ⟨x, y, hxy, rfl, rfl⟩)
      · rfl
      · simp [(ih x y).1 hxy]
    · intro h
      cases a with
      | nil => left; exact ⟨rfl, by simpa using h⟩
      | cons x xs =>
        right
        simp only [List.cons_append, List.cons.injEq] at h
        exact ⟨xs, b, (ih xs b).2 h.2, by simp [h.1], rfl⟩

theorem any_splits (s : List Char) (f : List Char × List Char → Bool) :
    (splits s).any f = true ↔ ∃ a b, s = a ++ b ∧ f (a, b) = true := by
  simp only [List.any_eq_true, Prod.exists]
  constructor
  · rintro ⟨a, b, hm, hf⟩
    exact ⟨a, b, ((mem_splits s a b).1 hm).symm, hf⟩
  · rintro ⟨a, b, hs, hf⟩
    exact ⟨a, b, (mem_splits s a b).2 hs.symm, hf⟩

theorem accepts_cat (r₁ r₂ : Regex) (b e : Bool) (s : List Char) :
    (Regex.cat r₁ r₂).accepts b e s = true ↔
      ∃ s₁ s₂, s = s₁ ++ s₂ ∧ r₁.accepts b (e && s₂.isEmpty) s₁ = true ∧
        r₂.accepts (b && s₁.isEmpty) e s₂ = true := by
  simp only [Regex.accepts, any_splits, Bool.and_eq_true]

theorem accepts_lit (c : Char) (b e : Bool) (s : List Char) :
    (Regex.lit c).accepts b e s = true ↔ s = [c] := by
  cases s with
  | nil => simp [Regex.accepts]
  | cons x xs =>
    cases xs with
    | nil => simp [Regex.accepts]
    | cons y ys => simp [Regex.accepts]

theorem accepts_cls (neg : Bool) (rs : List (Char × Char)) (b e : Bool) (s : List Char) :
    (Regex.cls neg rs).accepts b e s = true ↔ ∃ x, s = [x] ∧ clsMem neg rs x = true := by
  cases s with
  | nil => simp [Regex.accepts]
  | cons x xs =>
    cases xs with
    | nil => simp [Regex.accepts]
    | cons y ys => simp [Regex.accepts]

theorem accepts_mkCat_cons (r : Regex) (rs : List Regex) (b e : Bool) (s : List Char) :
    (mkCat (r :: rs)).accepts b e s = true ↔
      ∃ s₁ s₂, s = s₁ ++ s₂ ∧ r.accepts b (e && s₂.isEmpty) s₁ = true ∧
        (mkCat rs).accepts (b && s₁.isEmpty) e s₂ = true := by
  cases rs with
  | nil =>
    simp only [mkCat, Regex.accepts, List.isEmpty_iff]
    constructor
    · intro h
      exact ⟨s, [], by simp, by simpa using h, rfl⟩
    · rintro ⟨s₁, s₂, rfl, h₁, rfl⟩
      simpa using h₁
  | cons r' rs' => simp only [mkCat, accepts_cat]

theorem starLoop_cls (neg : Bool) (rs : List (Char × Char)) (n : Nat) (b e : Bool)
    (s : List Char) (hn : s.length ≤ n) :
    starLoop (fun b e t => (Regex.cls neg rs).accepts b e t) n b e s = true ↔
      ∀ x ∈ s, clsMem neg rs x = true := by
  induction n generalizing b e s with
  | zero =>
    have : s = [] := List.length_eq_zero.1 (Nat.le_zero.1 hn)
    subst this
    simp [starLoop]
  | succ n ih =>
    cases s with
    | nil => simp [starLoop]
    | cons c cs =>
      simp only [starLoop, List.isEmpty_cons, Bool.false_or, any_splits, Bool.and_eq_true,
        Bool.not_eq_true', accepts_cls]
      constructor
      · rintro ⟨a, t, hs, ⟨-, x, rfl, hx⟩, ht⟩
        simp only [List.singleton_append, List.cons.injEq] at hs
        obtain ⟨h₁, h₂⟩ := hs
        subst h₁ h₂
        have hl : cs.length ≤ n := by simpa using hn
        intro y hy
        rcases List.mem_cons.1 hy with rfl | hy
        · exact hx
        · exact (ih false e cs hl).1 ht y hy
      · intro h
        have hl : cs.length ≤ n := by simpa using hn
        refine ⟨[c], cs, rfl, ⟨rfl, c, rfl, h c (List.mem_cons_self _ _)⟩, ?_⟩
        exact (ih false e cs hl).2 fun y hy => h y (List.mem_cons_of_mem _ hy)

theorem accepts_star_eq (r : Regex) (b e : Bool) (s : List Char) :
    (Regex.star r).accepts b e s = starLoop (fun b e t => r.accepts b e t) s.length b e s := by
  simp only [Regex.accepts]

theorem accepts_plus_eq (r : Regex) (b e : Bool) (s : List Char) :
    (Regex.plus r).accepts b e s = (splits s).any fun p =>
      r.accepts b (e && p.2.isEmpty) p.1 &&
        starLoop (fun b e t => r.accepts b e t) p.2.length (b && p.1.isEmpty) e p.2 := by
  simp only [Regex.accepts]

theorem accepts_star_cls (neg : Bool) (rs : List (Char × Char)) (b e : Bool) (s : List Char) :
    (Regex.star (Regex.cls neg rs)).accepts b e s = true ↔ ∀ x ∈ s, clsMem neg rs x = true := by
  rw [accepts_star_eq]
  exact starLoop_cls neg rs s.length b e s (Nat.le_refl _)

theorem accepts_plus_cls (neg : Bool) (rs : List (Char × Char)) (b e : Bool) (s : List Char) :
    (Regex.plus (Regex.cls neg rs)).accepts b e s = true ↔
      s ≠ [] ∧ ∀ x ∈ s, clsMem neg rs x = true := by
  rw [accepts_plus_eq, any_splits]
  simp only [Bool.and_eq_true]
  constructor
  · rintro ⟨a, t, rfl, ha, ht⟩
    obtain ⟨x, rfl, hx⟩ := (accepts_cls neg rs _ _ _).1 ha
    refine ⟨by simp, ?_⟩
    intro y hy
    rcases List.mem_cons.1 hy with rfl | hy
    · exact hx
    · exact (starLoop_cls neg rs _ _ _ t (Nat.le_refl _)).1 ht y hy
  · rintro ⟨hne, h⟩
    cases s with
    | nil => exact absurd rfl hne
    | cons c cs =>
      refine ⟨[c], cs, rfl,
        (accepts_cls neg rs b (e && cs.isEmpty) [c]).2 ⟨c, rfl, h c (List.mem_cons_self _ _)⟩, ?_⟩
      exact (starLoop_cls neg rs _ _ _ cs (Nat.le_refl _)).2
        fun y hy => h y (List.mem_cons_of_mem _ hy)

theorem accepts_quest (r : Regex) (b e : Bool) (s : List Char) :
    (Regex.quest r).accepts b e s = true ↔ s = [] ∨ r.accepts b e s = true := by
  simp [Regex.accepts]

theorem accepts_alt (r₁ r₂ : Regex) (b e : Bool) (s : List Char) :
    (Regex.alt r₁ r₂).accepts b e s = true ↔
      r₁.accepts b e s = true ∨ r₂.accepts b e s = true := by
  simp [Regex.accepts]

theorem Piece.accepts_iff (p : Piece) (b e : Bool) (s : List Char) :
    p.re.accepts b e s = true ↔ p.Lang s := by
  cases p with
  | chr c => exact accepts_lit c b e s
  | dot => exact accepts_lit '.' b e s
  | word => exact accepts_plus_cls false wordRanges b e s
  | bareHash => exact accepts_star_cls false pathRanges b e s
  | midHash =>
    simp only [Piece.re, Piece.Lang, accepts_alt, accepts_cat, accepts_lit, accepts_star_cls]
    constructor
    · rintro (h | ⟨s₁, s₂, rfl, rfl, t₁, t₂, rfl, h, rfl⟩)
      · exact Or.inl h
      · exact Or.inr ⟨t₁, rfl, h⟩
    · rintro (h | ⟨m, rfl, h⟩)
      · exact Or.inl h
      · exact Or.inr ⟨['.'], m ++ ['.'], rfl, rfl, m, ['.'], rfl, h, rfl⟩
  | trailHash =>
    simp only [Piece.re, Piece.Lang, accepts_quest, accepts_cat, accepts_lit, accepts_star_cls]
    constructor
    · rintro (h | ⟨s₁, s₂, rfl, rfl, h⟩)
      · exact Or.inl h
      · exact Or.inr ⟨s₂, rfl, h⟩
    · rintro (h | ⟨m, rfl, h⟩)
      · exact Or.inl h
      · exact Or.inr ⟨['.'], m, rfl, rfl, h⟩
  | leadHash =>
    simp only [Piece.re, Piece.Lang, accepts_quest, accepts_cat, accepts_lit, accepts_star_cls]
    constructor
    · rintro (h | ⟨s₁, s₂, rfl, h, rfl⟩)
      · exact Or.inl h
      · exact Or.inr ⟨s₁, rfl, h⟩
    · rintro (h | ⟨m, rfl, h⟩)
      · exact Or.inl h
      · exact Or.inr ⟨m, ['.'], rfl, h, rfl⟩

theorem accepts_pieces_eol (ps : List Piece) (b e : Bool) (s : List Char) :
    (mkCat (ps.map Piece.re ++ [Regex.eol])).accepts b e s = true ↔
      e = true ∧ PiecesLang ps s := by
  induction ps generalizing b s with
  | nil =>
    simp only [List.map_nil, List.nil_append, mkCat, Regex.accepts, Bool.and_eq_true,
      List.isEmpty_iff, PiecesLang]
    exact And.comm
  | cons p ps ih =>
    simp only [List.map_cons, List.cons_append, accepts_mkCat_cons, Piece.accepts_iff, ih,
      PiecesLang]
    constructor
    · rintro ⟨s₁, s₂, rfl, h₁, he, h₂⟩
      exact ⟨he, s₁, s₂, rfl, h₁, h₂⟩
    · rintro ⟨he, s₁, s₂, rfl, h₁, h₂⟩
      exact ⟨s₁, s₂, rfl, h₁, he, h₂⟩

theorem accepts_anchored (ps : List Piece) (b e : Bool) (s : List Char) :
    (mkCat (Regex.bol :: (ps.map Piece.re ++ [Regex.eol]))).accepts b e s = true ↔
      b = true ∧ e = true ∧ PiecesLang ps s := by
  rw [accepts_mkCat_cons]
  constructor
  · rintro ⟨s₁, s₂, rfl, h₁, h₂⟩
    simp only [Regex.accepts, Bool.and_eq_true, List.isEmpty_iff] at h₁
    obtain ⟨rfl, hb⟩ := h₁
    subst hb
    have := (accepts_pieces_eol ps _ e s₂).1 h₂
    exact ⟨rfl, this.1, by simpa using this.2⟩
  · rintro ⟨rfl, rfl, h⟩
    refine ⟨[], s, rfl, by simp [Regex.accepts], ?_⟩
    exact (accepts_pieces_eol ps _ true s).2 ⟨rfl, h⟩

theorem MatchString_anchored (ps : List Piece) (s : List Char) :
    MatchString (mkCat (Regex.bol :: (ps.map Piece.re ++ [Regex.eol]))) s = true ↔
      PiecesLang ps s := by
  unfold MatchString
  simp only [any_splits, accepts_anchored, List.isEmpty_iff]
  constructor
  · rintro ⟨a, t, rfl, m, z, rfl, rfl, rfl, h⟩
    simpa using h
  · intro h
    exact ⟨[], s, rfl, s, [], by simp, rfl, rfl, h⟩

/-! ## The parser on translated pattern text -/

theorem parseRun_append (st : PState) (s t : List Char) :
    parseRun st (s ++ t) = (parseRun st s).bind fun st' => parseRun st' t := by
  simp [parseRun, List.foldlM_append]

theorem parseRun_nil (st : PState) : parseRun st [] = some st := rfl

theorem parseRun_cons (st : PState) (c : Char) (s : List Char) :
    parseRun st (c :: s) = (parseStep st c).bind fun st' => parseRun st' s := by
  simp [parseRun, List.foldlM_cons]

theorem normStep_alnum (st : PState) (c : Char) (hc : c.isAlphanum = true) :
    normStep st c = some (st.push (Regex.lit c)) := by
  have h1 : c ≠ '\\' := by rintro rfl; revert hc; decide
  have h2 : c ≠ '[' := by rintro rfl; revert hc; decide
  have h3 : c ≠ '(' := by rintro rfl; revert hc; decide
  have h4 : c ≠ ')' := by rintro rfl; revert hc; decide
  have h5 : c ≠ '|' := by rintro rfl; revert hc; decide
  have h6 : c ≠ '*' := by rintro rfl; revert hc; decide
  have h7 : c ≠ '+' := by rintro rfl; revert hc; decide
  have h8 : c ≠ '?' := by rintro rfl; revert hc; decide
  have h9 : c ≠ '^' := by rintro rfl; revert hc; decide
  have h10 : c ≠ '$' := by rintro rfl; revert hc; decide
  have h11 : c ≠ '.' := by rintro rfl; revert hc; decide
  have h12 : c ≠ '{' := by rintro rfl; revert hc; decide
  simp [normStep, h1, h2, h3, h4, h5, h6, h7, h8, h9, h10, h11, h12]

theorem parseRun_piece (p : Piece) (hp : p.Ok) (rep : Rep) (cur : Frame) (stack : List Frame) :
    ∃ rep', parseRun ⟨Mode.norm, rep, cur, stack⟩ p.text =
      some ⟨Mode.norm, rep', ⟨cur.alts, p.re :: cur.items⟩, stack⟩ := by
  cases p with
  | chr c =>
    refine ⟨Rep.none, ?_⟩
    simp only [Piece.text, parseRun_cons, parseRun_nil, parseStep, normStep_alnum _ c hp]
    rfl
  | dot => exact ⟨Rep.none, rfl⟩
  | word => exact ⟨Rep.fresh, rfl⟩
  | midHash => exact ⟨Rep.none, rfl⟩
  | trailHash => exact ⟨Rep.fresh, rfl⟩
  | leadHash => exact ⟨Rep.fresh, rfl⟩
  | bareHash => exact ⟨Rep.fresh, rfl⟩

theorem parseRun_pieces (ps : List Piece) (hp : ∀ p ∈ ps, p.Ok) (rep : Rep) (cur : Frame)
    (stack : List Frame) :
    ∃ rep', parseRun ⟨Mode.norm, rep, cur, stack⟩ (ps.flatMap Piece.text) =
      some ⟨Mode.norm, rep', ⟨cur.alts, (ps.map Piece.re).reverse ++ cur.items⟩, stack⟩ := by
  induction ps generalizing rep cur with
  | nil => exact ⟨rep, rfl⟩
  | cons p ps ih =>
    obtain ⟨r₁, h₁⟩ := parseRun_piece p (hp p (List.mem_cons_self _ _)) rep cur stack
    obtain ⟨r₂, h₂⟩ := ih (fun q hq => hp q (List.mem_cons_of_mem _ hq)) r₁
      ⟨cur.alts, p.re :: cur.items⟩
    refine ⟨r₂, ?_⟩
    rw [List.flatMap_cons, parseRun_append, h₁, Option.some_bind, h₂]
    simp

theorem Compile_pieces (ps : List Piece) (hp : ∀ p ∈ ps, p.Ok) :
    Compile ('^' :: (ps.flatMap Piece.text ++ ['$'])) =
      some (mkCat (Regex.bol :: (ps.map Piece.re ++ [Regex.eol]))) := by
  obtain ⟨r, h⟩ := parseRun_pieces ps hp Rep.none ⟨[], [Regex.bol]⟩ []
  have h0 : parseStep ⟨Mode.norm, Rep.none, ⟨[], []⟩, []⟩ '^' =
      some ⟨Mode.norm, Rep.none, ⟨[], [Regex.bol]⟩, []⟩ := rfl
  have h1 : ∀ items, parseRun ⟨Mode.norm, r, ⟨[], items⟩, []⟩ ['$'] =
      some ⟨Mode.norm, Rep.none, ⟨[], Regex.eol :: items⟩, []⟩ := fun _ => rfl
  unfold Compile
  rw [parseRun_cons, h0, Option.some_bind, parseRun_append, h, Option.some_bind, h1,
    Option.some_bind]
  simp [parseFinish, Frame.close, mkAlt]

/-! ## `strings.Replace` on keys -/

theorem isPrefixOf_cons_cons (a b : Char) (as bs : List Char) :
    (a :: as).isPrefixOf (b :: bs) = (a == b && as.isPrefixOf bs) := rfl

theorem isPrefixOf_cons_nil (a : Char) (as : List Char) :
    (a :: as).isPrefixOf [] = false := rfl

theorem isPrefixOf_self_append (a t : List Char) : a.isPrefixOf (a ++ t) = true := by
  induction a with
  | nil => cases t <;> rfl
  | cons x xs ih => simp [isPrefixOf_cons_cons, ih]

theorem replaceGo_nil (old new : List Char) (k : Nat) : replaceGo old new k [] = [] := by
  cases k <;> rfl

theorem replaceGo_skip (old new : List Char) (a t : List Char) :
    replaceGo old new a.length (a ++ t) = replaceGo old new 0 t := by
  induction a with
  | nil => rfl
  | cons x xs ih => simpa [replaceGo] using ih

theorem replaceGo_miss (old new : List Char) (c : Char) (s : List Char)
    (h : old.isPrefixOf (c :: s) = false) :
    replaceGo old new 0 (c :: s) = c :: replaceGo old new 0 s := by
  simp [replaceGo, h]

theorem replaceGo_hit (old new : List Char) (o : Char) (os t : List Char) (h : old = o :: os) :
    replaceGo old new 0 (old ++ t) = new ++ replaceGo old new 0 t := by
  subst h
  have hp : (o :: os).isPrefixOf (o :: (os ++ t)) = true :=
    isPrefixOf_self_append (o :: os) t
  have hs := replaceGo_skip (o :: os) new os t
  show (if (o :: os).isPrefixOf (o :: (os ++ t)) = true then
      new ++ replaceGo (o :: os) new ((o :: os).length - 1) (os ++ t)
    else o :: replaceGo (o :: os) new 0 (os ++ t)) = _
  rw [if_pos hp]
  simpa using hs

theorem stringsReplace_single (s : List Char) (a : Char) (new : List Char) :
    stringsReplace s [a] new = s.flatMap fun c => if c = a then new else [c] := by
  unfold stringsReplace
  induction s with
  | nil => rfl
  | cons c cs ih =>
    by_cases h : c = a
    · subst h
      simp [replaceGo, ih]
    · have h' : ¬ a = c := fun e => h e.symm
      simp [replaceGo, ih, h, h']

theorem replaceGo_hashHead (new rest : List Char) (x t : List Char) (hx : '#' ∉ x) :
    replaceGo ('#' :: rest) new 0 (x ++ t) = x ++ replaceGo ('#' :: rest) new 0 t := by
  induction x with
  | nil => rfl
  | cons c cs ih =>
    have hc : ¬ '#' = c := fun e => hx (by rw [← e]; exact List.mem_cons_self _ _)
    have hcs : '#' ∉ cs := fun h => hx (List.mem_cons_of_mem _ h)
    rw [List.cons_append, replaceGo_miss _ _ _ _ (by simp [isPrefixOf_cons_cons, hc]), ih hcs]
    rfl

theorem replaceGo_hashThird (new rest : List Char) (a b : Char) (x t : List Char)
    (hx : '#' ∉ x) (ht : ∀ c cs, t = c :: cs → c ≠ '#' ∧ c ≠ b) :
    replaceGo (a :: b :: '#' :: rest) new 0 (x ++ t) =
      x ++ replaceGo (a :: b :: '#' :: rest) new 0 t := by
  induction x with
  | nil => rfl
  | cons c cs ih =>
    have hcs : '#' ∉ cs := fun h => hx (List.mem_cons_of_mem _ h)
    have hmiss : (a :: b :: '#' :: rest).isPrefixOf (c :: (cs ++ t)) = false := by
      cases cs with
      | nil =>
        cases t with
        | nil => simp [isPrefixOf_cons_cons, isPrefixOf_cons_nil]
        | cons u us =>
          have := (ht u us rfl).2
          have hb : ¬ b = u := fun e => this e.symm
          simp [isPrefixOf_cons_cons, hb]
      | cons y ys =>
        cases ys with
        | nil =>
          cases t with
          | nil => simp [isPrefixOf_cons_cons, isPrefixOf_cons_nil]
          | cons u us =>
            have := (ht u us rfl).1
            have hb : ¬ '#' = u := fun e => this e.symm
            simp [isPrefixOf_cons_cons, hb]
        | cons z zs =>
          have hz : ¬ '#' = z := fun e => hx (by rw [← e]; simp)
          simp [isPrefixOf_cons_cons, hz]
    rw [List.cons_append, replaceGo_miss _ _ _ _ hmiss, ih hcs]
    rfl

theorem stringsReplace_hashFree (s old new : List Char) (hs : '#' ∉ s)
    (ho : (∃ rest, old = '#' :: rest) ∨ ∃ a b rest, old = a :: b :: '#' :: rest) :
    stringsReplace s old new = s := by
  unfold stringsReplace
  rcases ho with ⟨rest, rfl⟩ | ⟨a, b, rest, rfl⟩
  · simpa [replaceGo_nil] using replaceGo_hashHead new rest s [] hs
  · simpa [replaceGo_nil] using
      replaceGo_hashThird new rest a b s [] hs (fun c cs h => by cases h)

/-! ## The translation of keys -/

theorem translate_eq (key : List Char) :
    translate key =
      stringsReplace (stringsReplace (stringsReplace (stringsReplace
        (stringsReplace (stringsReplace key ['.'] ['\\', '.']) ['*'] Piece.word.text)
        ['\\', '.', '#', '\\', '.'] Piece.midHash.text)
        ['\\', '.', '#'] Piece.trailHash.text)
        ['#', '\\', '.'] Piece.leadHash.text)
        ['#'] Piece.bareHash.text := rfl

theorem tr2_eq (key : List Char) :
    stringsReplace (stringsReplace key ['.'] ['\\', '.']) ['*'] Piece.word.text = tr2 key := by
  rw [stringsReplace_single, stringsReplace_single, List.flatMap_assoc]
  unfold tr2
  congr 1
  funext c
  by_cases h₁ : c = '.'
  · subst h₁
    simp [toPiece, Piece.text]
  · by_cases h₂ : c = '*'
    · subst h₂
      simp [toPiece, Piece.text]
    · simp [toPiece, Piece.text, h₁, h₂]

theorem tr2_append (a b : List Char) : tr2 (a ++ b) = tr2 a ++ tr2 b := by
  simp [tr2]

theorem tr2_pieces (key : List Char) : tr2 key = (key.map toPiece).flatMap Piece.text := by
  induction key with
  | nil => rfl
  | cons c cs ih =>
    show (toPiece c).text ++ tr2 cs = _
    rw [ih]
    rfl

theorem hash_not_mem_tr2 (key : List Char) (h : '#' ∉ key) : '#' ∉ tr2 key := by
  induction key with
  | nil => simp [tr2]
  | cons c cs ih =>
    have hc : ¬ '#' = c := fun e => h (by rw [← e]; exact List.mem_cons_self _ _)
    have hcs : '#' ∉ cs := fun m => h (List.mem_cons_of_mem _ m)
    show '#' ∉ (toPiece c).text ++ tr2 cs
    rw [List.mem_append]
    rintro (m | m)
    · unfold toPiece at m
      split_ifs at m
      · revert m; decide
      · revert m; decide
      · exact hc (by simpa [Piece.text] using m)
    · exact ih hcs m

theorem bs_head (ts : List Char) :
    ∀ c cs, '\\' :: ts = c :: cs → c ≠ '#' ∧ c ≠ '.' := by
  intro c cs h
  cases h
  exact ⟨by decide, by decide⟩

theorem translate_of_tr2 (key out : List Char) (ho : '#' ∉ out)
    (h : stringsReplace (stringsReplace (stringsReplace (tr2 key)
        ['\\', '.', '#', '\\', '.'] Piece.midHash.text)
        ['\\', '.', '#'] Piece.trailHash.text)
        ['#', '\\', '.'] Piece.leadHash.text = out) :
    translate key = out := by
  rw [translate_eq, tr2_eq, h]
  exact stringsReplace_hashFree _ _ _ ho (Or.inl ⟨[], rfl⟩)

theorem translate_hashFree (key : List Char) (h : '#' ∉ key) :
    translate key = (key.map toPiece).flatMap Piece.text := by
  have ht := hash_not_mem_tr2 key h
  rw [← tr2_pieces]
  apply translate_of_tr2 _ _ ht
  rw [stringsReplace_hashFree _ _ _ ht (Or.inr ⟨_, _, _, rfl⟩),
    stringsReplace_hashFree _ _ _ ht (Or.inr ⟨_, _, _, rfl⟩),
    stringsReplace_hashFree _ _ _ ht (Or.inl ⟨_, rfl⟩)]

theorem translate_trail (l : List Char) (h : '#' ∉ l) :
    translate (l ++ ['.', '#']) =
      (l.map toPiece ++ [Piece.trailHash]).flatMap Piece.text := by
  have ht := hash_not_mem_tr2 l h
  have hout : '#' ∉ tr2 l ++ Piece.trailHash.text := by
    rw [List.mem_append]
    rintro (m | m)
    · exact ht m
    · revert m; decide
  have e : (l.map toPiece ++ [Piece.trailHash]).flatMap Piece.text =
      tr2 l ++ Piece.trailHash.text := by
    simp [tr2_pieces]
  rw [e]
  apply translate_of_tr2 _ _ hout
  have e2 : tr2 (l ++ ['.', '#']) = tr2 l ++ ['\\', '.', '#'] := by
    rw [tr2_append]; rfl
  rw [e2]
  have s3 : stringsReplace (tr2 l ++ ['\\', '.', '#']) ['\\', '.', '#', '\\', '.']
      Piece.midHash.text = tr2 l ++ ['\\', '.', '#'] := by
    unfold stringsReplace
    rw [replaceGo_hashThird _ _ _ _ _ _ ht (bs_head _)]
    rfl
  have s4 : stringsReplace (tr2 l ++ ['\\', '.', '#']) ['\\', '.', '#']
      Piece.trailHash.text = tr2 l ++ Piece.trailHash.text := by
    unfold stringsReplace
    rw [replaceGo_hashThird _ _ _ _ _ _ ht (bs_head _)]
    rfl
  rw [s3, s4]
  exact stringsReplace_hashFree _ _ _ hout (Or.inl ⟨_, rfl⟩)

theorem translate_mid (a c : List Char) (ha : '#' ∉ a) (hc : '#' ∉ c) :
    translate (a ++ ['.', '#', '.'] ++ c) =
      (a.map toPiece ++ [Piece.midHash] ++ c.map toPiece).flatMap Piece.text := by
  have hta := hash_not_mem_tr2 a ha
  have htc := hash_not_mem_tr2 c hc
  have hout : '#' ∉ tr2 a ++ Piece.midHash.text ++ tr2 c := by
    rw [List.mem_append, List.mem_append]
    rintro ((m | m) | m)
    · exact hta m
    · revert m; decide
    · exact htc m
  have e : (a.map toPiece ++ [Piece.midHash] ++ c.map toPiece).flatMap Piece.text =
      tr2 a ++ Piece.midHash.text ++ tr2 c := by
    simp [tr2_pieces]
  rw [e]
  apply translate_of_tr2 _ _ hout
  have e2 : tr2 (a ++ ['.', '#', '.'] ++ c) =
      tr2 a ++ (['\\', '.', '#', '\\', '.'] ++ tr2 c) := by
    rw [tr2_append, tr2_append, List.append_assoc]; rfl
  rw [e2]
  have s3 : stringsReplace (tr2 a ++ (['\\', '.', '#', '\\', '.'] ++ tr2 c))
      ['\\', '.', '#', '\\', '.'] Piece.midHash.text =
      tr2 a ++ Piece.midHash.text ++ tr2 c := by
    unfold stringsReplace
    rw [replaceGo_hashThird Piece.midHash.text ['\\', '.'] '\\' '.' (tr2 a)
        (['\\', '.', '#', '\\', '.'] ++ tr2 c) hta (bs_head _),
      replaceGo_hit _ _ '\\' ['.', '#', '\\', '.'] _ rfl]
    have := stringsReplace_hashFree (tr2 c) ['\\', '.', '#', '\\', '.'] Piece.midHash.text htc
      (Or.inr ⟨_, _, _, rfl⟩)
    unfold stringsReplace at this
    rw [this, List.append_assoc]
  rw [s3, stringsReplace_hashFree _ _ _ hout (Or.inr ⟨_, _, _, rfl⟩)]
  exact stringsReplace_hashFree _ _ _ hout (Or.inl ⟨_, rfl⟩)

theorem translate_lead (l : List Char) (h : '#' ∉ l) :
    translate (['#', '.'] ++ l) = (Piece.leadHash :: l.map toPiece).flatMap Piece.text := by
  have ht := hash_not_mem_tr2 l h
  have hrest : '#' ∉ '\\' :: '.' :: tr2 l := by
    intro m
    rcases List.mem_cons.1 m with m | m
    · revert m; decide
    · rcases List.mem_cons.1 m with m | m
      · revert m; decide
      · exact ht m
  have hout : '#' ∉ Piece.leadHash.text ++ tr2 l := by
    rw [List.mem_append]
    rintro (m | m)
    · revert m; decide
    · exact ht m
  have e : (Piece.leadHash :: l.map toPiece).flatMap Piece.text =
      Piece.leadHash.text ++ tr2 l := by
    simp [tr2_pieces]
  rw [e]
  apply translate_of_tr2 _ _ hout
  have e2 : tr2 (['#', '.'] ++ l) = '#' :: '\\' :: '.' :: tr2 l := by
    rw [tr2_append]; rfl
  rw [e2]
  have s3 : stringsReplace ('#' :: '\\' :: '.' :: tr2 l) ['\\', '.', '#', '\\', '.']
      Piece.midHash.text = '#' :: '\\' :: '.' :: tr2 l := by
    have := stringsReplace_hashFree _ ['\\', '.', '#', '\\', '.'] Piece.midHash.text hrest
      (Or.inr ⟨_, _, _, rfl⟩)
    unfold stringsReplace at this ⊢
    rw [replaceGo_miss _ _ _ _ (by simp [isPrefixOf_cons_cons]), this]
  have s4 : stringsReplace ('#' :: '\\' :: '.' :: tr2 l) ['\\', '.', '#']
      Piece.trailHash.text = '#' :: '\\' :: '.' :: tr2 l := by
    have := stringsReplace_hashFree _ ['\\', '.', '#'] Piece.trailHash.text hrest
      (Or.inr ⟨_, _, _, rfl⟩)
    unfold stringsReplace at this ⊢
    rw [replaceGo_miss _ _ _ _ (by simp [isPrefixOf_cons_cons]), this]
  have s5 : stringsReplace ('#' :: '\\' :: '.' :: tr2 l) ['#', '\\', '.']
      Piece.leadHash.text = Piece.leadHash.text ++ tr2 l := by
    have := stringsReplace_hashFree (tr2 l) ['#', '\\', '.'] Piece.leadHash.text ht
      (Or.inl ⟨_, rfl⟩)
    unfold stringsReplace at this ⊢
    have hh := replaceGo_hit ['#', '\\', '.'] Piece.leadHash.text '#' ['\\', '.'] (tr2 l) rfl
    rw [this] at hh
    exact hh
  rw [s3, s4, s5]

/-! ## From pieces to `Topic` -/

theorem Topic_of_compile (cache : PatternCache) (hc : CacheSound cache) (msg : Message)
    (binding : Binding) (r : Regex) (hr : MustCompileKey binding.bindingKey = some r) :
    ∃ out, Topic cache msg binding = some out ∧
      out.matched = MatchString r msg.routingKey.toList := by
  unfold Topic
  cases hl : List.lookup binding.bindingKey cache with
  | some m =>
    have := hc _ _ hl
    rw [hr] at this
    cases this
    exact ⟨_, rfl, rfl⟩
  | none =>
    simp only [hr]
    exact ⟨_, rfl, rfl⟩

theorem Topic_of_pieces (cache : PatternCache) (hc : CacheSound cache) (msg : Message)
    (binding : Binding) (ps : List Piece) (hp : ∀ p ∈ ps, p.Ok)
    (ht : translate binding.bindingKey.toList = ps.flatMap Piece.text) :
    ∃ out, Topic cache msg binding = some out ∧
      (out.matched = true ↔ PiecesLang ps msg.routingKey.toList) := by
  have hr : MustCompileKey binding.bindingKey =
      some (mkCat (Regex.bol :: (ps.map Piece.re ++ [Regex.eol]))) := by
    unfold MustCompileKey
    rw [ht]
    exact Compile_pieces ps hp
  obtain ⟨out, ho, hm⟩ := Topic_of_compile cache hc msg binding _ hr
  exact ⟨out, ho, by rw [hm]; exact MatchString_anchored ps _⟩

theorem CacheSound_nil : CacheSound [] := by
  intro key matcher h
  cases h

/-! ## Characters and classes -/

theorem alnum_bounds (c : Char) (h : c.isAlphanum = true) :
    (48 ≤ c.toNat ∧ c.toNat ≤ 57) ∨ (65 ≤ c.toNat ∧ c.toNat ≤ 90) ∨
      (97 ≤ c.toNat ∧ c.toNat ≤ 122) := by
  simp only [Char.isAlphanum, Char.isAlpha, Char.isUpper, Char.isLower, Char.isDigit,
    Bool.or_eq_true, Bool.and_eq_true, decide_eq_true_eq] at h
  have e : c.toNat = c.val.toNat := rfl
  rw [e]
  rcases h with (⟨h1, h2⟩ | ⟨h1, h2⟩) | ⟨h1, h2⟩
  · right; left
    exact ⟨h1, h2⟩
  · right; right
    exact ⟨h1, h2⟩
  · left
    exact ⟨h1, h2⟩

theorem clsMem_word_iff (c : Char) :
    clsMem false wordRanges c = true ↔
      (48 ≤ c.toNat ∧ c.toNat ≤ 57) ∨ (65 ≤ c.toNat ∧ c.toNat ≤ 122) := by
  simp [clsMem, wordRanges]

theorem clsMem_path_iff (c : Char) :
    clsMem false pathRanges c = true ↔
      (48 ≤ c.toNat ∧ c.toNat ≤ 57) ∨ (65 ≤ c.toNat ∧ c.toNat ≤ 122) ∨ c.toNat = 46 := by
  simp [clsMem, pathRanges]
  omega

theorem alnum_word (c : Char) (h : c.isAlphanum = true) : clsMem false wordRanges c = true := by
  rw [clsMem_word_iff]
  have := alnum_bounds c h
  omega

theorem alnum_path (c : Char) (h : c.isAlphanum = true) : clsMem false pathRanges c = true := by
  rw [clsMem_path_iff]
  have := alnum_bounds c h
  omega

theorem dot_path : clsMem false pathRanges '.' = true := by decide

theorem key_path (c : Char) (h : c.isAlphanum = true ∨ c = '.') :
    clsMem false pathRanges c = true := by
  rcases h with h | rfl
  · exact alnum_path c h
  · exact dot_path

theorem word_ne_dot (c : Char) (h : clsMem false wordRanges c = true) : c ≠ '.' := by
  rintro rfl
  revert h
  decide

theorem alnum_ne_dot (c : Char) (h : c.isAlphanum = true) : c ≠ '.' := by
  rintro rfl; revert h; decide

theorem alnum_ne_star (c : Char) (h : c.isAlphanum = true) : c ≠ '*' := by
  rintro rfl; revert h; decide

theorem alnum_ne_hash (c : Char) (h : c.isAlphanum = true) : c ≠ '#' := by
  rintro rfl; revert h; decide

/-! ## Languages of piece sequences -/

theorem toPiece_lang (c : Char) (hc : c ≠ '*') (s : List Char) :
    (toPiece c).Lang s ↔ s = [c] := by
  unfold toPiece
  by_cases h : c = '.'
  · subst h
    simp [Piece.Lang]
  · simp [h, hc, Piece.Lang]

theorem toPiece_ok (c : Char) (h : c.isAlphanum = true ∨ c = '.' ∨ c = '*') :
    (toPiece c).Ok := by
  unfold toPiece
  by_cases h₁ : c = '.'
  · simp [h₁, Piece.Ok]
  · by_cases h₂ : c = '*'
    · simp [h₂, Piece.Ok]
    · rcases h with h | h | h
      · simpa [h₁, h₂, Piece.Ok] using h
      · exact absurd h h₁
      · exact absurd h h₂

theorem PiecesLang_append (ps qs : List Piece) (s : List Char) :
    PiecesLang (ps ++ qs) s ↔ ∃ s₁ s₂, s = s₁ ++ s₂ ∧ PiecesLang ps s₁ ∧ PiecesLang qs s₂ := by
  induction ps generalizing s with
  | nil =>
    simp only [List.nil_append, PiecesLang]
    constructor
    · intro h
      exact ⟨[], s, rfl, rfl, h⟩
    · rintro ⟨s₁, s₂, rfl, rfl, h⟩
      exact h
  | cons p ps ih =>
    show (∃ a b, s = a ++ b ∧ p.Lang a ∧ PiecesLang (ps ++ qs) b) ↔
      ∃ s₁ s₂, s = s₁ ++ s₂ ∧ (∃ a b, s₁ = a ++ b ∧ p.Lang a ∧ PiecesLang ps b) ∧
        PiecesLang qs s₂
    constructor
    · rintro ⟨a, b, rfl, ha, hb⟩
      obtain ⟨b₁, b₂, rfl, h₁, h₂⟩ := (ih b).1 hb
      exact ⟨a ++ b₁, b₂, by simp, ⟨a, b₁, rfl, ha, h₁⟩, h₂⟩
    · rintro ⟨s₁, s₂, rfl, ⟨a, b₁, rfl, ha, h₁⟩, h₂⟩
      exact ⟨a, b₁ ++ s₂, by simp, ha, (ih _).2 ⟨b₁, s₂, rfl, h₁, h₂⟩⟩

theorem PiecesLang_single (p : Piece) (s : List Char) : PiecesLang [p] s ↔ p.Lang s := by
  simp only [PiecesLang]
  constructor
  · rintro ⟨s₁, s₂, rfl, h, rfl⟩
    simpa using h
  · intro h
    exact ⟨s, [], by simp, h, rfl⟩

theorem PiecesLang_lits (k : List Char) (hk : ∀ c ∈ k, c ≠ '*') (s : List Char) :
    PiecesLang (k.map toPiece) s ↔ s = k := by
  induction k generalizing s with
  | nil => simp [PiecesLang]
  | cons c cs ih =>
    simp only [List.map_cons, PiecesLang, toPiece_lang c (hk c (List.mem_cons_self _ _)),
      ih (fun d hd => hk d (List.mem_cons_of_mem _ hd))]
    constructor
    · rintro ⟨s₁, s₂, rfl, rfl, rfl⟩
      rfl
    · rintro rfl
      exact ⟨[c], cs, rfl, rfl, rfl⟩

theorem PiecesLang_lits_append (k : List Char) (hk : ∀ c ∈ k, c ≠ '*') (ps : List Piece)
    (s : List Char) :
    PiecesLang (k.map toPiece ++ ps) s ↔ ∃ t, s = k ++ t ∧ PiecesLang ps t := by
  rw [PiecesLang_append]
  constructor
  · rintro ⟨s₁, s₂, rfl, h₁, h₂⟩
    rw [PiecesLang_lits k hk] at h₁
    exact ⟨s₂, by rw [h₁], h₂⟩
  · rintro ⟨t, rfl, h⟩
    exact ⟨k, t, rfl, (PiecesLang_lits k hk k).2 rfl, h⟩

/-! ## Splitting on dots -/

theorem splitOn_single (l : List Char) (h : '.' ∉ l) : l.splitOn '.' = [l] := by
  apply List.splitOnP_eq_single
  intro x hx hp
  rw [beq_iff_eq] at hp
  exact h (hp ▸ hx)

theorem splitOn_first (w rest : List Char) (h : '.' ∉ w) :
    (w ++ '.' :: rest).splitOn '.' = w :: rest.splitOn '.' := by
  apply List.splitOnP_first
  · intro x hx hp
    rw [beq_iff_eq] at hp
    exact h (hp ▸ hx)
  · simp

theorem splitOn_ne_nil (l : List Char) : l.splitOn '.' ≠ [] :=
  List.splitOnP_ne_nil _ _

theorem dot_decomp (l : List Char) :
    '.' ∉ l ∨ ∃ w rest, '.' ∉ w ∧ l = w ++ '.' :: rest := by
  induction l with
  | nil => left; simp
  | cons c cs ih =>
    by_cases hc : c = '.'
    · right
      exact ⟨[], cs, by simp, by simp [hc]⟩
    · rcases ih with h | ⟨w, rest, hw, rfl⟩
      · left
        intro m
        rcases List.mem_cons.1 m with m | m
        · exact hc m.symm
        · exact h m
      · right
        refine ⟨c :: w, rest, ?_, rfl⟩
        intro m
        rcases List.mem_cons.1 m with m | m
        · exact hc m.symm
        · exact hw m

theorem dot_induction {P : List Char → Prop} (single : ∀ w, '.' ∉ w → P w)
    (step : ∀ w rest, '.' ∉ w → P rest → P (w ++ '.' :: rest)) : ∀ l, P l := by
  have key : ∀ n, ∀ l : List Char, l.length ≤ n → P l := by
    intro n
    induction n with
    | zero =>
      intro l hl
      have : l = [] := List.length_eq_zero.1 (Nat.le_zero.1 hl)
      subst this
      exact single [] (by simp)
    | succ n ih =>
      intro l hl
      rcases dot_decomp l with h | ⟨w, rest, hw, rfl⟩
      · exact single l h
      · apply step w rest hw
        apply ih
        simp only [List.length_append, List.length_cons] at hl
        omega
  exact fun l => key l.length l (Nat.le_refl _)

/-! ## Valid keys -/

theorem segments_chars (l : List Char) :
    (∀ w ∈ l.splitOn '.', IsWord w) → ∀ c ∈ l, c.isAlphanum = true ∨ c = '.' := by
  refine dot_induction (P := fun l => (∀ w ∈ l.splitOn '.', IsWord w) →
    ∀ c ∈ l, c.isAlphanum = true ∨ c = '.') ?_ ?_ l
  · intro w hw h c hc
    rw [splitOn_single w hw] at h
    exact Or.inl ((h w (List.mem_singleton.2 rfl)).2 c hc)
  · intro w rest hw ih h c hc
    rw [splitOn_first w rest hw] at h
    rw [List.mem_append, List.mem_cons] at hc
    rcases hc with hc | hc | hc
    · exact Or.inl ((h w (List.mem_cons_self _ _)).2 c hc)
    · exact Or.inr hc
    · exact ih (fun v hv => h v (List.mem_cons_of_mem _ hv)) c hc

theorem ValidKey.chars {key : String} (h : ValidKey key) :
    ∀ c ∈ key.toList, c.isAlphanum = true ∨ c = '.' :=
  segments_chars key.toList h

theorem ValidKey.path {key : String} (h : ValidKey key) :
    ∀ c ∈ key.toList, clsMem false pathRanges c = true :=
  fun c hc => key_path c (h.chars c hc)

theorem keyChars_no_star (l : List Char) (h : ∀ c ∈ l, c.isAlphanum = true ∨ c = '.') :
    ∀ c ∈ l, c ≠ '*' := by
  intro c hc
  rcases h c hc with h | h
  · exact alnum_ne_star c h
  · rw [h]; decide

theorem keyChars_no_hash (l : List Char) (h : ∀ c ∈ l, c.isAlphanum = true ∨ c = '.') :
    '#' ∉ l := by
  intro hc
  rcases h _ hc with h | h
  · exact absurd h (by decide)
  · exact absurd h (by decide)

theorem keyChars_ok (l : List Char) (h : ∀ c ∈ l, c.isAlphanum = true ∨ c = '.') :
    ∀ p ∈ l.map toPiece, p.Ok := by
  intro p hp
  obtain ⟨c, hc, rfl⟩ := List.mem_map.1 hp
  rcases h c hc with h | h
  · exact toPiece_ok c (Or.inl h)
  · exact toPiece_ok c (Or.inr (Or.inl h))

theorem toList_eq_iff (a b : String) : a.toList = b.toList ↔ a = b := by
  constructor
  · intro h
    exact String.ext h
  · intro h
    rw [h]

/-! ## The pattern cache -/

theorem lookup_cons_eq (k : String) (a : String × Regex) (es : PatternCache) :
    List.lookup k (a :: es) = if k = a.1 then some a.2 else List.lookup k es := by
  obtain ⟨a₁, a₂⟩ := a
  by_cases h : k = a₁
  · subst h
    simp [List.lookup]
  · have : (k == a₁) = false := by simpa using h
    simp [List.lookup, this, h]

theorem lookup_append_single (k : String) (cache : PatternCache) (e : String × Regex) :
    List.lookup k (cache ++ [e]) =
      match List.lookup k cache with
      | some m => some m
      | none => if k = e.1 then some e.2 else none := by
  induction cache with
  | nil =>
    show List.lookup k [e] = _
    rw [lookup_cons_eq]
    rfl
  | cons a es ih =>
    rw [List.cons_append, lookup_cons_eq, lookup_cons_eq]
    by_cases h : k = a.1
    · simp [h]
    · simp only [if_neg h]
      exact ih

theorem lookup_replace (k : String) (cache : PatternCache) (e : String × Regex) :
    List.lookup k (cache.map fun kv => if kv.1 == e.1 then e else kv) =
      if k = e.1 then (List.lookup k cache).map (fun _ => e.2) else List.lookup k cache := by
  induction cache with
  | nil => simp [List.lookup]
  | cons a es ih =>
    rw [List.map_cons, lookup_cons_eq, lookup_cons_eq, ih]
    by_cases ha : a.1 = e.1
    · have : (a.1 == e.1) = true := by simpa using ha
      simp only [this, if_true]
      by_cases hk : k = e.1
      · simp [hk, ha]
      · have hka : ¬ k = a.1 := by rw [ha]; exact hk
        simp [hk, hka]
    · have : (a.1 == e.1) = false := by simpa using ha
      simp only [this]
      by_cases hk : k = e.1
      · have hka : ¬ e.1 = a.1 := fun h => ha h.symm
        simp [hk, hka]
      · simp [hk]

theorem lookup_store (k : String) (cache : PatternCache) (e : String × Regex) :
    List.lookup k (store cache e) = if k = e.1 then some e.2 else List.lookup k cache := by
  unfold store
  by_cases h : (List.lookup e.1 cache).isSome = true
  · rw [if_pos h, lookup_replace]
    by_cases hk : k = e.1
    · obtain ⟨m, hm⟩ := Option.isSome_iff_exists.1 h
      simp [hk, hm]
    · simp [hk]
  · rw [if_neg h, lookup_append_single]
    have hn : List.lookup e.1 cache = none := by
      cases hx : List.lookup e.1 cache with
      | none => rfl
      | some m => rw [hx] at h; exact absurd rfl h
    by_cases hk : k = e.1
    · simp [hk, hn]
    · simp only [if_neg hk]
      cases List.lookup k cache <;> rfl

theorem CacheSound_store (cache : PatternCache) (hc : CacheSound cache) (e : String × Regex)
    (he : MustCompileKey e.1 = some e.2) : CacheSound (store cache e) := by
  intro key matcher h
  rw [lookup_store] at h
  by_cases hk : key = e.1
  · rw [if_pos hk] at h
    cases h
    rw [hk]
    exact he
  · rw [if_neg hk] at h
    exact hc key matcher h

theorem store_absent (cache : PatternCache) (e : String × Regex)
    (h : List.lookup e.1 cache = none) : store cache e = cache ++ [e] := by
  unfold store
  rw [h]
  rfl

theorem TopicCall_hit (cache : PatternCache) (msg : Message) (binding : Binding) (m : Regex)
    (h : List.lookup binding.bindingKey cache = some m) :
    TopicCall cache msg binding = (some (MatchString m msg.routingKey.toList), cache) := by
  simp [TopicCall, Topic, h]

theorem TopicCall_miss (cache : PatternCache) (msg : Message) (binding : Binding) (r : Regex)
    (h : List.lookup binding.bindingKey cache = none)
    (hr : MustCompileKey binding.bindingKey = some r) :
    TopicCall cache msg binding =
      (some (MatchString r msg.routingKey.toList), cache ++ [(binding.bindingKey, r)]) := by
  simp [TopicCall, Topic, h, hr, store_absent]

theorem TopicCall_panic (cache : PatternCache) (msg : Message) (binding : Binding)
    (h : List.lookup binding.bindingKey cache = none)
    (hr : MustCompileKey binding.bindingKey = none) :
    TopicCall cache msg binding = (none, cache) := by
  simp [TopicCall, Topic, h, hr]

theorem TopicCall_sound (cache : PatternCache) (hc : CacheSound cache) (msg : Message)
    (binding : Binding) :
    (TopicCall cache msg binding).1 = freshTopic msg binding ∧
      CacheSound (TopicCall cache msg binding).2 := by
  cases hl : List.lookup binding.bindingKey cache with
  | some m =>
    rw [TopicCall_hit cache msg binding m hl]
    refine ⟨?_, hc⟩
    simp [freshTopic, hc _ _ hl]
  | none =>
    cases hr : MustCompileKey binding.bindingKey with
    | none =>
      rw [TopicCall_panic cache msg binding hl hr]
      refine ⟨?_, hc⟩
      simp [freshTopic, hr]
    | some r =>
      rw [TopicCall_miss cache msg binding r hl hr]
      refine ⟨?_, ?_⟩
      · simp [freshTopic, hr]
      · rw [← store_absent cache (binding.bindingKey, r) hl]
        exact CacheSound_store cache hc _ hr

theorem runCalls_sound (calls : List (Message × Binding)) :
    ∀ cache, CacheSound cache →
      (runCalls cache calls).1 = calls.map (fun call => freshTopic call.1 call.2) ∧
        CacheSound (runCalls cache calls).2 := by
  induction calls with
  | nil => intro cache hc; exact ⟨rfl, hc⟩
  | cons call calls ih =>
    intro cache hc
    obtain ⟨h₁, h₂⟩ := TopicCall_sound cache hc call.1 call.2
    obtain ⟨h₃, h₄⟩ := ih _ h₂
    refine ⟨?_, h₄⟩
    show (TopicCall cache call.1 call.2).1 :: (runCalls _ calls).1 = _
    rw [h₁, h₃]
    rfl

/-! ## Segments -/

theorem dotted_nil : dotted [] = [] := rfl

theorem dotted_cons (r : List Char) (rs : List (List Char)) :
    dotted (r :: rs) = '.' :: (r ++ dotted rs) := rfl

theorem dotted_append (a b : List (List Char)) : dotted (a ++ b) = dotted a ++ dotted b := by
  simp [dotted]

theorem dotted_splitOn (l : List Char) : dotted (l.splitOn '.') = '.' :: l := by
  refine dot_induction (P := fun l => dotted (l.splitOn '.') = '.' :: l) ?_ ?_ l
  · intro w hw
    rw [splitOn_single w hw, dotted_cons, dotted_nil, List.append_nil]
  · intro w rest hw ih
    rw [splitOn_first w rest hw, dotted_cons, ih]

theorem splitOn_inj (a b : List Char) (h : a.splitOn '.' = b.splitOn '.') : a = b := by
  have := dotted_splitOn a
  rw [h, dotted_splitOn] at this
  exact (List.cons.inj this).2.symm

theorem splitOn_append_dot (a b : List Char) :
    (a ++ '.' :: b).splitOn '.' = a.splitOn '.' ++ b.splitOn '.' := by
  refine dot_induction
    (P := fun a => (a ++ '.' :: b).splitOn '.' = a.splitOn '.' ++ b.splitOn '.') ?_ ?_ a
  · intro w hw
    rw [splitOn_first w b hw, splitOn_single w hw]
    rfl
  · intro w rest hw ih
    rw [List.append_assoc, List.cons_append, splitOn_first w _ hw, ih,
      splitOn_first w rest hw]
    rfl

theorem splitOn_singleton_iff (l w : List Char) :
    l.splitOn '.' = [w] ↔ '.' ∉ l ∧ l = w := by
  constructor
  · intro h
    rcases dot_decomp l with hl | ⟨v, rest, hv, rfl⟩
    · rw [splitOn_single l hl] at h
      exact ⟨hl, (List.cons.inj h).1⟩
    · rw [splitOn_first v rest hv] at h
      exact absurd (List.cons.inj h).2 (splitOn_ne_nil rest)
  · rintro ⟨hl, rfl⟩
    exact splitOn_single l hl

theorem splitOn_cons_iff (l r : List Char) (rs : List (List Char)) (hrs : rs ≠ []) :
    l.splitOn '.' = r :: rs ↔ ∃ rest, '.' ∉ r ∧ l = r ++ '.' :: rest ∧ rest.splitOn '.' = rs := by
  constructor
  · intro h
    rcases dot_decomp l with hl | ⟨v, rest, hv, rfl⟩
    · rw [splitOn_single l hl] at h
      exact absurd (List.cons.inj h).2.symm hrs
    · rw [splitOn_first v rest hv] at h
      obtain ⟨h₁, h₂⟩ := List.cons.inj h
      subst h₁
      exact ⟨rest, hv, rfl, h₂⟩
  · rintro ⟨rest, hr, rfl, rfl⟩
    exact splitOn_first r rest hr

theorem word_no_dot (w : List Char) (h : IsWord w) : '.' ∉ w :=
  fun m => alnum_ne_dot _ (h.2 _ m) rfl

theorem word_ne_star (w : List Char) (h : IsWord w) : w ≠ ['*'] := by
  intro e
  have := h.2 '*' (by rw [e]; exact List.mem_singleton.2 rfl)
  exact absurd this (by decide)

theorem word_ne_hash (w : List Char) (h : IsWord w) : w ≠ ['#'] := by
  intro e
  have := h.2 '#' (by rw [e]; exact List.mem_singleton.2 rfl)
  exact absurd this (by decide)

theorem word_keyChars (w : List Char) (h : IsWord w) :
    ∀ c ∈ w, c.isAlphanum = true ∨ c = '.' :=
  fun c hc => Or.inl (h.2 c hc)

/-! ## One segment of a key without `#` -/

theorem star_lang (s : List Char) (hs : ∀ c ∈ s, c.isAlphanum = true ∨ c = '.') :
    PiecesLang (['*'].map toPiece) s ↔ '.' ∉ s ∧ s ≠ [] := by
  show PiecesLang [Piece.word] s ↔ _
  rw [PiecesLang_single]
  constructor
  · rintro ⟨h₁, h₂⟩
    exact ⟨fun m => word_ne_dot _ (h₂ _ m) rfl, h₁⟩
  · rintro ⟨h₁, h₂⟩
    refine ⟨h₂, fun x hx => ?_⟩
    rcases hs x hx with h | h
    · exact alnum_word x h
    · exact absurd (h ▸ hx) h₁

theorem seg_lang (w s : List Char) (hw : w = ['*'] ∨ IsWord w)
    (hs : ∀ c ∈ s, c.isAlphanum = true ∨ c = '.') :
    PiecesLang (w.map toPiece) s ↔ '.' ∉ s ∧ SegFits w s := by
  rcases hw with rfl | hw
  · rw [star_lang s hs]
    simp [SegFits]
  · rw [PiecesLang_lits w (keyChars_no_star w (word_keyChars w hw))]
    unfold SegFits
    rw [if_neg (word_ne_star w hw)]
    constructor
    · intro h
      exact ⟨h ▸ word_no_dot w hw, h⟩
    · exact fun h => h.2

/-! ## Keys without `#`, segment by segment -/

theorem forall₂_single_iff (w l : List Char) :
    List.Forall₂ SegFits [w] (l.splitOn '.') ↔ '.' ∉ l ∧ SegFits w l := by
  constructor
  · intro h
    cases hl : l.splitOn '.' with
    | nil => exact absurd hl (splitOn_ne_nil l)
    | cons r rs =>
      rw [hl] at h
      cases h with
      | cons h₁ h₂ =>
        cases h₂
        obtain ⟨h₃, h₄⟩ := (splitOn_singleton_iff l r).1 hl
        subst h₄
        exact ⟨h₃, h₁⟩
  · rintro ⟨h₁, h₂⟩
    rw [splitOn_single l h₁]
    exact List.Forall₂.cons h₂ List.Forall₂.nil

theorem forall₂_splitOn_ne_nil (l : List Char) (rs : List (List Char))
    (h : List.Forall₂ SegFits (l.splitOn '.') rs) : rs ≠ [] := by
  intro e
  subst e
  cases hl : l.splitOn '.' with
  | nil => exact splitOn_ne_nil l hl
  | cons a as => rw [hl] at h; cases h

theorem key_lang (P : List Char) :
    (∀ seg ∈ P.splitOn '.', seg = ['*'] ∨ IsWord seg) →
    ∀ R : List Char, (∀ c ∈ R, c.isAlphanum = true ∨ c = '.') →
      (PiecesLang (P.map toPiece) R ↔
        List.Forall₂ SegFits (P.splitOn '.') (R.splitOn '.')) := by
  refine dot_induction (P := fun P => (∀ seg ∈ P.splitOn '.', seg = ['*'] ∨ IsWord seg) →
    ∀ R : List Char, (∀ c ∈ R, c.isAlphanum = true ∨ c = '.') →
      (PiecesLang (P.map toPiece) R ↔
        List.Forall₂ SegFits (P.splitOn '.') (R.splitOn '.'))) ?_ ?_ P
  · intro w hw hP R hR
    rw [splitOn_single w hw] at hP ⊢
    rw [forall₂_single_iff, seg_lang w R (hP w (List.mem_singleton.2 rfl)) hR]
  · intro w rest hw ih hP R hR
    rw [splitOn_first w rest hw] at hP ⊢
    have hseg := hP w (List.mem_cons_self _ _)
    have hrest := ih (fun v hv => hP v (List.mem_cons_of_mem _ hv))
    rw [List.map_append, PiecesLang_append]
    constructor
    · rintro ⟨s₁, s₂, rfl, h₁, h₂⟩
      replace h₂ : PiecesLang (Piece.dot :: rest.map toPiece) s₂ := h₂
      obtain ⟨d, s₃, rfl, hd, h₃⟩ := h₂
      replace hd : d = ['.'] := hd
      subst hd
      have hs₁ : ∀ c ∈ s₁, c.isAlphanum = true ∨ c = '.' :=
        fun c hc => hR c (List.mem_append_left _ hc)
      have hs₃ : ∀ c ∈ s₃, c.isAlphanum = true ∨ c = '.' :=
        fun c hc => hR c (List.mem_append_right _ (List.mem_cons_of_mem _ hc))
      obtain ⟨hd₁, hf⟩ := (seg_lang w s₁ hseg hs₁).1 h₁
      show List.Forall₂ SegFits _ ((s₁ ++ '.' :: s₃).splitOn '.')
      rw [splitOn_first s₁ s₃ hd₁]
      exact List.Forall₂.cons hf ((hrest s₃ hs₃).1 h₃)
    · intro h
      cases hl : R.splitOn '.' with
      | nil => exact absurd hl (splitOn_ne_nil R)
      | cons r rs =>
        rw [hl] at h
        cases h with
        | cons hf h₂ =>
          have hrs := forall₂_splitOn_ne_nil rest rs h₂
          obtain ⟨R', hr, rfl, rfl⟩ := (splitOn_cons_iff R r rs hrs).1 hl
          have hs₁ : ∀ c ∈ r, c.isAlphanum = true ∨ c = '.' :=
            fun c hc => hR c (List.mem_append_left _ hc)
          have hs₃ : ∀ c ∈ R', c.isAlphanum = true ∨ c = '.' :=
            fun c hc => hR c (List.mem_append_right _ (List.mem_cons_of_mem _ hc))
          refine ⟨r, '.' :: R', rfl, (seg_lang w r hseg hs₁).2 ⟨hr, hf⟩, ?_⟩
          exact ⟨['.'], R', rfl, rfl, (hrest R' hs₃).2 h₂⟩

theorem starWord_no_hash (P : List Char)
    (hP : ∀ seg ∈ P.splitOn '.', seg = ['*'] ∨ IsWord seg) :
    ∀ c ∈ P, c.isAlphanum = true ∨ c = '.' ∨ c = '*' := by
  revert hP
  refine dot_induction (P := fun P => (∀ seg ∈ P.splitOn '.', seg = ['*'] ∨ IsWord seg) →
    ∀ c ∈ P, c.isAlphanum = true ∨ c = '.' ∨ c = '*') ?_ ?_ P
  · intro w hw h c hc
    rw [splitOn_single w hw] at h
    rcases h w (List.mem_singleton.2 rfl) with h | h
    · rw [h] at hc
      exact Or.inr (Or.inr (List.mem_singleton.1 hc))
    · exact Or.inl (h.2 c hc)
  · intro w rest hw ih h c hc
    rw [splitOn_first w rest hw] at h
    rw [List.mem_append, List.mem_cons] at hc
    rcases hc with hc | hc | hc
    · rcases h w (List.mem_cons_self _ _) with h | h
      · rw [h] at hc
        exact Or.inr (Or.inr (List.mem_singleton.1 hc))
      · exact Or.inl (h.2 c hc)
    · exact Or.inr (Or.inl hc)
    · exact ih (fun v hv => h v (List.mem_cons_of_mem _ hv)) c hc

/-! ## Substitutions on building blocks -/

theorem replaceTok_nil (old : List Piece) (new : Piece) (k : Nat) :
    replaceTok old new k [] = [] := by
  cases k <;> rfl

theorem replaceTok_skip (old : List Piece) (new : Piece) (a t : List Piece) :
    replaceTok old new a.length (a ++ t) = replaceTok old new 0 t := by
  induction a with
  | nil => rfl
  | cons x xs ih => simpa [replaceTok] using ih

theorem replaceTok_miss (old : List Piece) (new : Piece) (p : Piece) (ps : List Piece)
    (h : old.isPrefixOf (p :: ps) = false) :
    replaceTok old new 0 (p :: ps) = p :: replaceTok old new 0 ps := by
  simp [replaceTok, h]

theorem replaceTok_hit (old : List Piece) (new : Piece) (t : List Piece) (h : old ≠ []) :
    replaceTok old new 0 (old ++ t) = new :: replaceTok old new 0 t := by
  obtain ⟨o, os, rfl⟩ := List.exists_cons_of_ne_nil h
  have hp : (o :: os).isPrefixOf (o :: (os ++ t)) = true :=
    List.isPrefixOf_iff_prefix.2 ⟨t, rfl⟩
  have hs := replaceTok_skip (o :: os) new os t
  show (if (o :: os).isPrefixOf (o :: (os ++ t)) = true then
      new :: replaceTok (o :: os) new ((o :: os).length - 1) (os ++ t)
    else o :: replaceTok (o :: os) new 0 (os ++ t)) = _
  rw [if_pos hp]
  simpa using hs

theorem replaceTok_mem (old : List Piece) (new : Piece) (q : Piece) :
    ∀ (ps : List Piece) (k : Nat), q ∈ replaceTok old new k ps → q = new ∨ q ∈ ps := by
  intro ps
  induction ps with
  | nil => intro k h; rw [replaceTok_nil] at h; cases h
  | cons p ps ih =>
    intro k h
    cases k with
    | succ k =>
      rcases ih k h with h | h
      · exact Or.inl h
      · exact Or.inr (List.mem_cons_of_mem _ h)
    | zero =>
      by_cases hp : old.isPrefixOf (p :: ps) = true
      · simp only [replaceTok, if_pos hp] at h
        rcases List.mem_cons.1 h with h | h
        · exact Or.inl h
        · rcases ih _ h with h | h
          · exact Or.inl h
          · exact Or.inr (List.mem_cons_of_mem _ h)
      · simp only [replaceTok, if_neg hp] at h
        rcases List.mem_cons.1 h with h | h
        · exact Or.inr (h ▸ List.mem_cons_self _ _)
        · rcases ih _ h with h | h
          · exact Or.inl h
          · exact Or.inr (List.mem_cons_of_mem _ h)

theorem replaceTok_hash_gone (ps : List Piece) :
    ∀ k, Piece.chr '#' ∉ replaceTok [Piece.chr '#'] Piece.bareHash k ps := by
  induction ps with
  | nil => intro k h; rw [replaceTok_nil] at h; cases h
  | cons p ps ih =>
    intro k h
    cases k with
    | succ k => exact ih k h
    | zero =>
      by_cases hp : [Piece.chr '#'].isPrefixOf (p :: ps) = true
      · simp only [replaceTok, if_pos hp] at h
        rcases List.mem_cons.1 h with h | h
        · cases h
        · exact ih _ h
      · simp only [replaceTok, if_neg hp] at h
        rcases List.mem_cons.1 h with h | h
        · apply hp
          rw [← h]
          exact List.isPrefixOf_iff_prefix.2 ⟨ps, rfl⟩
        · exact ih _ h

/-! ## The substitutions act on building blocks -/

theorem isPrefixOf_cons_iff (a : Char) (as l : List Char) :
    (a :: as).isPrefixOf l = true ↔ ∃ t, l = a :: t ∧ as.isPrefixOf t = true := by
  cases l with
  | nil => simp [isPrefixOf_cons_nil]
  | cons b bs =>
    rw [isPrefixOf_cons_cons]
    constructor
    · intro h
      rw [Bool.and_eq_true, beq_iff_eq] at h
      exact ⟨bs, by rw [h.1], h.2⟩
    · rintro ⟨t, ht, h⟩
      cases ht
      rw [Bool.and_eq_true, beq_iff_eq]
      exact ⟨rfl, h⟩

theorem replaceGo_plain (new rest : List Char) (a b z : Char) (y t : List Char)
    (hy : '#' ∉ y) (ha : z ≠ a) (hb : z ≠ b) (hz : z ≠ '#') :
    replaceGo (a :: b :: '#' :: rest) new 0 (y ++ [z] ++ t) =
      y ++ [z] ++ replaceGo (a :: b :: '#' :: rest) new 0 t := by
  have e : y ++ [z] ++ t = y ++ z :: t := by simp
  rw [e, replaceGo_hashThird new rest a b y (z :: t) hy
    (by intro c cs h; cases h; exact ⟨hz, hb⟩)]
  rw [replaceGo_miss _ _ z t (by
    rw [isPrefixOf_cons_cons]
    have : (a == z) = false := by simpa using fun h : a = z => ha h.symm
    rw [this]
    rfl)]
  simp

theorem Piece.text_split (p : Piece) (hT : p.Tok) (h₁ : p ≠ Piece.dot)
    (h₂ : p ≠ Piece.chr '#') :
    ∃ y z, p.text = y ++ [z] ∧ '#' ∉ y ∧ z ≠ '\\' ∧ z ≠ '.' ∧ z ≠ '#' := by
  cases p with
  | chr c =>
    have hc : c.isAlphanum = true := by
      rcases hT with h | h
      · exact h
      · exact absurd (by rw [h]) h₂
    refine ⟨[], c, rfl, by simp, ?_, ?_, ?_⟩
    · rintro rfl; exact absurd hc (by decide)
    · rintro rfl; exact absurd hc (by decide)
    · rintro rfl; exact absurd hc (by decide)
  | dot => exact absurd rfl h₁
  | word =>
    exact ⟨['[', '0', '-', '9', 'A', '-', 'z', ']'], '+', rfl, by decide, by decide, by decide,
      by decide⟩
  | midHash =>
    exact ⟨['(', '\\', '.', '|', '\\', '.', '[', '0', '-', '9', 'A', '-', 'z', '\\', '.', ']',
      '*', '\\', '.'], ')', rfl, by decide, by decide, by decide, by decide⟩
  | trailHash =>
    exact ⟨['(', '\\', '.', '[', '0', '-', '9', 'A', '-', 'z', '\\', '.', ']', '*', ')'], '?',
      rfl, by decide, by decide, by decide, by decide⟩
  | leadHash =>
    exact ⟨['(', '[', '0', '-', '9', 'A', '-', 'z', '\\', '.', ']', '*', '\\', '.', ')'], '?',
      rfl, by decide, by decide, by decide, by decide⟩
  | bareHash =>
    exact ⟨['[', '0', '-', '9', 'A', '-', 'z', '\\', '.', ']'], '*', rfl, by decide, by decide,
      by decide, by decide⟩

theorem Piece.text_no_hash (p : Piece) (h : p ≠ Piece.chr '#') : '#' ∉ p.text := by
  cases p with
  | chr c =>
    intro m
    apply h
    rw [List.mem_singleton.1 m]
  | dot => decide
  | word => decide
  | midHash => decide
  | trailHash => decide
  | leadHash => decide
  | bareHash => decide

theorem texts_cons (p : Piece) (ps : List Piece) :
    (p :: ps).flatMap Piece.text = p.text ++ ps.flatMap Piece.text := rfl

theorem texts_head_hash (rest : List Piece) (T : List Char)
    (h : rest.flatMap Piece.text = '#' :: T) :
    ∃ rest', rest = Piece.chr '#' :: rest' ∧ T = rest'.flatMap Piece.text := by
  cases rest with
  | nil => cases h
  | cons p ps =>
    rw [texts_cons] at h
    cases p with
    | chr c =>
      have := List.cons.inj h
      exact ⟨ps, by rw [this.1], this.2.symm⟩
    | dot => exact absurd (List.cons.inj h).1 (by decide)
    | word => exact absurd (List.cons.inj h).1 (by decide)
    | midHash => exact absurd (List.cons.inj h).1 (by decide)
    | trailHash => exact absurd (List.cons.inj h).1 (by decide)
    | leadHash => exact absurd (List.cons.inj h).1 (by decide)
    | bareHash => exact absurd (List.cons.inj h).1 (by decide)

theorem texts_head_bs (rest : List Piece) (hT : ∀ q ∈ rest, q.Tok) (T : List Char)
    (h : rest.flatMap Piece.text = '\\' :: T) :
    ∃ rest', rest = Piece.dot :: rest' ∧ T = '.' :: rest'.flatMap Piece.text := by
  cases rest with
  | nil => cases h
  | cons p ps =>
    rw [texts_cons] at h
    cases p with
    | chr c =>
      have hc := (List.cons.inj h).1
      have : c.isAlphanum = true ∨ c = '#' := hT (Piece.chr c) (List.mem_cons_self _ _)
      rw [hc] at this
      exact absurd this (by decide)
    | dot => exact ⟨ps, rfl, (List.cons.inj h).2.symm⟩
    | word => exact absurd (List.cons.inj h).1 (by decide)
    | midHash => exact absurd (List.cons.inj h).1 (by decide)
    | trailHash => exact absurd (List.cons.inj h).1 (by decide)
    | leadHash => exact absurd (List.cons.inj h).1 (by decide)
    | bareHash => exact absurd (List.cons.inj h).1 (by decide)

theorem isPrefixOf_false_of_not (old l : List Piece) (h : ¬ old <+: l) :
    old.isPrefixOf l = false := by
  cases hb : old.isPrefixOf l with
  | false => rfl
  | true => exact absurd (List.isPrefixOf_iff_prefix.1 hb) h

theorem not_prefix_of_false (old l : List Piece) (h : old.isPrefixOf l = false) :
    ¬ old <+: l := by
  intro hp
  rw [List.isPrefixOf_iff_prefix.2 hp] at h
  cases h

theorem sim_of_miss (old : List Piece) (new : Piece) (ho : old ≠ [])
    (hmiss : ∀ p rest, p.Tok → (∀ q ∈ rest, q.Tok) → old.isPrefixOf (p :: rest) = false →
      replaceGo (old.flatMap Piece.text) new.text 0 (p.text ++ rest.flatMap Piece.text) =
        p.text ++ replaceGo (old.flatMap Piece.text) new.text 0 (rest.flatMap Piece.text)) :
    ∀ ps : List Piece, (∀ q ∈ ps, q.Tok) →
      replaceGo (old.flatMap Piece.text) new.text 0 (ps.flatMap Piece.text) =
        (replaceTok old new 0 ps).flatMap Piece.text := by
  have hne : old.flatMap Piece.text ≠ [] := by
    obtain ⟨o, os, rfl⟩ := List.exists_cons_of_ne_nil ho
    rw [texts_cons]
    cases o <;> simp [Piece.text]
  obtain ⟨c, cs, hcs⟩ := List.exists_cons_of_ne_nil hne
  have key : ∀ n, ∀ ps : List Piece, ps.length ≤ n → (∀ q ∈ ps, q.Tok) →
      replaceGo (old.flatMap Piece.text) new.text 0 (ps.flatMap Piece.text) =
        (replaceTok old new 0 ps).flatMap Piece.text := by
    intro n
    induction n with
    | zero =>
      intro ps hl _
      have : ps = [] := List.length_eq_zero.1 (Nat.le_zero.1 hl)
      subst this
      rfl
    | succ n ih =>
      intro ps hl hT
      cases ps with
      | nil => rfl
      | cons p rest =>
        by_cases hp : old.isPrefixOf (p :: rest) = true
        · obtain ⟨t, ht⟩ := List.isPrefixOf_iff_prefix.1 hp
          have hlen : t.length ≤ n := by
            have := congrArg List.length ht
            have hpos : 0 < old.length := List.length_pos.2 ho
            simp only [List.length_append, List.length_cons] at this hl
            omega
          have hTt : ∀ q ∈ t, q.Tok := fun q hq => hT q (by rw [← ht]; simp [hq])
          rw [← ht, List.flatMap_append, replaceGo_hit _ _ c cs _ hcs, replaceTok_hit _ _ _ ho,
            texts_cons, ih t hlen hTt]
        · have hp' : old.isPrefixOf (p :: rest) = false := Bool.eq_false_iff.2 hp
          have hTr : ∀ q ∈ rest, q.Tok := fun q hq => hT q (List.mem_cons_of_mem _ hq)
          rw [texts_cons, hmiss p rest (hT p (List.mem_cons_self _ _)) hTr hp',
            replaceTok_miss _ _ _ _ hp', texts_cons,
            ih rest (by simp only [List.length_cons] at hl; omega) hTr]
  exact fun ps => key ps.length ps (Nat.le_refl _)

theorem miss_backslash (new rest3 : List Char) (T : List Char)
    (h : ('\\' :: '.' :: '#' :: rest3).isPrefixOf ('\\' :: '.' :: T) = false) :
    replaceGo ('\\' :: '.' :: '#' :: rest3) new 0 ('\\' :: '.' :: T) =
      '\\' :: '.' :: replaceGo ('\\' :: '.' :: '#' :: rest3) new 0 T := by
  rw [replaceGo_miss _ _ _ _ h]
  cases T with
  | nil => rfl
  | cons u us =>
    rw [replaceGo_miss _ _ '.' (u :: us) (by rw [isPrefixOf_cons_cons]; rfl)]

theorem miss_mid (new : Piece) (p : Piece) (rest : List Piece) (hp : p.Tok)
    (hr : ∀ q ∈ rest, q.Tok)
    (h : [Piece.dot, Piece.chr '#', Piece.dot].isPrefixOf (p :: rest) = false) :
    replaceGo ([Piece.dot, Piece.chr '#', Piece.dot].flatMap Piece.text) new.text 0
        (p.text ++ rest.flatMap Piece.text) =
      p.text ++ replaceGo ([Piece.dot, Piece.chr '#', Piece.dot].flatMap Piece.text) new.text 0
        (rest.flatMap Piece.text) := by
  show replaceGo ('\\' :: '.' :: '#' :: ['\\', '.']) new.text 0 _ =
    p.text ++ replaceGo ('\\' :: '.' :: '#' :: ['\\', '.']) new.text 0 _
  by_cases h₁ : p = Piece.dot
  · subst h₁
    apply miss_backslash
    cases hb : ('\\' :: '.' :: '#' :: ['\\', '.']).isPrefixOf
        ('\\' :: '.' :: rest.flatMap Piece.text) with
    | false => exact hb
    | true =>
      exfalso
      rw [isPrefixOf_cons_cons, isPrefixOf_cons_cons] at hb
      simp only [beq_self_eq_true, Bool.true_and] at hb
      obtain ⟨T, hT, hb⟩ := (isPrefixOf_cons_iff _ _ _).1 hb
      obtain ⟨rest', rfl, rfl⟩ := texts_head_hash rest T hT
      obtain ⟨T', hT', -⟩ := (isPrefixOf_cons_iff _ _ _).1 hb
      obtain ⟨rest'', rfl, -⟩ := texts_head_bs rest'
        (fun q hq => hr q (List.mem_cons_of_mem _ hq)) T' hT'
      exact not_prefix_of_false _ _ h ⟨rest'', rfl⟩
  · by_cases h₂ : p = Piece.chr '#'
    · subst h₂
      exact replaceGo_miss _ _ '#' _ (by rw [isPrefixOf_cons_cons]; rfl)
    · obtain ⟨y, z, hy, h₃, h₄, h₅, h₆⟩ := p.text_split hp h₁ h₂
      rw [hy]
      exact replaceGo_plain _ _ _ _ z y _ h₃ h₄ h₅ h₆

theorem miss_trail (new : Piece) (p : Piece) (rest : List Piece) (hp : p.Tok)
    (hr : ∀ q ∈ rest, q.Tok)
    (h : [Piece.dot, Piece.chr '#'].isPrefixOf (p :: rest) = false) :
    replaceGo ([Piece.dot, Piece.chr '#'].flatMap Piece.text) new.text 0
        (p.text ++ rest.flatMap Piece.text) =
      p.text ++ replaceGo ([Piece.dot, Piece.chr '#'].flatMap Piece.text) new.text 0
        (rest.flatMap Piece.text) := by
  show replaceGo ('\\' :: '.' :: '#' :: []) new.text 0 _ =
    p.text ++ replaceGo ('\\' :: '.' :: '#' :: []) new.text 0 _
  by_cases h₁ : p = Piece.dot
  · subst h₁
    apply miss_backslash
    cases hb : ('\\' :: '.' :: '#' :: []).isPrefixOf
        ('\\' :: '.' :: rest.flatMap Piece.text) with
    | false => exact hb
    | true =>
      exfalso
      rw [isPrefixOf_cons_cons, isPrefixOf_cons_cons] at hb
      simp only [beq_self_eq_true, Bool.true_and] at hb
      obtain ⟨T, hT, -⟩ := (isPrefixOf_cons_iff _ _ _).1 hb
      obtain ⟨rest', rfl, -⟩ := texts_head_hash rest T hT
      exact not_prefix_of_false _ _ h ⟨rest', rfl⟩
  · by_cases h₂ : p = Piece.chr '#'
    · subst h₂
      exact replaceGo_miss _ _ '#' _ (by rw [isPrefixOf_cons_cons]; rfl)
    · obtain ⟨y, z, hy, h₃, h₄, h₅, h₆⟩ := p.text_split hp h₁ h₂
      rw [hy]
      exact replaceGo_plain _ _ _ _ z y _ h₃ h₄ h₅ h₆

theorem miss_lead (new : Piece) (p : Piece) (rest : List Piece) (_hp : p.Tok)
    (hr : ∀ q ∈ rest, q.Tok)
    (h : [Piece.chr '#', Piece.dot].isPrefixOf (p :: rest) = false) :
    replaceGo ([Piece.chr '#', Piece.dot].flatMap Piece.text) new.text 0
        (p.text ++ rest.flatMap Piece.text) =
      p.text ++ replaceGo ([Piece.chr '#', Piece.dot].flatMap Piece.text) new.text 0
        (rest.flatMap Piece.text) := by
  show replaceGo ('#' :: ['\\', '.']) new.text 0 _ =
    p.text ++ replaceGo ('#' :: ['\\', '.']) new.text 0 _
  by_cases h₂ : p = Piece.chr '#'
  · subst h₂
    apply replaceGo_miss _ _ '#'
    cases hb : ('#' :: ['\\', '.']).isPrefixOf ('#' :: rest.flatMap Piece.text) with
    | false => exact hb
    | true =>
      exfalso
      rw [isPrefixOf_cons_cons] at hb
      simp only [beq_self_eq_true, Bool.true_and] at hb
      obtain ⟨T, hT, -⟩ := (isPrefixOf_cons_iff _ _ _).1 hb
      obtain ⟨rest', rfl, -⟩ := texts_head_bs rest hr T hT
      exact not_prefix_of_false _ _ h ⟨rest', rfl⟩
  · exact replaceGo_hashHead _ _ _ _ (p.text_no_hash h₂)

theorem miss_bare (new : Piece) (p : Piece) (rest : List Piece) (_hp : p.Tok)
    (_hr : ∀ q ∈ rest, q.Tok)
    (h : [Piece.chr '#'].isPrefixOf (p :: rest) = false) :
    replaceGo ([Piece.chr '#'].flatMap Piece.text) new.text 0
        (p.text ++ rest.flatMap Piece.text) =
      p.text ++ replaceGo ([Piece.chr '#'].flatMap Piece.text) new.text 0
        (rest.flatMap Piece.text) := by
  show replaceGo ('#' :: []) new.text 0 _ = p.text ++ replaceGo ('#' :: []) new.text 0 _
  have h₂ : p ≠ Piece.chr '#' := by
    rintro rfl
    exact not_prefix_of_false _ _ h ⟨rest, rfl⟩
  exact replaceGo_hashHead _ _ _ _ (p.text_no_hash h₂)

theorem replaceTok_tok (old : List Piece) (new : Piece) (hn : new.Tok) (ps : List Piece)
    (h : ∀ q ∈ ps, q.Tok) : ∀ q ∈ replaceTok old new 0 ps, q.Tok := by
  intro q hq
  rcases replaceTok_mem old new q ps 0 hq with rfl | hq
  · exact hn
  · exact h q hq

theorem toPiece_tok (c : Char) (h : KeyChar c) : (toPiece c).Tok := by
  unfold toPiece
  split_ifs with h₁ h₂
  · trivial
  · trivial
  · rcases h with h | h | h | h
    · exact Or.inl h
    · exact absurd h h₁
    · exact absurd h h₂
    · exact Or.inr h

theorem translate_passes (key : List Char) (h : ∀ c ∈ key, KeyChar c) :
    translate key = (passes (key.map toPiece)).flatMap Piece.text := by
  have h₀ : ∀ q ∈ key.map toPiece, q.Tok := by
    intro q hq
    obtain ⟨c, hc, rfl⟩ := List.mem_map.1 hq
    exact toPiece_tok c (h c hc)
  have h₁ := replaceTok_tok [Piece.dot, Piece.chr '#', Piece.dot] Piece.midHash trivial _ h₀
  have h₂ := replaceTok_tok [Piece.dot, Piece.chr '#'] Piece.trailHash trivial _ h₁
  have h₃ := replaceTok_tok [Piece.chr '#', Piece.dot] Piece.leadHash trivial _ h₂
  have s₁ := sim_of_miss [Piece.dot, Piece.chr '#', Piece.dot] Piece.midHash (by simp)
    (miss_mid _) _ h₀
  have s₂ := sim_of_miss [Piece.dot, Piece.chr '#'] Piece.trailHash (by simp)
    (miss_trail _) _ h₁
  have s₃ := sim_of_miss [Piece.chr '#', Piece.dot] Piece.leadHash (by simp)
    (miss_lead _) _ h₂
  have s₄ := sim_of_miss [Piece.chr '#'] Piece.bareHash (by simp) (miss_bare _) _ h₃
  rw [translate_eq, tr2_eq, tr2_pieces]
  unfold stringsReplace passes
  rw [← s₄, ← s₃, ← s₂, ← s₁]
  rfl

theorem passes_ok (ps : List Piece) (h : ∀ q ∈ ps, q.Tok) : ∀ q ∈ passes ps, q.Ok := by
  intro q hq
  have hne : q ≠ Piece.chr '#' := by
    rintro rfl
    exact replaceTok_hash_gone _ 0 hq
  have h₁ := replaceTok_tok [Piece.dot, Piece.chr '#', Piece.dot] Piece.midHash trivial _ h
  have h₂ := replaceTok_tok [Piece.dot, Piece.chr '#'] Piece.trailHash trivial _ h₁
  have h₃ := replaceTok_tok [Piece.chr '#', Piece.dot] Piece.leadHash trivial _ h₂
  have h₄ := replaceTok_tok [Piece.chr '#'] Piece.bareHash trivial _ h₃ q hq
  cases q with
  | chr c =>
    rcases h₄ with h | h
    · exact h
    · exact absurd (by rw [h]) hne
  | dot => trivial
  | word => trivial
  | midHash => trivial
  | trailHash => trivial
  | leadHash => trivial
  | bareHash => trivial

theorem keyChars_tok (key : List Char) (h : ∀ c ∈ key, KeyChar c) :
    ∀ q ∈ key.map toPiece, q.Tok := by
  intro q hq
  obtain ⟨c, hc, rfl⟩ := List.mem_map.1 hq
  exact toPiece_tok c (h c hc)

/-! ## Substitutions on building blocks are local -/

theorem prefix_append_cases (old x y : List Piece) (h : old <+: x ++ y) :
    old <+: x ∨ ∃ q t, y = q :: t ∧ q ∈ old := by
  by_cases hl : old.length ≤ x.length
  · exact Or.inl (List.prefix_of_prefix_length_le h (List.prefix_append x y) hl)
  · right
    have hx : x <+: old :=
      List.prefix_of_prefix_length_le (List.prefix_append x y) h (by omega)
    obtain ⟨r, rfl⟩ := hx
    obtain ⟨t, ht⟩ := h
    rw [List.append_assoc] at ht
    have ht' := List.append_cancel_left ht
    cases r with
    | nil => simp at hl
    | cons q r' =>
      rw [List.cons_append] at ht'
      exact ⟨q, r' ++ t, ht'.symm, by simp⟩

theorem replaceTok_append (old : List Piece) (new : Piece) (ho : old ≠ []) (y : List Piece)
    (hy : ∀ q t, y = q :: t → q ∉ old) :
    ∀ x : List Piece, replaceTok old new 0 (x ++ y) =
      replaceTok old new 0 x ++ replaceTok old new 0 y := by
  have key : ∀ n, ∀ x : List Piece, x.length ≤ n →
      replaceTok old new 0 (x ++ y) = replaceTok old new 0 x ++ replaceTok old new 0 y := by
    intro n
    induction n with
    | zero =>
      intro x hl
      have : x = [] := List.length_eq_zero.1 (Nat.le_zero.1 hl)
      subst this
      rfl
    | succ n ih =>
      intro x hl
      cases x with
      | nil => rfl
      | cons p x' =>
        by_cases hp : old.isPrefixOf (p :: x' ++ y) = true
        · rcases prefix_append_cases old (p :: x') y (List.isPrefixOf_iff_prefix.1 hp) with
            h | ⟨q, t, hq, hm⟩
          · obtain ⟨x'', hx''⟩ := h
            have hlen : x''.length ≤ n := by
              have := congrArg List.length hx''
              have hpos : 0 < old.length := List.length_pos.2 ho
              simp only [List.length_append, List.length_cons] at this hl
              omega
            rw [← hx'', List.append_assoc, replaceTok_hit _ _ _ ho, replaceTok_hit _ _ _ ho,
              ih x'' hlen]
            rfl
          · exact absurd hm (hy q t hq)
        · have hp' : old.isPrefixOf (p :: (x' ++ y)) = false := Bool.eq_false_iff.2 hp
          have hp'' : old.isPrefixOf (p :: x') = false := by
            apply isPrefixOf_false_of_not
            intro h
            exact not_prefix_of_false _ _ hp' (h.trans (List.prefix_append (p :: x') y))
          rw [List.cons_append, replaceTok_miss _ _ _ _ hp', replaceTok_miss _ _ _ _ hp'',
            ih x' (by simp only [List.length_cons] at hl; omega)]
          rfl
  exact fun x => key x.length x (Nat.le_refl _)

theorem replaceTok_keep (old : List Piece) (new : Piece) (ho : old ≠ []) (p : Piece)
    (hp : p ∉ old) (y : List Piece) :
    replaceTok old new 0 (p :: y) = p :: replaceTok old new 0 y := by
  apply replaceTok_miss
  apply isPrefixOf_false_of_not
  rintro ⟨t, ht⟩
  obtain ⟨o, os, rfl⟩ := List.exists_cons_of_ne_nil ho
  rw [List.cons_append] at ht
  exact hp ((List.cons.inj ht).1 ▸ List.mem_cons_self _ _)

theorem replaceTok_local (old : List Piece) (new : Piece) (ho : old ≠ []) (p : Piece)
    (hp : p ∉ old) (x y : List Piece) :
    replaceTok old new 0 (x ++ p :: y) =
      replaceTok old new 0 x ++ p :: replaceTok old new 0 y := by
  rw [replaceTok_append old new ho (p :: y) (by intro q t h; cases h; exact hp),
    replaceTok_keep old new ho p hp]

theorem passes_local (p : Piece) (h₁ : p ≠ Piece.dot) (h₂ : p ≠ Piece.chr '#')
    (x y : List Piece) : passes (x ++ p :: y) = passes x ++ p :: passes y := by
  unfold passes
  rw [replaceTok_local _ _ (by simp) p (by simp [h₁, h₂]),
    replaceTok_local _ _ (by simp) p (by simp [h₁, h₂]),
    replaceTok_local _ _ (by simp) p (by simp [h₁, h₂]),
    replaceTok_local _ _ (by simp) p (by simp [h₁, h₂])]

theorem passes_nil : passes [] = [] := rfl

theorem passes_plain (b : List Piece) (hb : ∀ p ∈ b, p ≠ Piece.dot ∧ p ≠ Piece.chr '#')
    (y : List Piece) : passes (b ++ y) = b ++ passes y := by
  induction b with
  | nil => rfl
  | cons p b ih =>
    have hp := hb p (List.mem_cons_self _ _)
    have := passes_local p hp.1 hp.2 [] (b ++ y)
    rw [List.nil_append, passes_nil, List.nil_append,
      ih (fun q hq => hb q (List.mem_cons_of_mem _ hq))] at this
    exact this

theorem passes_body (b : List Piece) (hne : b ≠ [])
    (hb : ∀ p ∈ b, p ≠ Piece.dot ∧ p ≠ Piece.chr '#') (x y : List Piece) :
    passes (x ++ (b ++ y)) = passes x ++ (b ++ passes y) := by
  obtain ⟨p, b', rfl⟩ := List.exists_cons_of_ne_nil hne
  have hp := hb p (List.mem_cons_self _ _)
  rw [List.cons_append, passes_local p hp.1 hp.2,
    passes_plain b' (fun q hq => hb q (List.mem_cons_of_mem _ hq))]
  rfl

/-! ## Keys given by their segments -/

theorem toPiece_alnum (c : Char) (h : c.isAlphanum = true) : toPiece c = Piece.chr c := by
  unfold toPiece
  rw [if_neg (alnum_ne_dot c h), if_neg (alnum_ne_star c h)]

theorem body_plain (s : List Char) (hs : s = ['*'] ∨ IsWord s) :
    s.map toPiece ≠ [] ∧ ∀ p ∈ s.map toPiece, p ≠ Piece.dot ∧ p ≠ Piece.chr '#' := by
  rcases hs with rfl | hs
  · refine ⟨by simp, ?_⟩
    intro p hp
    have : p = Piece.word := by simpa [toPiece] using hp
    subst this
    exact ⟨by decide, by decide⟩
  · refine ⟨by simpa using hs.1, ?_⟩
    intro p hp
    obtain ⟨c, hc, rfl⟩ := List.mem_map.1 hp
    have ha := hs.2 c hc
    rw [toPiece_alnum c ha]
    refine ⟨by simp, ?_⟩
    intro e
    exact alnum_ne_hash c ha (Piece.chr.inj e)

theorem patternSegment_cases (s : List Char) (hs : IsPatternSegment s) (h : s ≠ ['#']) :
    s = ['*'] ∨ IsWord s := by
  rcases hs with h₁ | h₁ | h₁
  · exact Or.inl h₁
  · exact absurd h₁ h
  · exact Or.inr h₁

theorem NoAdjacentHash.tail (s : List Char) (more : List (List Char))
    (h : NoAdjacentHash (s :: more)) : NoAdjacentHash more := by
  cases more with
  | nil => trivial
  | cons q rest => exact h.2

theorem NoAdjacentHash.next (s : List Char) (more : List (List Char))
    (h : NoAdjacentHash (['#'] :: s :: more)) : s ≠ ['#'] :=
  fun e => h.1 ⟨rfl, e⟩

theorem restP_hash_nil : restP [['#']] = [Piece.trailHash] := rfl

theorem restP_hash_cons (s : List Char) (more : List (List Char)) :
    restP (['#'] :: s :: more) = Piece.midHash :: (s.map toPiece ++ restP more) := rfl

theorem restP_other (s : List Char) (more : List (List Char)) (h : s ≠ ['#']) :
    restP (s :: more) = Piece.dot :: (s.map toPiece ++ restP more) := by
  rw [restP.eq_def]
  simp only [if_neg h]

theorem firstP_hash_nil : firstP [['#']] = [Piece.bareHash] := rfl

theorem firstP_hash_cons (s : List Char) (more : List (List Char)) :
    firstP (['#'] :: s :: more) = Piece.leadHash :: (s.map toPiece ++ restP more) := rfl

theorem firstP_other (s : List Char) (more : List (List Char)) (h : s ≠ ['#']) :
    firstP (s :: more) = s.map toPiece ++ restP more := by
  rw [firstP.eq_def]
  simp only [if_neg h]

theorem map_dotted_cons (s : List Char) (more : List (List Char)) :
    (dotted (s :: more)).map toPiece =
      Piece.dot :: (s.map toPiece ++ (dotted more).map toPiece) := by
  rw [dotted_cons, List.map_cons, List.map_append]
  rfl

theorem passes_rest (segs : List (List Char)) (hs : ∀ s ∈ segs, IsPatternSegment s)
    (ha : NoAdjacentHash segs) : passes ((dotted segs).map toPiece) = restP segs := by
  have key : ∀ n, ∀ segs : List (List Char), segs.length ≤ n →
      (∀ s ∈ segs, IsPatternSegment s) → NoAdjacentHash segs →
      passes ((dotted segs).map toPiece) = restP segs := by
    intro n
    induction n with
    | zero =>
      intro segs hl _ _
      have : segs = [] := List.length_eq_zero.1 (Nat.le_zero.1 hl)
      subst this
      rfl
    | succ n ih =>
      intro segs hl hs ha
      cases segs with
      | nil => rfl
      | cons s more =>
        have hl' : more.length ≤ n := by
          simp only [List.length_cons] at hl; omega
        have hs' : ∀ s ∈ more, IsPatternSegment s :=
          fun t ht => hs t (List.mem_cons_of_mem _ ht)
        have ha' : NoAdjacentHash more := NoAdjacentHash.tail _ _ ha
        by_cases h : s = ['#']
        · subst h
          cases more with
          | nil => rfl
          | cons s' more' =>
            have hne : s' ≠ ['#'] := NoAdjacentHash.next _ _ ha
            obtain ⟨b₁, b₂⟩ := body_plain s'
              (patternSegment_cases s' (hs' s' (List.mem_cons_self _ _)) hne)
            rw [map_dotted_cons, map_dotted_cons, restP_hash_cons]
            have := passes_body (s'.map toPiece) b₁ b₂
              [Piece.dot, Piece.chr '#', Piece.dot] ((dotted more').map toPiece)
            rw [ih more' (by simp only [List.length_cons] at hl'; omega)
              (fun t ht => hs' t (List.mem_cons_of_mem _ ht)) (NoAdjacentHash.tail _ _ ha')] at this
            exact this
        · obtain ⟨b₁, b₂⟩ := body_plain s
            (patternSegment_cases s (hs s (List.mem_cons_self _ _)) h)
          rw [map_dotted_cons, restP_other s more h]
          have := passes_body (s.map toPiece) b₁ b₂ [Piece.dot] ((dotted more).map toPiece)
          rw [ih more hl' hs' ha'] at this
          exact this
  exact key segs.length segs (Nat.le_refl _) hs ha

theorem passes_first (s : List Char) (more : List (List Char))
    (hs : ∀ t ∈ s :: more, IsPatternSegment t) (ha : NoAdjacentHash (s :: more)) :
    passes (s.map toPiece ++ (dotted more).map toPiece) = firstP (s :: more) := by
  have hs' : ∀ s ∈ more, IsPatternSegment s := fun t ht => hs t (List.mem_cons_of_mem _ ht)
  have ha' : NoAdjacentHash more := NoAdjacentHash.tail _ _ ha
  by_cases h : s = ['#']
  · subst h
    cases more with
    | nil => rfl
    | cons s' more' =>
      have hne : s' ≠ ['#'] := NoAdjacentHash.next _ _ ha
      obtain ⟨b₁, b₂⟩ := body_plain s'
        (patternSegment_cases s' (hs' s' (List.mem_cons_self _ _)) hne)
      rw [map_dotted_cons, firstP_hash_cons]
      have := passes_body (s'.map toPiece) b₁ b₂
        [Piece.chr '#', Piece.dot] ((dotted more').map toPiece)
      rw [passes_rest more' (fun t ht => hs' t (List.mem_cons_of_mem _ ht))
        (NoAdjacentHash.tail _ _ ha')] at this
      exact this
  · obtain ⟨b₁, b₂⟩ := body_plain s
      (patternSegment_cases s (hs s (List.mem_cons_self _ _)) h)
    rw [firstP_other s more h]
    have := passes_body (s.map toPiece) b₁ b₂ [] ((dotted more).map toPiece)
    rw [passes_rest more hs' ha'] at this
    exact this

theorem key_of_segments (l s : List Char) (more : List (List Char))
    (h : l.splitOn '.' = s :: more) : l = s ++ dotted more := by
  have := dotted_splitOn l
  rw [h, dotted_cons] at this
  exact (List.cons.inj this).2.symm

theorem mem_dotted (c : Char) (segs : List (List Char)) (h : c ∈ dotted segs) :
    c = '.' ∨ ∃ s ∈ segs, c ∈ s := by
  induction segs with
  | nil => cases h
  | cons s more ih =>
    rw [dotted_cons, List.mem_cons, List.mem_append] at h
    rcases h with h | h | h
    · exact Or.inl h
    · exact Or.inr ⟨s, List.mem_cons_self _ _, h⟩
    · rcases ih h with h | ⟨t, ht, hc⟩
      · exact Or.inl h
      · exact Or.inr ⟨t, List.mem_cons_of_mem _ ht, hc⟩

theorem patternSegment_chars (s : List Char) (hs : IsPatternSegment s) :
    ∀ c ∈ s, KeyChar c := by
  intro c hc
  rcases hs with h | h | h
  · rw [h] at hc
    exact Or.inr (Or.inr (Or.inl (List.mem_singleton.1 hc)))
  · rw [h] at hc
    exact Or.inr (Or.inr (Or.inr (List.mem_singleton.1 hc)))
  · exact Or.inl (h.2 c hc)

theorem patternKey_chars (l : List Char) (h : ∀ s ∈ l.splitOn '.', IsPatternSegment s) :
    ∀ c ∈ l, KeyChar c := by
  intro c hc
  have hd : c ∈ dotted (l.splitOn '.') := by
    rw [dotted_splitOn]
    exact List.mem_cons_of_mem _ hc
  rcases mem_dotted c _ hd with h₁ | ⟨s, hs, h₁⟩
  · exact Or.inr (Or.inl h₁)
  · exact patternSegment_chars s (h s hs) c h₁

theorem translate_segments (l : List Char) (hs : ∀ s ∈ l.splitOn '.', IsPatternSegment s)
    (ha : NoAdjacentHash (l.splitOn '.')) :
    translate l = (firstP (l.splitOn '.')).flatMap Piece.text ∧
      ∀ p ∈ firstP (l.splitOn '.'), p.Ok := by
  have hk := patternKey_chars l hs
  have ht := translate_passes l hk
  have hok := passes_ok _ (keyChars_tok l hk)
  cases hl : l.splitOn '.' with
  | nil => exact absurd hl (splitOn_ne_nil l)
  | cons s more =>
    rw [hl] at hs ha
    have e : passes (l.map toPiece) = firstP (s :: more) := by
      rw [← passes_first s more hs ha]
      conv_lhs => rw [key_of_segments l s more hl]
      rw [List.map_append]
    rw [e] at ht hok
    exact ⟨ht, hok⟩

/-! ## Routing keys against segment patterns -/

theorem dotted_dotHead (rs : List (List Char)) : DotHead (dotted rs) := by
  cases rs with
  | nil => exact Or.inl rfl
  | cons r rs => exact Or.inr ⟨_, dotted_cons r rs⟩

theorem dotted_eq_nil (rs : List (List Char)) (h : dotted rs = []) : rs = [] := by
  cases rs with
  | nil => rfl
  | cons r rs => rw [dotted_cons] at h; cases h

theorem dotfree_split (a : List Char) (ha : '.' ∉ a) :
    ∀ b A B : List Char, a ++ A = b ++ '.' :: B → ∃ b', b = a ++ b' ∧ A = b' ++ '.' :: B := by
  induction a with
  | nil => intro b A B h; exact ⟨b, rfl, h⟩
  | cons c a ih =>
    intro b A B h
    have hc : c ≠ '.' := fun e => ha (e ▸ List.mem_cons_self _ _)
    have ha' : '.' ∉ a := fun m => ha (List.mem_cons_of_mem _ m)
    cases b with
    | nil => exact absurd (List.cons.inj h).1 hc
    | cons d b =>
      obtain ⟨h₁, h₂⟩ := List.cons.inj h
      obtain ⟨b', hb, hA⟩ := ih ha' b A B h₂
      exact ⟨b', by rw [hb, h₁]; rfl, hA⟩

theorem dotfree_unique (a : List Char) :
    ∀ b A B : List Char, '.' ∉ a → '.' ∉ b → DotHead A → DotHead B → a ++ A = b ++ B →
      a = b ∧ A = B := by
  induction a with
  | nil =>
    intro b A B _ hb hA _ h
    cases b with
    | nil => exact ⟨rfl, h⟩
    | cons d b =>
      exfalso
      rcases hA with hA | ⟨v, hA⟩
      · rw [hA] at h; cases h
      · rw [hA] at h
        exact hb ((List.cons.inj h).1 ▸ List.mem_cons_self _ _)
  | cons c a ih =>
    intro b A B ha hb hA hB h
    have ha' : '.' ∉ a := fun m => ha (List.mem_cons_of_mem _ m)
    cases b with
    | nil =>
      exfalso
      rcases hB with hB | ⟨v, hB⟩
      · rw [hB] at h; cases h
      · rw [hB] at h
        exact ha ((List.cons.inj h).1 ▸ List.mem_cons_self _ _)
    | cons d b =>
      obtain ⟨h₁, h₂⟩ := List.cons.inj h
      obtain ⟨e₁, e₂⟩ := ih b A B ha' (fun m => hb (List.mem_cons_of_mem _ m)) hA hB h₂
      exact ⟨by rw [h₁, e₁], e₂⟩

theorem dotted_align (rs : List (List Char)) (hrs : ∀ r ∈ rs, '.' ∉ r) :
    ∀ m u₁ u₂ : List Char, dotted rs = m ++ '.' :: (u₁ ++ u₂) → '.' ∉ u₁ → DotHead u₂ →
      ∃ pre t, rs = pre ++ u₁ :: t ∧ m = dotted pre ∧ u₂ = dotted t := by
  induction rs with
  | nil =>
    intro m u₁ u₂ h _ _
    cases m <;> cases h
  | cons r rs ih =>
    intro m u₁ u₂ h hu₁ hu₂
    rw [dotted_cons] at h
    have hr : '.' ∉ r := hrs r (List.mem_cons_self _ _)
    cases m with
    | nil =>
      have h' := (List.cons.inj h).2
      obtain ⟨e₁, e₂⟩ := dotfree_unique r u₁ (dotted rs) u₂ hr hu₁ (dotted_dotHead rs) hu₂ h'
      exact ⟨[], rs, by rw [e₁]; rfl, rfl, e₂.symm⟩
    | cons c m =>
      obtain ⟨h₁, h₂⟩ := List.cons.inj h
      obtain ⟨b', hb, hA⟩ := dotfree_split r hr m (dotted rs) (u₁ ++ u₂) h₂
      obtain ⟨pre, t, e₁, e₂, e₃⟩ :=
        ih (fun x hx => hrs x (List.mem_cons_of_mem _ hx)) b' u₁ u₂ hA hu₁ hu₂
      refine ⟨r :: pre, t, by rw [e₁]; rfl, ?_, e₃⟩
      rw [dotted_cons, ← e₂, ← hb, ← h₁]

theorem restP_dotHead (segs : List (List Char)) (u : List Char)
    (h : PiecesLang (restP segs) u) : DotHead u := by
  cases segs with
  | nil => exact Or.inl h
  | cons s more =>
    by_cases hs : s = ['#']
    · subst hs
      cases more with
      | nil =>
        rw [restP_hash_nil, PiecesLang_single] at h
        rcases h with h | ⟨m, h, -⟩
        · exact Or.inl h
        · exact Or.inr ⟨m, h⟩
      | cons s' more' =>
        rw [restP_hash_cons] at h
        obtain ⟨s₁, s₂, rfl, h₁, -⟩ := h
        rcases h₁ with h₁ | ⟨m, h₁, -⟩
        · exact Or.inr ⟨s₂, by rw [h₁]; rfl⟩
        · exact Or.inr ⟨m ++ ['.'] ++ s₂, by rw [h₁]; simp⟩
    · rw [restP_other s more hs] at h
      obtain ⟨s₁, s₂, rfl, h₁, -⟩ := h
      replace h₁ : s₁ = ['.'] := h₁
      exact Or.inr ⟨s₂, by rw [h₁]; rfl⟩

theorem words_chars (rs : List (List Char)) (hrs : ∀ r ∈ rs, IsWord r) :
    ∀ c ∈ dotted rs, c.isAlphanum = true ∨ c = '.' := by
  intro c hc
  rcases mem_dotted c rs hc with h | ⟨r, hr, h⟩
  · exact Or.inr h
  · exact Or.inl ((hrs r hr).2 c h)

theorem segFits_iff (s r : List Char) (hr : r ≠ []) : SegFits s r ↔ s = ['*'] ∨ r = s := by
  unfold SegFits
  by_cases h : s = ['*']
  · rw [if_pos h]
    exact ⟨fun _ => Or.inl h, fun _ => hr⟩
  · rw [if_neg h]
    exact ⟨fun e => Or.inr e, fun e => e.resolve_left h⟩

theorem step_lang (s : List Char) (hs : s = ['*'] ∨ IsWord s) (more rs : List (List Char))
    (hrs : ∀ r ∈ rs, IsWord r)
    (ih : ∀ t : List (List Char), (∀ r ∈ t, IsWord r) →
      (PiecesLang (restP more) (dotted t) ↔ refMatch more t = true))
    (m u : List Char) (h : dotted rs = m ++ '.' :: u) :
    PiecesLang (s.map toPiece ++ restP more) u ↔
      ∃ pre r t, rs = pre ++ r :: t ∧ m = dotted pre ∧ (s = ['*'] ∨ r = s) ∧
        refMatch more t = true := by
  have hch := words_chars rs hrs
  rw [PiecesLang_append]
  constructor
  · rintro ⟨u₁, u₂, rfl, h₁, h₂⟩
    have hu₁ : ∀ c ∈ u₁, c.isAlphanum = true ∨ c = '.' := by
      intro c hc
      apply hch
      rw [h]
      simp [hc]
    obtain ⟨hd, hf⟩ := (seg_lang s u₁ hs hu₁).1 h₁
    obtain ⟨pre, t, e₁, e₂, e₃⟩ := dotted_align rs (fun r hr => word_no_dot r (hrs r hr))
      m u₁ u₂ h hd (restP_dotHead more u₂ h₂)
    have ht : ∀ r ∈ t, IsWord r := by
      intro r hr
      apply hrs
      rw [e₁]
      simp [hr]
    have hw : IsWord u₁ := by
      apply hrs
      rw [e₁]
      simp
    rw [e₃] at h₂
    exact ⟨pre, u₁, t, e₁, e₂, (segFits_iff s u₁ hw.1).1 hf, (ih t ht).1 h₂⟩
  · rintro ⟨pre, r, t, rfl, rfl, hsr, hm⟩
    rw [dotted_append, dotted_cons] at h
    have hu : u = r ++ dotted t := ((List.cons.inj (List.append_cancel_left h)).2).symm
    have hw : IsWord r := hrs r (by simp)
    have ht : ∀ x ∈ t, IsWord x := fun x hx => hrs x (by simp [hx])
    refine ⟨r, dotted t, hu, ?_, (ih t ht).2 hm⟩
    exact (seg_lang s r hs (word_keyChars r hw)).2
      ⟨word_no_dot r hw, (segFits_iff s r hw.1).2 hsr⟩

theorem refMatch_nil (rs : List (List Char)) : refMatch [] rs = rs.isEmpty := by
  rw [refMatch]

theorem refMatch_hash (ps rs : List (List Char)) :
    refMatch (['#'] :: ps) rs = true ↔ ∃ pre tl, rs = pre ++ tl ∧ refMatch ps tl = true := by
  rw [refMatch.eq_def]
  simp only [if_pos, List.any_eq_true]
  constructor
  · rintro ⟨tl, h₁, h₂⟩
    obtain ⟨pre, hp⟩ := (List.mem_tails _ _).1 h₁
    exact ⟨pre, tl, hp.symm, h₂⟩
  · rintro ⟨pre, tl, h₁, h₂⟩
    exact ⟨tl, (List.mem_tails _ _).2 ⟨pre, h₁.symm⟩, h₂⟩

theorem refMatch_other (p : List Char) (ps rs : List (List Char)) (h : p ≠ ['#']) :
    refMatch (p :: ps) rs = true ↔
      ∃ r t, rs = r :: t ∧ (p = ['*'] ∨ r = p) ∧ refMatch ps t = true := by
  rw [refMatch.eq_def]
  simp only [if_neg h]
  cases rs with
  | nil => simp
  | cons r t =>
    simp only [Bool.and_eq_true, Bool.or_eq_true, decide_eq_true_eq]
    constructor
    · rintro ⟨h₁, h₂⟩
      exact ⟨r, t, rfl, h₁, h₂⟩
    · rintro ⟨r', t', e, h₁, h₂⟩
      cases e
      exact ⟨h₁, h₂⟩

theorem midHash_lang_iff (s₁ : List Char) (hp : ∀ c ∈ s₁, clsMem false pathRanges c = true) :
    Piece.midHash.Lang s₁ ↔ ∃ m, s₁ = m ++ ['.'] ∧ DotHead m := by
  constructor
  · rintro (h | ⟨x, h, -⟩)
    · exact ⟨[], h, Or.inl rfl⟩
    · exact ⟨'.' :: x, h, Or.inr ⟨x, rfl⟩⟩
  · rintro ⟨m, rfl, h | ⟨v, rfl⟩⟩
    · subst h
      exact Or.inl rfl
    · refine Or.inr ⟨v, rfl, fun c hc => hp c ?_⟩
      simp [hc]

theorem rest_lang (segs : List (List Char)) (hs : ∀ s ∈ segs, IsPatternSegment s)
    (ha : NoAdjacentHash segs) (rs : List (List Char)) (hrs : ∀ r ∈ rs, IsWord r) :
    PiecesLang (restP segs) (dotted rs) ↔ refMatch segs rs = true := by
  have key : ∀ n, ∀ segs : List (List Char), segs.length ≤ n →
      (∀ s ∈ segs, IsPatternSegment s) → NoAdjacentHash segs →
      ∀ rs : List (List Char), (∀ r ∈ rs, IsWord r) →
        (PiecesLang (restP segs) (dotted rs) ↔ refMatch segs rs = true) := by
    intro n
    induction n with
    | zero =>
      intro segs hl _ _ rs _
      have : segs = [] := List.length_eq_zero.1 (Nat.le_zero.1 hl)
      subst this
      rw [refMatch_nil]
      cases rs with
      | nil => exact iff_of_true rfl rfl
      | cons r rs =>
        constructor
        · intro h
          replace h : dotted (r :: rs) = [] := h
          rw [dotted_cons] at h
          cases h
        · intro h
          cases h
    | succ n ih =>
      intro segs hl hs ha rs hrs
      have hpath : ∀ c ∈ dotted rs, clsMem false pathRanges c = true :=
        fun c hc => key_path c (words_chars rs hrs c hc)
      cases segs with
      | nil =>
        rw [refMatch_nil]
        cases rs with
        | nil => exact iff_of_true rfl rfl
        | cons r rs =>
          constructor
          · intro h
            replace h : dotted (r :: rs) = [] := h
            rw [dotted_cons] at h
            cases h
          · intro h
            cases h
      | cons s more =>
        have hl' : more.length ≤ n := by
          simp only [List.length_cons] at hl; omega
        have hs' : ∀ s ∈ more, IsPatternSegment s :=
          fun t ht => hs t (List.mem_cons_of_mem _ ht)
        have ha' : NoAdjacentHash more := NoAdjacentHash.tail _ _ ha
        by_cases h : s = ['#']
        · subst h
          cases more with
          | nil =>
            apply iff_of_true
            · rw [restP_hash_nil, PiecesLang_single]
              cases rs with
              | nil => exact Or.inl rfl
              | cons r rs' =>
                refine Or.inr ⟨r ++ dotted rs', dotted_cons r rs', fun c hc => hpath c ?_⟩
                rw [dotted_cons]
                exact List.mem_cons_of_mem _ hc
            · rw [refMatch_hash]
              exact ⟨rs, [], by simp, rfl⟩
          | cons s' more' =>
            have hne : s' ≠ ['#'] := NoAdjacentHash.next _ _ ha
            have hs'' := patternSegment_cases s' (hs' s' (List.mem_cons_self _ _)) hne
            have ih' := ih more' (by simp only [List.length_cons] at hl'; omega)
              (fun t ht => hs' t (List.mem_cons_of_mem _ ht)) (NoAdjacentHash.tail _ _ ha')
            rw [restP_hash_cons, refMatch_hash]
            constructor
            · rintro ⟨s₁, s₂, e, h₁, h₂⟩
              have hp₁ : ∀ c ∈ s₁, clsMem false pathRanges c = true :=
                fun c hc => hpath c (by rw [e]; simp [hc])
              obtain ⟨m, rfl, -⟩ := (midHash_lang_iff s₁ hp₁).1 h₁
              have e' : dotted rs = m ++ '.' :: s₂ := by rw [e]; simp
              obtain ⟨pre, r, t, e₁, -, e₃, e₄⟩ :=
                (step_lang s' hs'' more' rs hrs ih' m s₂ e').1 h₂
              exact ⟨pre, r :: t, e₁, (refMatch_other s' more' (r :: t) hne).2
                ⟨r, t, rfl, e₃, e₄⟩⟩
            · rintro ⟨pre, tl, e₁, h₁⟩
              obtain ⟨r, t, rfl, e₃, e₄⟩ := (refMatch_other s' more' tl hne).1 h₁
              have e' : dotted rs = dotted pre ++ '.' :: (r ++ dotted t) := by
                rw [e₁, dotted_append, dotted_cons]
              refine ⟨dotted pre ++ ['.'], r ++ dotted t, by rw [e']; simp, ?_, ?_⟩
              · refine (midHash_lang_iff _ ?_).2 ⟨dotted pre, rfl, dotted_dotHead pre⟩
                intro c hc
                apply hpath
                rw [e']
                rw [List.mem_append] at hc ⊢
                rcases hc with hc | hc
                · exact Or.inl hc
                · right
                  rw [List.mem_singleton.1 hc]
                  exact List.mem_cons_self _ _
              · exact (step_lang s' hs'' more' rs hrs ih' (dotted pre) _ e').2
                  ⟨pre, r, t, e₁, rfl, e₃, e₄⟩
        · have hs'' := patternSegment_cases s (hs s (List.mem_cons_self _ _)) h
          have ih' := ih more hl' hs' ha'
          rw [restP_other s more h, refMatch_other s more rs h]
          constructor
          · rintro ⟨s₁, s₂, e, h₁, h₂⟩
            replace h₁ : s₁ = ['.'] := h₁
            subst h₁
            have e' : dotted rs = [] ++ '.' :: s₂ := e
            obtain ⟨pre, r, t, e₁, e₂, e₃, e₄⟩ :=
              (step_lang s hs'' more rs hrs ih' [] s₂ e').1 h₂
            have := dotted_eq_nil pre e₂.symm
            subst this
            exact ⟨r, t, e₁, e₃, e₄⟩
          · rintro ⟨r, t, e₁, e₃, e₄⟩
            have e' : dotted rs = [] ++ '.' :: (r ++ dotted t) := by
              rw [e₁, dotted_cons]
              rfl
            exact ⟨['.'], r ++ dotted t, e', rfl,
              (step_lang s hs'' more rs hrs ih' [] _ e').2 ⟨[], r, t, e₁, rfl, e₃, e₄⟩⟩
  exact key segs.length segs (Nat.le_refl _) hs ha rs hrs

theorem first_lang_iff (s : List Char) (more : List (List Char)) (R : List Char) :
    PiecesLang (firstP (s :: more)) R ↔ PiecesLang (restP (s :: more)) ('.' :: R) := by
  by_cases h : s = ['#']
  · subst h
    cases more with
    | nil =>
      rw [firstP_hash_nil, restP_hash_nil, PiecesLang_single, PiecesLang_single]
      constructor
      · intro hb
        exact Or.inr ⟨R, rfl, hb⟩
      · rintro (hb | ⟨m, e, hb⟩)
        · cases hb
        · rw [(List.cons.inj e).2]
          exact hb
    | cons s' more' =>
      rw [firstP_hash_cons, restP_hash_cons]
      constructor
      · rintro ⟨l, u, rfl, hl, hX⟩
        refine ⟨'.' :: l, u, rfl, ?_, hX⟩
        rcases hl with hl | ⟨m, hl, hm⟩
        · rw [hl]
          exact Or.inl rfl
        · rw [hl]
          exact Or.inr ⟨m, rfl, hm⟩
      · rintro ⟨s₁, u, e, hm, hX⟩
        rcases hm with hm | ⟨m, hm, hp⟩
        · subst hm
          exact ⟨[], u, (List.cons.inj e).2, Or.inl rfl, hX⟩
        · subst hm
          refine ⟨m ++ ['.'], u, ?_, Or.inr ⟨m, rfl, hp⟩, hX⟩
          have := (List.cons.inj e).2
          rw [this]
          simp
  · rw [firstP_other s more h, restP_other s more h]
    constructor
    · intro hX
      exact ⟨['.'], R, rfl, rfl, hX⟩
    · rintro ⟨s₁, s₂, e, hd, hX⟩
      replace hd : s₁ = ['.'] := hd
      subst hd
      rw [(List.cons.inj e).2]
      exact hX

/-! ## Interleaved runs -/

theorem countP_set (p : Thread → Bool) (l : List Thread) :
    ∀ (i : Nat) (th x : Thread), l[i]? = some th →
      (l.set i x).countP p + (if p th = true then 1 else 0) =
        l.countP p + (if p x = true then 1 else 0) := by
  induction l with
  | nil => intro i th x h; cases i <;> cases h
  | cons a l ih =>
    intro i th x h
    cases i with
    | zero =>
      have : a = th := by simpa using h
      subst this
      simp only [List.set_cons_zero, List.countP_cons]
      omega
    | succ i =>
      have h' : l[i]? = some th := by simpa using h
      have := ih i th x h'
      simp only [List.set_cons_succ, List.countP_cons]
      omega

theorem two_le_countP (p : Thread → Bool) (l : List Thread) :
    ∀ (i j : Nat) (a b : Thread), l[i]? = some a → l[j]? = some b → i ≠ j →
      p a = true → p b = true → 2 ≤ l.countP p := by
  induction l with
  | nil => intro i j a b h; cases i <;> cases h
  | cons x l ih =>
    intro i j a b hi hj hne ha hb
    rw [List.countP_cons]
    cases i with
    | zero =>
      cases j with
      | zero => exact absurd rfl hne
      | succ j =>
        have e : x = a := by simpa using hi
        have hj' : l[j]? = some b := by simpa using hj
        have hm : b ∈ l := List.getElem?_mem hj'
        have := List.countP_pos_iff.2 ⟨b, hm, hb⟩
        rw [e, if_pos ha]
        omega
    | succ i =>
      have hi' : l[i]? = some a := by simpa using hi
      cases j with
      | zero =>
        have e : x = b := by simpa using hj
        have hm : a ∈ l := List.getElem?_mem hi'
        have := List.countP_pos_iff.2 ⟨a, hm, ha⟩
        rw [e, if_pos hb]
        omega
      | succ j =>
        have hj' : l[j]? = some b := by simpa using hj
        have := ih i j a b hi' hj' (fun e => hne (by rw [e])) ha hb
        omega

theorem mem_set_append (q x : Thread) (l ex : List Thread) (i : Nat)
    (h : q ∈ l.set i x ++ ex) : q = x ∨ q ∈ l ∨ q ∈ ex := by
  rcases List.mem_append.1 h with h | h
  · rcases List.mem_or_eq_of_mem_set h with h | h
    · exact Or.inr (Or.inl h)
    · exact Or.inl h
  · exact Or.inr (Or.inr h)

theorem mem_set_cases (q x : Thread) (l : List Thread) (i : Nat)
    (h : q ∈ l.set i x) : q = x ∨ q ∈ l := by
  rcases List.mem_or_eq_of_mem_set h with h | h
  · exact Or.inr h
  · exact Or.inl h

theorem Topic_fresh (cache : PatternCache) (hc : CacheSound cache) (msg : Message)
    (binding : Binding) :
    (Topic cache msg binding).map (fun out => out.matched) = freshTopic msg binding := by
  have := (TopicCall_sound cache hc msg binding).1
  rw [← this]
  unfold TopicCall
  cases Topic cache msg binding <;> rfl

theorem Topic_deferred (cache : PatternCache) (msg : Message) (binding : Binding)
    (out : TopicResult) (e : String × Regex) (h : Topic cache msg binding = some out)
    (he : out.deferred = some e) : MustCompileKey e.1 = some e.2 := by
  unfold Topic at h
  cases hl : List.lookup binding.bindingKey cache with
  | some m =>
    rw [hl] at h
    cases h
    cases he
  | none =>
    rw [hl] at h
    cases hr : MustCompileKey binding.bindingKey with
    | none => rw [hr] at h; cases h
    | some r =>
      rw [hr] at h
      cases h
      cases he
      exact hr

theorem inv_update (w : World) (h : w.Inv) (i : Nat) (th : Thread)
    (hth : w.threads[i]? = some th) (x : Thread) (ex threads' : List Thread)
    (c' : PatternCache) (r' : Nat) (b' : Bool)
    (hthreads : threads' = w.threads.set i x ++ ex)
    (hsound : CacheSound c')
    (hxp : ∀ e, (x.pc = Pc.spawned e ∨ x.pc = Pc.writing e) → MustCompileKey e.1 = some e.2)
    (hep : ∀ q ∈ ex, ∀ e, (q.pc = Pc.spawned e ∨ q.pc = Pc.writing e) →
      MustCompileKey e.1 = some e.2)
    (hxf : ∀ r, (x.pc = Pc.answered r ∨ x.pc = Pc.returned r) →
      r = freshTopic x.msg x.binding)
    (hef : ∀ q ∈ ex, ∀ r, (q.pc = Pc.answered r ∨ q.pc = Pc.returned r) →
      r = freshTopic q.msg q.binding)
    (heR : ex.countP Thread.holdsRead = 0) (heW : ex.countP Thread.holdsWrite = 0)
    (hr : r' + (if th.holdsRead = true then 1 else 0) =
      w.readers + (if x.holdsRead = true then 1 else 0))
    (hb : (if b' = true then 1 else 0) + (if th.holdsWrite = true then 1 else 0) =
      (if w.writer = true then 1 else 0) + (if x.holdsWrite = true then 1 else 0))
    (hexcl : b' = true → r' = 0) :
    World.Inv ⟨c', r', b', threads'⟩ := by
  subst hthreads
  have hR := countP_set Thread.holdsRead w.threads i th x hth
  have hW := countP_set Thread.holdsWrite w.threads i th x hth
  have h₁ := h.readers_eq
  have h₂ := h.writer_eq
  refine ⟨hsound, ?_, ?_, ?_, ?_, hexcl⟩
  · intro q hq e he
    rcases mem_set_append q x _ _ i hq with rfl | hq | hq
    · exact hxp e he
    · exact h.pending q hq e he
    · exact hep q hq e he
  · intro q hq r he
    rcases mem_set_append q x _ _ i hq with rfl | hq | hq
    · exact hxf r he
    · exact h.fresh q hq r he
    · exact hef q hq r he
  · show r' = List.countP Thread.holdsRead (w.threads.set i x ++ ex)
    rw [List.countP_append, heR]
    omega
  · show (if b' = true then 1 else 0) =
      List.countP Thread.holdsWrite (w.threads.set i x ++ ex)
    rw [List.countP_append, heW]
    omega

theorem step_inv (w w' : World) (i : Nat) (h : w.Inv) (hs : step w i = some w') :
    w'.Inv := by
  unfold step at hs
  cases hth : w.threads[i]? with
  | none => rw [hth] at hs; cases hs
  | some th =>
    rw [hth] at hs
    have hmem : th ∈ w.threads := List.getElem?_mem hth
    have h₁ := h.readers_eq
    have h₂ := h.writer_eq
    have hcR : th.holdsRead = true → 0 < w.threads.countP Thread.holdsRead :=
      fun hp => List.countP_pos_iff.2 ⟨th, hmem, hp⟩
    have hcW : th.holdsWrite = true → 0 < w.threads.countP Thread.holdsWrite :=
      fun hp => List.countP_pos_iff.2 ⟨th, hmem, hp⟩
    obtain ⟨msg, binding, pc⟩ := th
    cases pc with
    | start =>
      simp only at hs
      by_cases hw : w.writer = true
      · rw [if_pos hw] at hs; cases hs
      · rw [if_neg hw] at hs
        cases hs
        refine inv_update w h i _ hth ⟨msg, binding, Pc.locked⟩ [] _ _ _ _
          (List.append_nil _).symm h.sound ?_ ?_ ?_ ?_ rfl rfl ?_ ?_ ?_
        · rintro e (he | he) <;> cases he
        · intro q hq; cases hq
        · rintro r (he | he) <;> cases he
        · intro q hq; cases hq
        · simp [Thread.holdsRead]
        · simp [Thread.holdsWrite]
        · intro hb; exact absurd hb hw
    | locked =>
      simp only at hs
      have hfr := Topic_fresh w.cache h.sound msg binding
      cases hT : Topic w.cache msg binding with
      | none =>
        rw [hT] at hs hfr
        cases hs
        refine inv_update w h i _ hth ⟨msg, binding, Pc.answered none⟩ [] _ _ _ _
          (List.append_nil _).symm h.sound ?_ ?_ ?_ ?_ rfl rfl ?_ ?_ h.excl
        · rintro e (he | he) <;> cases he
        · intro q hq; cases hq
        · rintro r (he | he)
          · cases he
            exact hfr
          · cases he
        · intro q hq; cases hq
        · simp [Thread.holdsRead]
        · simp [Thread.holdsWrite]
      | some out =>
        rw [hT] at hs hfr
        cases hs
        refine inv_update w h i _ hth ⟨msg, binding, Pc.answered (some out.matched)⟩
          (match out.deferred with
            | none => []
            | some entry => [⟨msg, binding, Pc.spawned entry⟩]) _ _ _ _
          rfl h.sound ?_ ?_ ?_ ?_ ?_ ?_ ?_ ?_ h.excl
        · rintro e (he | he) <;> cases he
        · intro q hq e he
          cases hd : out.deferred with
          | none => rw [hd] at hq; cases hq
          | some entry =>
            rw [hd] at hq
            have hq' : q = ⟨msg, binding, Pc.spawned entry⟩ := List.mem_singleton.1 hq
            subst hq'
            rcases he with he | he
            · cases he
              exact Topic_deferred w.cache msg binding out e hT hd
            · cases he
        · rintro r (he | he)
          · cases he
            exact hfr
          · cases he
        · intro q hq r he
          cases hd : out.deferred with
          | none => rw [hd] at hq; cases hq
          | some entry =>
            rw [hd] at hq
            have hq' : q = ⟨msg, binding, Pc.spawned entry⟩ := List.mem_singleton.1 hq
            subst hq'
            rcases he with he | he <;> cases he
        · cases out.deferred <;> rfl
        · cases out.deferred <;> rfl
        · simp [Thread.holdsRead]
        · simp [Thread.holdsWrite]
    | answered r =>
      simp only at hs
      cases hs
      have hpos := hcR rfl
      refine inv_update w h i _ hth ⟨msg, binding, Pc.returned r⟩ [] _ _ _ _
        (List.append_nil _).symm h.sound ?_ ?_ ?_ ?_ rfl rfl ?_ ?_ ?_
      · rintro e (he | he) <;> cases he
      · intro q hq; cases hq
      · rintro r' (he | he)
        · cases he
        · cases he
          exact h.fresh _ hmem r (Or.inl rfl)
      · intro q hq; cases hq
      · simp only [Thread.holdsRead]
        simp
        omega
      · simp [Thread.holdsWrite]
      · intro hb
        have := h.excl hb
        omega
    | returned r => simp only at hs; cases hs
    | spawned entry =>
      simp only at hs
      by_cases hg : (w.writer || w.readers != 0) = true
      · rw [if_pos hg] at hs; cases hs
      · rw [if_neg hg] at hs
        cases hs
        have hw : w.writer = false := by
          cases hb : w.writer with
          | false => rfl
          | true => rw [hb] at hg; exact absurd rfl hg
        have hr : w.readers = 0 := by
          rw [hw] at hg
          simpa using hg
        refine inv_update w h i _ hth ⟨msg, binding, Pc.writing entry⟩ [] _ _ _ _
          (List.append_nil _).symm h.sound ?_ ?_ ?_ ?_ rfl rfl ?_ ?_ ?_
        · rintro e (he | he)
          · cases he
          · cases he
            exact h.pending _ hmem entry (Or.inl rfl)
        · intro q hq; cases hq
        · rintro r (he | he) <;> cases he
        · intro q hq; cases hq
        · simp [Thread.holdsRead]
        · simp [Thread.holdsWrite, hw]
        · intro _; exact hr
    | writing entry =>
      simp only at hs
      cases hs
      refine inv_update w h i _ hth ⟨msg, binding, Pc.written⟩ [] _ _ _ _
        (List.append_nil _).symm
        (CacheSound_store w.cache h.sound entry (h.pending _ hmem entry (Or.inr rfl)))
        ?_ ?_ ?_ ?_ rfl rfl ?_ ?_ h.excl
      · rintro e (he | he) <;> cases he
      · intro q hq; cases hq
      · rintro r (he | he) <;> cases he
      · intro q hq; cases hq
      · simp [Thread.holdsRead]
      · simp [Thread.holdsWrite]
    | written =>
      simp only at hs
      cases hs
      have hpos := hcW rfl
      have hw : w.writer = true := by
        cases hb : w.writer with
        | true => rfl
        | false => rw [hb] at h₂; simp at h₂; omega
      refine inv_update w h i _ hth ⟨msg, binding, Pc.stopped⟩ [] _ _ _ _
        (List.append_nil _).symm h.sound ?_ ?_ ?_ ?_ rfl rfl ?_ ?_ ?_
      · rintro e (he | he) <;> cases he
      · intro q hq; cases hq
      · rintro r (he | he) <;> cases he
      · intro q hq; cases hq
      · simp [Thread.holdsRead]
      · simp [Thread.holdsWrite, hw]
      · intro hb; cases hb
    | stopped => simp only at hs; cases hs

theorem exec_inv (schedule : List Nat) : ∀ w : World, w.Inv → (exec w schedule).Inv := by
  induction schedule with
  | nil => intro w h; exact h
  | cons i schedule ih =>
    intro w h
    apply ih
    cases hs : step w i with
    | none => exact h
    | some w' => exact step_inv w w' i h hs

theorem init_inv (cache : PatternCache) (hc : CacheSound cache)
    (calls : List (Message × Binding)) : (initWorld cache calls).Inv := by
  have hpc : ∀ th ∈ (initWorld cache calls).threads, th.pc = Pc.start := by
    intro th hth
    obtain ⟨call, -, rfl⟩ := List.mem_map.1 hth
    rfl
  refine ⟨hc, ?_, ?_, ?_, ?_, ?_⟩
  · intro th hth e he
    rw [hpc th hth] at he
    rcases he with he | he <;> cases he
  · intro th hth r he
    rw [hpc th hth] at he
    rcases he with he | he <;> cases he
  · symm
    apply List.countP_eq_zero.2
    intro th hth
    simp [Thread.holdsRead, hpc th hth]
  · symm
    apply List.countP_eq_zero.2
    intro th hth
    simp [Thread.holdsWrite, hpc th hth]
  · intro hb; cases hb

theorem Inv.no_race (w : World) (h : w.Inv) (i j : Nat) (a b : Thread)
    (ha : w.threads[i]? = some a) (hb : w.threads[j]? = some b) (hne : i ≠ j)
    (hw : a.writesMap = true) : b.readsMap = false ∧ b.writesMap = false := by
  have haW : a.holdsWrite = true := by
    unfold Thread.writesMap at hw
    unfold Thread.holdsWrite
    cases hp : a.pc <;> rw [hp] at hw <;> first | rfl | cases hw
  have hpos : 0 < w.threads.countP Thread.holdsWrite :=
    List.countP_pos_iff.2 ⟨a, List.getElem?_mem ha, haW⟩
  have h₂ := h.writer_eq
  have hwr : w.writer = true := by
    cases hx : w.writer with
    | true => rfl
    | false => rw [hx] at h₂; simp at h₂; omega
  have hr := h.excl hwr
  have h₁ := h.readers_eq
  rw [hwr] at h₂
  simp only [if_true] at h₂
  constructor
  · cases hb' : b.readsMap with
    | false => rfl
    | true =>
      exfalso
      have hbR : b.holdsRead = true := by
        unfold Thread.readsMap at hb'
        unfold Thread.holdsRead
        cases hp : b.pc <;> rw [hp] at hb' <;> first | rfl | cases hb'
      have := List.countP_pos_iff.2 ⟨b, List.getElem?_mem hb, hbR⟩
      omega
  · cases hb' : b.writesMap with
    | false => rfl
    | true =>
      exfalso
      have hbW : b.holdsWrite = true := by
        unfold Thread.writesMap at hb'
        unfold Thread.holdsWrite
        cases hp : b.pc <;> rw [hp] at hb' <;> first | rfl | cases hb'
      have := two_le_countP Thread.holdsWrite w.threads i j a b ha hb hne haW hbW
      omega

theorem writesMap_holds (a : Thread) (hw : a.writesMap = true) : a.holdsWrite = true := by
  unfold Thread.writesMap at hw
  unfold Thread.holdsWrite
  cases hp : a.pc <;> rw [hp] at hw <;> first | rfl | cases hw

theorem readsMap_holds (a : Thread) (hr : a.readsMap = true) : a.holdsRead = true := by
  unfold Thread.readsMap at hr
  unfold Thread.holdsRead
  cases hp : a.pc <;> rw [hp] at hr <;> first | rfl | cases hr

theorem Inv.discipline (w : World) (h : w.Inv) : w.LockDiscipline := by
  have h₁ := h.readers_eq
  have h₂ := h.writer_eq
  refine ⟨h₁, h₂, h.excl, ?_, ?_⟩
  · intro th hth hr
    have hR := readsMap_holds th hr
    refine ⟨hR, ?_⟩
    have := List.countP_pos_iff.2 ⟨th, hth, hR⟩
    cases hx : w.writer with
    | false => rfl
    | true =>
      have := h.excl hx
      omega
  · intro th hth hw
    have hW := writesMap_holds th hw
    have := List.countP_pos_iff.2 ⟨th, hth, hW⟩
    have hwr : w.writer = true := by
      cases hx : w.writer with
      | true => rfl
      | false => rw [hx] at h₂; simp at h₂; omega
    exact ⟨hW, hwr, h.excl hwr⟩

/-! ## `Topic` and its parametric form -/

theorem Topic_eq_TopicBy (cache : PatternCache) (msg : Message) (binding : Binding) :
    (Topic cache msg binding).map (fun out => (out.matched, out.deferred)) =
      TopicBy Compile MatchString cache msg binding := by
  unfold Topic TopicBy MustCompileKey
  cases List.lookup binding.bindingKey cache with
  | some m => rfl
  | none =>
    cases Compile ('^' :: translate binding.bindingKey.toList ++ ['$']) <;> rfl

theorem TopicCall_eq_TopicCallBy (cache : PatternCache) (msg : Message) (binding : Binding) :
    TopicCall cache msg binding = TopicCallBy Compile MatchString cache msg binding := by
  unfold TopicCall TopicCallBy
  rw [← Topic_eq_TopicBy]
  cases hT : Topic cache msg binding with
  | none => rfl
  | some out =>
    obtain ⟨b, d⟩ := out
    cases d <;> rfl

theorem TopicBy_panics {ρ : Type} (compile : List Char → Option ρ)
    (run : ρ → List Char → Bool) (cache : List (String × ρ)) (msg : Message)
    (binding : Binding)
    (hc : ∀ key m, cache.lookup key = some m →
      compile ('^' :: translate key.toList ++ ['$']) ≠ none)
    (h : compile ('^' :: translate binding.bindingKey.toList ++ ['$']) = none) :
    TopicBy compile run cache msg binding = none ∧
      TopicCallBy compile run cache msg binding = (none, cache) := by
  have hl : cache.lookup binding.bindingKey = none := by
    cases hl : cache.lookup binding.bindingKey with
    | none => rfl
    | some m => exact absurd h (hc _ m hl)
  have hT : TopicBy compile run cache msg binding = none := by
    unfold TopicBy
    rw [hl]
    simp only [h]
  refine ⟨hT, ?_⟩
  unfold TopicCallBy
  rw [hT]

/-! ## Stores on a map that already holds the key -/

theorem lookup_append_of_some (k : String) (m : Regex) (c d : PatternCache)
    (h : List.lookup k c = some m) : List.lookup k (c ++ d) = some m := by
  induction c with
  | nil => cases h
  | cons a es ih =>
    rw [List.cons_append, lookup_cons_eq]
    rw [lookup_cons_eq] at h
    by_cases hk : k = a.1
    · rw [if_pos hk] at h ⊢
      exact h
    · rw [if_neg hk] at h ⊢
      exact ih h

theorem lookup_some_mem (k : String) (m : Regex) (c : PatternCache)
    (h : List.lookup k c = some m) : (k, m) ∈ c := by
  induction c with
  | nil => cases h
  | cons a es ih =>
    rw [lookup_cons_eq] at h
    by_cases hk : k = a.1
    · rw [if_pos hk] at h
      cases h
      rw [hk]
      exact List.mem_cons_self _ _
    · rw [if_neg hk] at h
      exact List.mem_cons_of_mem _ (ih h)

theorem EntriesSound.cacheSound {cache : PatternCache} (h : EntriesSound cache) :
    CacheSound cache :=
  fun key m hl => h (key, m) (lookup_some_mem key m cache hl)

theorem store_cases (cache : PatternCache) (hc : EntriesSound cache) (e : String × Regex)
    (he : MustCompileKey e.1 = some e.2) :
    store cache e = cache ∨ (List.lookup e.1 cache = none ∧ store cache e = cache ++ [e]) := by
  cases hl : List.lookup e.1 cache with
  | none => exact Or.inr ⟨rfl, store_absent cache e hl⟩
  | some m =>
    left
    unfold store
    rw [hl]
    simp only [Option.isSome_some, if_true]
    have : ∀ kv ∈ cache, (if (kv.1 == e.1) = true then e else kv) = kv := by
      intro kv hkv
      by_cases hk : kv.1 = e.1
      · have h₁ := hc kv hkv
        rw [hk, he] at h₁
        have h₂ : e.2 = kv.2 := Option.some.inj h₁
        have : (kv.1 == e.1) = true := by simpa using hk
        rw [if_pos this]
        exact Prod.ext hk.symm h₂
      · have : ¬ (kv.1 == e.1) = true := by simpa using hk
        rw [if_neg this]
    calc cache.map (fun kv => if (kv.1 == e.1) = true then e else kv)
        = cache.map id := List.map_congr_left this
      _ = cache := List.map_id _

theorem EntriesSound_store (cache : PatternCache) (hc : EntriesSound cache)
    (e : String × Regex) (he : MustCompileKey e.1 = some e.2) :
    EntriesSound (store cache e) := by
  rcases store_cases cache hc e he with h | ⟨-, h⟩
  · rw [h]; exact hc
  · rw [h]
    intro kv hkv
    rcases List.mem_append.1 hkv with hkv | hkv
    · exact hc kv hkv
    · rw [List.mem_singleton.1 hkv]; exact he

theorem step_cache (w w' : World) (i : Nat) (h : w.Inv) (hc : EntriesSound w.cache)
    (hs : step w i = some w') :
    EntriesSound w'.cache ∧
      (w'.cache = w.cache ∨
        ∃ e, List.lookup e.1 w.cache = none ∧ w'.cache = w.cache ++ [e]) := by
  unfold step at hs
  cases hth : w.threads[i]? with
  | none => rw [hth] at hs; cases hs
  | some th =>
    rw [hth] at hs
    have hmem : th ∈ w.threads := List.getElem?_mem hth
    obtain ⟨msg, binding, pc⟩ := th
    cases pc with
    | start =>
      simp only at hs
      by_cases hw : w.writer = true
      · rw [if_pos hw] at hs; cases hs
      · rw [if_neg hw] at hs
        cases hs
        exact ⟨hc, Or.inl rfl⟩
    | locked =>
      simp only at hs
      cases hT : Topic w.cache msg binding with
      | none => rw [hT] at hs; cases hs; exact ⟨hc, Or.inl rfl⟩
      | some out => rw [hT] at hs; cases hs; exact ⟨hc, Or.inl rfl⟩
    | answered r => simp only at hs; cases hs; exact ⟨hc, Or.inl rfl⟩
    | returned r => simp only at hs; cases hs
    | spawned entry =>
      simp only at hs
      by_cases hg : (w.writer || w.readers != 0) = true
      · rw [if_pos hg] at hs; cases hs
      · rw [if_neg hg] at hs
        cases hs
        exact ⟨hc, Or.inl rfl⟩
    | writing entry =>
      simp only at hs
      cases hs
      have he := h.pending _ hmem entry (Or.inr rfl)
      refine ⟨EntriesSound_store w.cache hc entry he, ?_⟩
      rcases store_cases w.cache hc entry he with h₁ | ⟨h₁, h₂⟩
      · exact Or.inl h₁
      · exact Or.inr ⟨entry, h₁, h₂⟩
    | written => simp only at hs; cases hs; exact ⟨hc, Or.inl rfl⟩
    | stopped => simp only at hs; cases hs

theorem exec_append (s₁ s₂ : List Nat) :
    ∀ w : World, exec w (s₁ ++ s₂) = exec (exec w s₁) s₂ := by
  induction s₁ with
  | nil => intro w; rfl
  | cons i s₁ ih => intro w; exact ih _

theorem exec_cache (schedule : List Nat) :
    ∀ w : World, w.Inv → EntriesSound w.cache →
      EntriesSound (exec w schedule).cache ∧ w.cache <+: (exec w schedule).cache := by
  induction schedule with
  | nil => intro w _ hc; exact ⟨hc, List.prefix_refl _⟩
  | cons i schedule ih =>
    intro w h hc
    cases hs : step w i with
    | none =>
      have := ih w h hc
      show EntriesSound (exec ((step w i).getD w) schedule).cache ∧
        w.cache <+: (exec ((step w i).getD w) schedule).cache
      rw [hs]
      exact this
    | some w' =>
      obtain ⟨hc', hp⟩ := step_cache w w' i h hc hs
      obtain ⟨h₁, h₂⟩ := ih w' (step_inv w w' i h hs) hc'
      show EntriesSound (exec ((step w i).getD w) schedule).cache ∧
        w.cache <+: (exec ((step w i).getD w) schedule).cache
      rw [hs]
      refine ⟨h₁, List.IsPrefix.trans ?_ h₂⟩
      rcases hp with hp | ⟨e, -, hp⟩
      · rw [hp]
      · rw [hp]; exact List.prefix_append _ _

theorem EntriesSound_nil : EntriesSound [] := by
  intro kv h
  cases h

/-! ## Progress -/

theorem sum_set (f : Thread → Nat) (l : List Thread) :
    ∀ (i : Nat) (th x : Thread), l[i]? = some th →
      ((l.set i x).map f).sum + f th = (l.map f).sum + f x := by
  induction l with
  | nil => intro i th x h; cases i <;> cases h
  | cons a l ih =>
    intro i th x h
    cases i with
    | zero =>
      have : a = th := by simpa using h
      subst this
      simp only [List.set_cons_zero, List.map_cons, List.sum_cons]
      omega
    | succ i =>
      have h' : l[i]? = some th := by simpa using h
      have := ih i th x h'
      simp only [List.set_cons_succ, List.map_cons, List.sum_cons]
      omega

theorem step_shape (w w' : World) (i : Nat) (hs : step w i = some w') :
    ∃ th x ex, w.threads[i]? = some th ∧ w'.threads = w.threads.set i x ++ ex ∧
      x.msg = th.msg ∧ x.binding = th.binding ∧ x.pc.isCall = th.pc.isCall ∧
      x.pc.remaining + (ex.map fun q => q.pc.remaining).sum < th.pc.remaining := by
  unfold step at hs
  cases hth : w.threads[i]? with
  | none => rw [hth] at hs; cases hs
  | some th =>
    rw [hth] at hs
    obtain ⟨msg, binding, pc⟩ := th
    cases pc with
    | start =>
      simp only at hs
      by_cases hw : w.writer = true
      · rw [if_pos hw] at hs; cases hs
      · rw [if_neg hw] at hs
        cases hs
        exact ⟨_, ⟨msg, binding, Pc.locked⟩, [], rfl, (List.append_nil _).symm, rfl, rfl, rfl,
          by simp [Pc.remaining]⟩
    | locked =>
      simp only at hs
      cases hT : Topic w.cache msg binding with
      | none =>
        rw [hT] at hs
        cases hs
        exact ⟨_, ⟨msg, binding, Pc.answered none⟩, [], rfl, (List.append_nil _).symm, rfl, rfl,
          rfl, by simp [Pc.remaining]⟩
      | some out =>
        rw [hT] at hs
        cases hs
        refine ⟨_, ⟨msg, binding, Pc.answered (some out.matched)⟩, _, rfl, rfl, rfl, rfl, rfl, ?_⟩
        cases out.deferred <;> simp [Pc.remaining]
    | answered r =>
      simp only at hs
      cases hs
      exact ⟨_, ⟨msg, binding, Pc.returned r⟩, [], rfl, (List.append_nil _).symm, rfl, rfl, rfl,
        by simp [Pc.remaining]⟩
    | returned r => simp only at hs; cases hs
    | spawned entry =>
      simp only at hs
      by_cases hg : (w.writer || w.readers != 0) = true
      · rw [if_pos hg] at hs; cases hs
      · rw [if_neg hg] at hs
        cases hs
        exact ⟨_, ⟨msg, binding, Pc.writing entry⟩, [], rfl, (List.append_nil _).symm, rfl, rfl,
          rfl, by simp [Pc.remaining]⟩
    | writing entry =>
      simp only at hs
      cases hs
      exact ⟨_, ⟨msg, binding, Pc.written⟩, [], rfl, (List.append_nil _).symm, rfl, rfl, rfl,
        by simp [Pc.remaining]⟩
    | written =>
      simp only at hs
      cases hs
      exact ⟨_, ⟨msg, binding, Pc.stopped⟩, [], rfl, (List.append_nil _).symm, rfl, rfl, rfl,
        by simp [Pc.remaining]⟩
    | stopped => simp only at hs; cases hs

theorem step_remaining (w w' : World) (i : Nat) (hs : step w i = some w') :
    w'.remaining < w.remaining := by
  obtain ⟨th, x, ex, hth, hthreads, -, -, -, hlt⟩ := step_shape w w' i hs
  have := sum_set (fun q => q.pc.remaining) w.threads i th x hth
  unfold World.remaining
  rw [hthreads, List.map_append, List.sum_append]
  simp only at this
  omega

theorem step_calls (w w' : World) (i : Nat) (calls : List (Message × Binding))
    (h : w.Calls calls) (hs : step w i = some w') : w'.Calls calls := by
  obtain ⟨th, x, ex, hth, hthreads, hm, hb, hc, -⟩ := step_shape w w' i hs
  intro j call hj
  obtain ⟨q, hq, hq₁, hq₂, hq₃⟩ := h j call hj
  have hjl : j < w.threads.length := (List.getElem?_eq_some.1 hq).1
  rw [hthreads, List.getElem?_append_left (by rw [List.length_set]; exact hjl)]
  by_cases hij : i = j
  · subst hij
    rw [hth] at hq
    cases hq
    refine ⟨x, ?_, hm ▸ hq₁, hb ▸ hq₂, hc ▸ hq₃⟩
    rw [List.getElem?_set_self hjl]
  · refine ⟨q, ?_, hq₁, hq₂, hq₃⟩
    rw [List.getElem?_set_ne hij]
    exact hq

theorem exec_calls (schedule : List Nat) (calls : List (Message × Binding)) :
    ∀ w : World, w.Calls calls → (exec w schedule).Calls calls := by
  induction schedule with
  | nil => intro w h; exact h
  | cons i schedule ih =>
    intro w h
    apply ih
    cases hs : step w i with
    | none => exact h
    | some w' => exact step_calls w w' i calls h hs

theorem init_calls (cache : PatternCache) (calls : List (Message × Binding)) :
    (initWorld cache calls).Calls calls := by
  intro i call hi
  refine ⟨⟨call.1, call.2, Pc.start⟩, ?_, rfl, rfl, rfl⟩
  show (calls.map fun call => (⟨call.1, call.2, Pc.start⟩ : Thread))[i]? = _
  rw [List.getElem?_map, hi]
  rfl

theorem deadlock_free (w : World) (h : w.Inv) (hd : ¬ w.Done) :
    ∃ i w', step w i = some w' := by
  have h₁ := h.readers_eq
  have h₂ := h.writer_eq
  have run : ∀ (i : Nat) (th : Thread), w.threads[i]? = some th →
      (th.holdsRead = true ∨ th.holdsWrite = true ∨
        (th.finished = false ∧ w.writer = false ∧ w.readers = 0)) →
      ∃ w', step w i = some w' := by
    intro i th hth hcase
    unfold step
    rw [hth]
    obtain ⟨msg, binding, pc⟩ := th
    cases pc with
    | start =>
      rcases hcase with hc | hc | ⟨-, hw, -⟩
      · cases hc
      · cases hc
      · simp only [hw]
        exact ⟨_, rfl⟩
    | locked =>
      simp only
      cases Topic w.cache msg binding with
      | none => exact ⟨_, rfl⟩
      | some out => exact ⟨_, rfl⟩
    | answered r => exact ⟨_, rfl⟩
    | returned r =>
      rcases hcase with hc | hc | ⟨hc, -, -⟩ <;> cases hc
    | spawned entry =>
      rcases hcase with hc | hc | ⟨-, hw, hr⟩
      · cases hc
      · cases hc
      · simp only [hw, hr]
        exact ⟨_, rfl⟩
    | writing entry => exact ⟨_, rfl⟩
    | written => exact ⟨_, rfl⟩
    | stopped =>
      rcases hcase with hc | hc | ⟨hc, -, -⟩ <;> cases hc
  by_cases hW : ∃ th ∈ w.threads, th.holdsWrite = true
  · obtain ⟨th, hth, hp⟩ := hW
    obtain ⟨i, hi⟩ := List.mem_iff_getElem?.1 hth
    exact ⟨i, run i th hi (Or.inr (Or.inl hp))⟩
  · by_cases hR : ∃ th ∈ w.threads, th.holdsRead = true
    · obtain ⟨th, hth, hp⟩ := hR
      obtain ⟨i, hi⟩ := List.mem_iff_getElem?.1 hth
      exact ⟨i, run i th hi (Or.inl hp)⟩
    · have hcW : w.threads.countP Thread.holdsWrite = 0 :=
        List.countP_eq_zero.2 fun th hth hp => hW ⟨th, hth, hp⟩
      have hcR : w.threads.countP Thread.holdsRead = 0 :=
        List.countP_eq_zero.2 fun th hth hp => hR ⟨th, hth, hp⟩
      have hw : w.writer = false := by
        cases hx : w.writer with
        | false => rfl
        | true => rw [hx, hcW] at h₂; simp at h₂
      have hr : w.readers = 0 := by rw [h₁, hcR]
      have : ∃ th ∈ w.threads, th.finished = false := by
        by_contra hcon
        apply hd
        intro th hth
        cases hf : th.finished with
        | true => rfl
        | false => exact absurd ⟨th, hth, hf⟩ hcon
      obtain ⟨th, hth, hf⟩ := this
      obtain ⟨i, hi⟩ := List.mem_iff_getElem?.1 hth
      exact ⟨i, run i th hi (Or.inr (Or.inr ⟨hf, hw, hr⟩))⟩

theorem can_complete (w : World) (h : w.Inv) : ∃ more, (exec w more).Done := by
  have key : ∀ n, ∀ w : World, w.remaining ≤ n → w.Inv → ∃ more, (exec w more).Done := by
    intro n
    induction n with
    | zero =>
      intro w hn h
      by_cases hd : w.Done
      · exact ⟨[], hd⟩
      · obtain ⟨i, w', hs⟩ := deadlock_free w h hd
        have := step_remaining w w' i hs
        omega
    | succ n ih =>
      intro w hn h
      by_cases hd : w.Done
      · exact ⟨[], hd⟩
      · obtain ⟨i, w', hs⟩ := deadlock_free w h hd
        have hlt := step_remaining w w' i hs
        obtain ⟨more, hm⟩ := ih w' (by omega) (step_inv w w' i h hs)
        refine ⟨i :: more, ?_⟩
        show (exec ((step w i).getD w) more).Done
        rw [hs]
        exact hm
  exact key w.remaining w (Nat.le_refl _) h

theorem done_results (w : World) (calls : List (Message × Binding)) (hc : w.Calls calls)
    (hf : w.AnswersFresh) (hd : w.Done) :
    w.results calls.length = calls.map fun call => some (freshTopic call.1 call.2) := by
  apply List.ext_getElem?
  intro i
  unfold World.results
  rw [List.getElem?_map, List.getElem?_map, List.getElem?_take]
  by_cases hi : i < calls.length
  · rw [if_pos hi]
    have hci : calls[i]? = some calls[i] := List.getElem?_eq_getElem hi
    obtain ⟨th, hth, h₁, h₂, h₃⟩ := hc i _ hci
    rw [hth, hci]
    have hmem : th ∈ w.threads := List.getElem?_mem hth
    have hfin := hd th hmem
    obtain ⟨msg, binding, pc⟩ := th
    cases pc with
    | returned r =>
      have := hf _ hmem r (Or.inr rfl)
      simp only at h₁ h₂ this
      rw [this, h₁, h₂]
      rfl
    | start => cases hfin
    | locked => cases hfin
    | answered r => cases hfin
    | spawned e => cases h₃
    | writing e => cases h₃
    | written => cases h₃
    | stopped => cases h₃
  · rw [if_neg hi, List.getElem?_eq_none (by omega)]
    rfl

theorem exec_remaining (schedule : List Nat) :
    ∀ w : World, (exec w schedule).remaining ≤ w.remaining := by
  induction schedule with
  | nil => intro w; exact Nat.le_refl _
  | cons i schedule ih =>
    intro w
    show (exec ((step w i).getD w) schedule).remaining ≤ w.remaining
    cases hs : step w i with
    | none => exact ih w
    | some w' =>
      have := step_remaining w w' i hs
      have := ih w'
      simp only [Option.getD_some]
      omega

theorem init_remaining (cache : PatternCache) (calls : List (Message × Binding)) :
    (initWorld cache calls).remaining = 6 * calls.length := by
  unfold World.remaining initWorld
  induction calls with
  | nil => rfl
  | cons c cs ih =>
    simp only [List.map_cons, List.sum_cons, List.length_cons] at ih ⊢
    rw [ih]
    simp only [Pc.remaining]
    omega

/-! ## Claims about `Topic`: translation and matching -/

/-- Claim C1: for a binding key whose segments are words or `*` (no `#`) and a routing key
made of letters, digits and `.`, `Topic` returns true exactly when both keys have the same
number of segments and, position by position, the routing-key segment is non-empty under a
`*` and equal to the literal otherwise. -/
theorem Topic_star_segments (cache : PatternCache) (hc : CacheSound cache) (msg : Message)
    (binding : Binding)
    (hP : ∀ seg ∈ segments binding.bindingKey, seg = ['*'] ∨ IsWord seg)
    (hR : ∀ c ∈ msg.routingKey.toList, c.isAlphanum = true ∨ c = '.') :
    ∃ out, Topic cache msg binding = some out ∧
      (out.matched = true ↔
        List.Forall₂ SegFits (segments binding.bindingKey) (segments msg.routingKey)) := by
  have hch := starWord_no_hash _ hP
  have hno : '#' ∉ binding.bindingKey.toList := by
    intro m
    rcases hch _ m with h | h | h
    · exact absurd h (by decide)
    · exact absurd h (by decide)
    · exact absurd h (by decide)
  obtain ⟨out, ho, hm⟩ := Topic_of_pieces cache hc msg binding
    (binding.bindingKey.toList.map toPiece)
    (by
      intro p hp
      obtain ⟨c, hc, rfl⟩ := List.mem_map.1 hp
      exact toPiece_ok c (hch c hc))
    (translate_hashFree _ hno)
  exact ⟨out, ho, hm.trans (key_lang _ hP _ hR)⟩

theorem Topic_star_segments_witness :
    ∃ out, Topic [] ⟨"orders.eu.created"⟩ ⟨"orders.*.created"⟩ = some out ∧
      (out.matched = true ↔
        List.Forall₂ SegFits (segments "orders.*.created") (segments "orders.eu.created")) :=
  Topic_star_segments [] CacheSound_nil ⟨"orders.eu.created"⟩ ⟨"orders.*.created"⟩
    (by decide) (by decide)

/-- Claim C2: for a literal prefix `L` and a valid routing key `R`, `Topic` with the binding
key `L ++ ".#"` returns true exactly when `R = L` or `R` starts with `L ++ "."`. -/
theorem Topic_trailing_hash (cache : PatternCache) (hc : CacheSound cache) (msg : Message)
    (binding : Binding) (L : String) (hL : ValidKey L) (hR : ValidKey msg.routingKey)
    (hb : binding.bindingKey = L ++ ".#") :
    ∃ out, Topic cache msg binding = some out ∧
      (out.matched = true ↔
        msg.routingKey = L ∨ (L ++ ".").toList <+: msg.routingKey.toList) := by
  have hLc := hL.chars
  have hk : binding.bindingKey.toList = L.toList ++ ['.', '#'] := by
    rw [hb]; simp
  obtain ⟨out, ho, hm⟩ := Topic_of_pieces cache hc msg binding
    (L.toList.map toPiece ++ [Piece.trailHash])
    (by
      intro p hp
      rcases List.mem_append.1 hp with h | h
      · exact keyChars_ok _ hLc p h
      · rw [List.mem_singleton.1 h]; trivial)
    (by rw [hk]; exact translate_trail _ (keyChars_no_hash _ hLc))
  refine ⟨out, ho, hm.trans ?_⟩
  rw [PiecesLang_lits_append _ (keyChars_no_star _ hLc)]
  have hdot : (L ++ ".").toList = L.toList ++ ['.'] := by simp
  rw [hdot]
  constructor
  · rintro ⟨t, ht, hp⟩
    rw [PiecesLang_single] at hp
    rcases hp with rfl | ⟨m, rfl, -⟩
    · left
      rw [← toList_eq_iff, ht, List.append_nil]
    · right
      exact ⟨m, by rw [ht]; simp⟩
  · rintro (h | ⟨m, h⟩)
    · refine ⟨[], by rw [h, List.append_nil], ?_⟩
      rw [PiecesLang_single]
      exact Or.inl rfl
    · refine ⟨'.' :: m, by rw [← h]; simp, ?_⟩
      rw [PiecesLang_single]
      refine Or.inr ⟨m, rfl, fun x hx => hR.path x ?_⟩
      rw [← h]
      simp [hx]

theorem Topic_trailing_hash_witness :
    ∃ out, Topic [] ⟨"logs.app.error"⟩ ⟨"logs.#"⟩ = some out ∧
      (out.matched = true ↔
        "logs.app.error" = "logs" ∨ ("logs" ++ ".").toList <+: "logs.app.error".toList) :=
  Topic_trailing_hash [] CacheSound_nil ⟨"logs.app.error"⟩ ⟨"logs.#"⟩ "logs"
    (by decide) (by decide) (by decide)

/-- Claim C3: for literal key parts `A` and `C` and a valid routing key `R`, `Topic` with the
binding key `A ++ ".#." ++ C` returns true exactly when the segments of `R` are the segments
of `A`, then zero or more segments, then the segments of `C`. -/
theorem Topic_middle_hash (cache : PatternCache) (hc : CacheSound cache) (msg : Message)
    (binding : Binding) (A C : String) (hA : ValidKey A) (hC : ValidKey C)
    (hR : ValidKey msg.routingKey) (hb : binding.bindingKey = A ++ ".#." ++ C) :
    ∃ out, Topic cache msg binding = some out ∧
      (out.matched = true ↔
        ∃ mid, segments msg.routingKey = segments A ++ mid ++ segments C) := by
  have hAc := hA.chars
  have hCc := hC.chars
  have hk : binding.bindingKey.toList = A.toList ++ ['.', '#', '.'] ++ C.toList := by
    rw [hb]; simp
  obtain ⟨out, ho, hm⟩ := Topic_of_pieces cache hc msg binding
    (A.toList.map toPiece ++ [Piece.midHash] ++ C.toList.map toPiece)
    (by
      intro p hp
      rcases List.mem_append.1 hp with h | h
      · rcases List.mem_append.1 h with h | h
        · exact keyChars_ok _ hAc p h
        · rw [List.mem_singleton.1 h]; trivial
      · exact keyChars_ok _ hCc p h)
    (by
      rw [hk]
      exact translate_mid _ _ (keyChars_no_hash _ hAc) (keyChars_no_hash _ hCc))
  refine ⟨out, ho, hm.trans ?_⟩
  rw [List.append_assoc, PiecesLang_lits_append _ (keyChars_no_star _ hAc)]
  unfold segments
  constructor
  · rintro ⟨t, ht, s₁, s₂, rfl, hl, hp⟩
    replace hp : PiecesLang (C.toList.map toPiece) s₂ := hp
    rw [PiecesLang_lits _ (keyChars_no_star _ hCc)] at hp
    subst hp
    rcases hl with rfl | ⟨m, rfl, -⟩
    · refine ⟨[], ?_⟩
      rw [ht, List.append_nil]
      exact splitOn_append_dot _ _
    · refine ⟨m.splitOn '.', ?_⟩
      have e : A.toList ++ ('.' :: m ++ ['.'] ++ C.toList) =
          A.toList ++ '.' :: (m ++ '.' :: C.toList) := by simp
      rw [ht, e, splitOn_append_dot, splitOn_append_dot, List.append_assoc]
  · rintro ⟨mid, h⟩
    have hd := dotted_splitOn msg.routingKey.toList
    rw [h, dotted_append, dotted_append, dotted_splitOn, dotted_splitOn] at hd
    have hR' : msg.routingKey.toList = A.toList ++ (dotted mid ++ '.' :: C.toList) := by
      have := (List.cons.inj hd).2
      rw [← this]
      simp
    refine ⟨dotted mid ++ '.' :: C.toList, hR', dotted mid ++ ['.'], C.toList, by simp, ?_,
      (PiecesLang_lits _ (keyChars_no_star _ hCc) _).2 rfl⟩
    cases mid with
    | nil => exact Or.inl rfl
    | cons r rs =>
      refine Or.inr ⟨r ++ dotted rs, rfl, fun x hx => hR.path x ?_⟩
      rw [hR', dotted_cons]
      simp only [List.mem_append, List.mem_cons]
      rw [List.mem_append] at hx
      tauto

theorem Topic_middle_hash_witness :
    ∃ out, Topic [] ⟨"a.b.d.c"⟩ ⟨"a.#.c"⟩ = some out ∧
      (out.matched = true ↔ ∃ mid, segments "a.b.d.c" = segments "a" ++ mid ++ segments "c") :=
  Topic_middle_hash [] CacheSound_nil ⟨"a.b.d.c"⟩ ⟨"a.#.c"⟩ "a" "c"
    (by decide) (by decide) (by decide) (by decide)

/-- Claim C4: for a literal suffix `L` and a valid routing key `R`, `Topic` with the binding
key `"#." ++ L` returns true exactly when `R = L` or `R` ends with `"." ++ L`. -/
theorem Topic_leading_hash (cache : PatternCache) (hc : CacheSound cache) (msg : Message)
    (binding : Binding) (L : String) (hL : ValidKey L) (hR : ValidKey msg.routingKey)
    (hb : binding.bindingKey = "#." ++ L) :
    ∃ out, Topic cache msg binding = some out ∧
      (out.matched = true ↔
        msg.routingKey = L ∨ ("." ++ L).toList <:+ msg.routingKey.toList) := by
  have hLc := hL.chars
  have hk : binding.bindingKey.toList = ['#', '.'] ++ L.toList := by
    rw [hb]; simp
  obtain ⟨out, ho, hm⟩ := Topic_of_pieces cache hc msg binding
    (Piece.leadHash :: L.toList.map toPiece)
    (by
      intro p hp
      rcases List.mem_cons.1 hp with h | h
      · rw [h]; trivial
      · exact keyChars_ok _ hLc p h)
    (by rw [hk]; exact translate_lead _ (keyChars_no_hash _ hLc))
  refine ⟨out, ho, hm.trans ?_⟩
  have hdot : ("." ++ L).toList = '.' :: L.toList := by simp
  rw [hdot]
  constructor
  · rintro ⟨s₁, s₂, hs, hl, hp⟩
    rw [PiecesLang_lits _ (keyChars_no_star _ hLc)] at hp
    subst hp
    rcases hl with rfl | ⟨m, rfl, -⟩
    · left
      rw [← toList_eq_iff, hs, List.nil_append]
    · right
      exact ⟨m, by rw [hs]; simp⟩
  · rintro (h | ⟨m, h⟩)
    · exact ⟨[], L.toList, by rw [h, List.nil_append], Or.inl rfl,
        (PiecesLang_lits _ (keyChars_no_star _ hLc) _).2 rfl⟩
    · refine ⟨m ++ ['.'], L.toList, by rw [← h]; simp, Or.inr ⟨m, rfl, fun x hx => ?_⟩,
        (PiecesLang_lits _ (keyChars_no_star _ hLc) _).2 rfl⟩
      apply hR.path x
      rw [← h]
      simp [hx]

theorem Topic_leading_hash_witness :
    ∃ out, Topic [] ⟨"b.c.a"⟩ ⟨"#.a"⟩ = some out ∧
      (out.matched = true ↔ "b.c.a" = "a" ∨ ("." ++ "a").toList <:+ "b.c.a".toList) :=
  Topic_leading_hash [] CacheSound_nil ⟨"b.c.a"⟩ ⟨"#.a"⟩ "a" (by decide) (by decide) (by decide)

/-- Claim C5: with the bare binding key `#`, `Topic` returns true for every routing key made
of non-empty alphanumeric segments joined by single dots. -/
theorem Topic_bare_hash (cache : PatternCache) (hc : CacheSound cache) (msg : Message)
    (binding : Binding) (hb : binding.bindingKey = "#") (hR : ValidKey msg.routingKey) :
    ∃ out, Topic cache msg binding = some out ∧ out.matched = true := by
  obtain ⟨out, ho, hm⟩ := Topic_of_pieces cache hc msg binding [Piece.bareHash]
    (by intro p hp; rw [List.mem_singleton.1 hp]; trivial) (by rw [hb]; rfl)
  refine ⟨out, ho, hm.2 ?_⟩
  rw [PiecesLang_single]
  exact hR.path

theorem Topic_bare_hash_witness :
    ∃ out, Topic [] ⟨"logs.app.error"⟩ ⟨"#"⟩ = some out ∧ out.matched = true :=
  Topic_bare_hash [] CacheSound_nil ⟨"logs.app.error"⟩ ⟨"#"⟩ rfl (by decide)

/-- Claim C6: for a binding key made only of letters, digits and `.`, `Topic` returns the
same boolean as `Direct` for every routing key whatsoever: true exactly when the two keys
are equal. -/
theorem Topic_literal_eq_Direct (cache : PatternCache) (hc : CacheSound cache) (msg : Message)
    (binding : Binding)
    (hP : ∀ c ∈ binding.bindingKey.toList, c.isAlphanum = true ∨ c = '.') :
    ∃ out, Topic cache msg binding = some out ∧ out.matched = Direct msg binding ∧
      (out.matched = true ↔ msg.routingKey = binding.bindingKey) := by
  obtain ⟨out, ho, hm⟩ := Topic_of_pieces cache hc msg binding
    (binding.bindingKey.toList.map toPiece) (keyChars_ok _ hP)
    (translate_hashFree _ (keyChars_no_hash _ hP))
  rw [PiecesLang_lits _ (keyChars_no_star _ hP), toList_eq_iff] at hm
  refine ⟨out, ho, ?_, hm⟩
  rw [Bool.eq_iff_iff, hm]
  simp [Direct]

theorem Topic_literal_eq_Direct_witness :
    ∃ out, Topic [] ⟨"xa.b.cy"⟩ ⟨"a.b.c"⟩ = some out ∧
      out.matched = Direct ⟨"xa.b.cy"⟩ ⟨"a.b.c"⟩ ∧
      (out.matched = true ↔ "xa.b.cy" = "a.b.c") :=
  Topic_literal_eq_Direct [] CacheSound_nil ⟨"xa.b.cy"⟩ ⟨"a.b.c"⟩ (by decide)

/-- Claim C7 (divergence): with the binding key `a.#.#` the translated pattern is
`^a(\.|\.[0-9A-z\.]*\.)[0-9A-z\.]*$`, so `Topic` answers false for the routing key `a`,
although the segment-by-segment reference matcher accepts it (both `#` match no segment). -/
theorem Topic_adjacent_hash_diverges :
    translate "a.#.#".toList = "a(\\.|\\.[0-9A-z\\.]*\\.)[0-9A-z\\.]*".toList ∧
    (Topic [] ⟨"a"⟩ ⟨"a.#.#"⟩).map (fun out => out.matched) = some false ∧
    refMatch (segments "a.#.#") (segments "a") = true := by
  refine ⟨by decide, by decide, by decide⟩

/-- Claim C8 (divergence): the class `[0-9A-z]` written for `*` also contains the six
characters between `Z` and `a`, so `Topic` with the binding key `*` answers true for the
routing key `_`, which is neither a letter nor a digit. -/
theorem Topic_star_accepts_underscore :
    translate "*".toList = "[0-9A-z]+".toList ∧
    (Topic [] ⟨"_"⟩ ⟨"*"⟩).map (fun out => out.matched) = some true ∧
    ('_').isAlphanum = false := by
  refine ⟨by decide, by decide, by decide⟩

/-! ## Claims about `Direct` and `Fanout` -/

/-- Claim C9: `Direct` returns true exactly when the routing key equals the binding key,
compared as they are, for all strings including the empty one. -/
theorem Direct_iff_eq (msg : Message) (binding : Binding) :
    Direct msg binding = true ↔ msg.routingKey = binding.bindingKey := by
  simp [Direct]

/-- Claim C10: `Fanout` returns true for every message and every binding, whatever their
keys. -/
theorem Fanout_always (msg : Message) (binding : Binding) : Fanout msg binding = true :=
  rfl

/-! ## Claims about the pattern cache, compilation failures and concurrency -/

/-- Claim C11: the pattern cache never changes an answer. In every finite sequence of calls
of `Topic` starting from the empty cache, each miss storing its rule before the next call,
the answer of each call (hit or miss) is the one obtained by translating its binding key
afresh and matching its routing key. -/
theorem runCalls_eq_fresh (calls : List (Message × Binding)) :
    (runCalls [] calls).1 = calls.map (fun call => freshTopic call.1 call.2) :=
  (runCalls_sound calls [] CacheSound_nil).1

/-- Claim C12: `Topic` never fails on a well-formed binding key. For every binding key made
only of letters, digits, `.`, `*` and `#`, the pattern produced by the six substitutions and
the anchoring compiles, and `Topic` returns a boolean (never the panic) for every routing key
and every cache. -/
theorem Topic_wellformed_key (binding : Binding)
    (hk : ∀ c ∈ binding.bindingKey.toList, KeyChar c) :
    (∃ r, MustCompileKey binding.bindingKey = some r) ∧
      ∀ (cache : PatternCache) (msg : Message), ∃ out, Topic cache msg binding = some out := by
  have hr : MustCompileKey binding.bindingKey = some (mkCat (Regex.bol ::
      ((passes (binding.bindingKey.toList.map toPiece)).map Piece.re ++ [Regex.eol]))) := by
    unfold MustCompileKey
    rw [translate_passes _ hk]
    exact Compile_pieces _ (passes_ok _ (keyChars_tok _ hk))
  refine ⟨⟨_, hr⟩, fun cache msg => ?_⟩
  unfold Topic
  cases List.lookup binding.bindingKey cache with
  | some m => exact ⟨_, rfl⟩
  | none =>
    simp only [hr]
    exact ⟨_, rfl⟩

theorem Topic_wellformed_key_witness :
    (∃ r, MustCompileKey "#.a#.*..#.#" = some r) ∧
      ∀ (cache : PatternCache) (msg : Message),
        ∃ out, Topic cache msg ⟨"#.a#.*..#.#"⟩ = some out :=
  Topic_wellformed_key ⟨"#.a#.*..#.#"⟩ (by decide)

/-- Claim C13: the pattern cache grows monotonically. A call whose binding key is cached
leaves the cache unchanged; a call whose binding key is absent and compiles leaves, once its
store has run, the old cache plus exactly one entry under that key; in every case each entry
present before the call is still found afterwards with the same rule. The same holds when the
stores run in goroutines, in any interleaving of any calls from the empty map: each step
leaves the map as it is or appends one entry under a key that was absent (a store that finds
its key present, as after two misses on one key, writes the rule that is already there), so
the map at any time is a prefix of the map at any later time and no entry is evicted or
overwritten by another rule. -/
theorem TopicCall_cache_monotone (cache : PatternCache) (msg : Message) (binding : Binding) :
    (∀ m, List.lookup binding.bindingKey cache = some m →
      (TopicCall cache msg binding).2 = cache) ∧
    (List.lookup binding.bindingKey cache = none →
      ∀ r, MustCompileKey binding.bindingKey = some r →
        (TopicCall cache msg binding).2 = cache ++ [(binding.bindingKey, r)]) ∧
    (∀ k m, List.lookup k cache = some m →
      List.lookup k (TopicCall cache msg binding).2 = some m) ∧
    (∀ (calls : List (Message × Binding)) (schedule : List Nat) (i : Nat),
      (exec (initWorld [] calls) (schedule ++ [i])).cache =
          (exec (initWorld [] calls) schedule).cache ∨
        ∃ e, List.lookup e.1 (exec (initWorld [] calls) schedule).cache = none ∧
          (exec (initWorld [] calls) (schedule ++ [i])).cache =
            (exec (initWorld [] calls) schedule).cache ++ [e]) ∧
    (∀ (calls : List (Message × Binding)) (s₁ s₂ : List Nat),
      (exec (initWorld [] calls) s₁).cache <+: (exec (initWorld [] calls) (s₁ ++ s₂)).cache) ∧
    (∀ (calls : List (Message × Binding)) (s₁ s₂ : List Nat) (k : String) (m : Regex),
      List.lookup k (exec (initWorld [] calls) s₁).cache = some m →
        List.lookup k (exec (initWorld [] calls) (s₁ ++ s₂)).cache = some m) := by
  have reach : ∀ (calls : List (Message × Binding)) (s : List Nat),
      (exec (initWorld [] calls) s).Inv ∧ EntriesSound (exec (initWorld [] calls) s).cache :=
    fun calls s =>
      ⟨exec_inv s _ (init_inv [] CacheSound_nil calls),
        (exec_cache s _ (init_inv [] CacheSound_nil calls) EntriesSound_nil).1⟩
  have grow : ∀ (calls : List (Message × Binding)) (s₁ s₂ : List Nat),
      (exec (initWorld [] calls) s₁).cache <+: (exec (initWorld [] calls) (s₁ ++ s₂)).cache := by
    intro calls s₁ s₂
    rw [exec_append]
    exact (exec_cache s₂ _ (reach calls s₁).1 (reach calls s₁).2).2
  refine ⟨?_, ?_, ?_, ?_, grow, ?_⟩
  · intro m h
    rw [TopicCall_hit cache msg binding m h]
  · intro h r hr
    rw [TopicCall_miss cache msg binding r h hr]
  · intro k m hk
    cases hl : List.lookup binding.bindingKey cache with
    | some m' => rw [TopicCall_hit cache msg binding m' hl]; exact hk
    | none =>
      cases hr : MustCompileKey binding.bindingKey with
      | none => rw [TopicCall_panic cache msg binding hl hr]; exact hk
      | some r =>
        rw [TopicCall_miss cache msg binding r hl hr]
        show List.lookup k (cache ++ [(binding.bindingKey, r)]) = some m
        rw [lookup_append_single, hk]
  · intro calls schedule i
    rw [exec_append]
    show ((step (exec (initWorld [] calls) schedule) i).getD
      (exec (initWorld [] calls) schedule)).cache = _ ∨ ∃ e, _ ∧
      ((step (exec (initWorld [] calls) schedule) i).getD
        (exec (initWorld [] calls) schedule)).cache = _
    cases hs : step (exec (initWorld [] calls) schedule) i with
    | none => exact Or.inl rfl
    | some w' => exact (step_cache _ w' i (reach calls schedule).1 (reach calls schedule).2 hs).2
  · intro calls s₁ s₂ k m hk
    obtain ⟨d, hd⟩ := grow calls s₁ s₂
    rw [← hd]
    exact lookup_append_of_some k m _ d hk

theorem TopicCall_cache_monotone_witness :
    ((exec (initWorld [] [(⟨"a"⟩, ⟨"b.#"⟩), (⟨"b.c"⟩, ⟨"b.#"⟩)])
        [0, 1, 0, 1, 0, 1, 2, 2, 2]).cache.map fun kv => kv.1) = ["b.#"] ∧
    ((exec (initWorld [] [(⟨"a"⟩, ⟨"b.#"⟩), (⟨"b.c"⟩, ⟨"b.#"⟩)])
        ([0, 1, 0, 1, 0, 1, 2, 2, 2] ++ [3, 3, 3])).cache.map fun kv => kv.1) = ["b.#"] ∧
    (exec (initWorld [] [(⟨"a"⟩, ⟨"b.#"⟩), (⟨"b.c"⟩, ⟨"b.#"⟩)])
        [0, 1, 0, 1, 0, 1, 2, 2, 2]).cache <+:
      (exec (initWorld [] [(⟨"a"⟩, ⟨"b.#"⟩), (⟨"b.c"⟩, ⟨"b.#"⟩)])
        ([0, 1, 0, 1, 0, 1, 2, 2, 2] ++ [3, 3, 3])).cache :=
  ⟨by decide, by decide,
    (TopicCall_cache_monotone [] ⟨"a"⟩ ⟨"b.#"⟩).2.2.2.2.1
      [(⟨"a"⟩, ⟨"b.#"⟩), (⟨"b.c"⟩, ⟨"b.#"⟩)] [0, 1, 0, 1, 0, 1, 2, 2, 2] [3, 3, 3]⟩

/-- Claim C14: a binding key whose translated pattern does not compile is not swallowed.
Whatever the `regexp` package is, when its compiler rejects the anchored translation of the
binding key, `Topic` panics instead of returning a boolean and no entry is stored, the map
being left exactly as it was; so it is with the modelled compiler on every text of the
modelled syntax, for instance on the key `(`. The maps considered hold only keys that
compile, as every map filled by `Topic` does. -/
theorem Topic_malformed_panics :
    (∀ {ρ : Type} (compile : List Char → Option ρ) (run : ρ → List Char → Bool)
        (cache : List (String × ρ)) (msg : Message) (binding : Binding),
      (∀ key m, cache.lookup key = some m →
        compile ('^' :: translate key.toList ++ ['$']) ≠ none) →
      compile ('^' :: translate binding.bindingKey.toList ++ ['$']) = none →
      TopicBy compile run cache msg binding = none ∧
        TopicCallBy compile run cache msg binding = (none, cache)) ∧
    (∀ (cache : PatternCache) (msg : Message) (binding : Binding),
      CacheSound cache →
      Modelled ('^' :: translate binding.bindingKey.toList ++ ['$']) = true →
      MustCompileKey binding.bindingKey = none →
      Topic cache msg binding = none ∧ TopicCall cache msg binding = (none, cache)) := by
  refine ⟨fun compile run cache msg binding hc h =>
    TopicBy_panics compile run cache msg binding hc h, ?_⟩
  intro cache msg binding hc _ h
  have hl : List.lookup binding.bindingKey cache = none := by
    cases hl : List.lookup binding.bindingKey cache with
    | none => rfl
    | some m =>
      have := hc _ _ hl
      rw [h] at this
      cases this
  refine ⟨?_, TopicCall_panic cache msg binding hl h⟩
  simp [Topic, hl, h]

theorem Topic_malformed_panics_witness :
    Modelled ('^' :: translate "(".toList ++ ['$']) = true ∧ MustCompileKey "(" = none ∧
      Topic [] ⟨"a.c"⟩ ⟨"("⟩ = none ∧ TopicCall [] ⟨"a.c"⟩ ⟨"("⟩ = (none, []) :=
  ⟨by decide, rfl, Topic_malformed_panics.2 [] ⟨"a.c"⟩ ⟨"("⟩ CacheSound_nil (by decide) rfl⟩

/-- Claim C15: for any number of concurrent calls of `Topic` on an initially empty cache and
any interleaving of their steps and of the goroutines they start: every answer computed is
the boolean of the uncached translation of its binding key; the map is read only under the
read lock and written only under the exclusive write lock, and no write of the map is
concurrent with another access to it; as long as a thread has not run to its end some thread
can step (no deadlock), every step uses up one of the at most `6 * calls.length` steps there
are, so the run can always be carried on to the end; and at the end every call has returned
the boolean of the uncached translation. -/
theorem concurrent_Topic (calls : List (Message × Binding)) (schedule : List Nat) :
    (exec (initWorld [] calls) schedule).AnswersFresh ∧
    (exec (initWorld [] calls) schedule).LockDiscipline ∧
    (exec (initWorld [] calls) schedule).RaceFree ∧
    (¬ (exec (initWorld [] calls) schedule).Done →
      ∃ i w', step (exec (initWorld [] calls) schedule) i = some w') ∧
    (∀ i w', step (exec (initWorld [] calls) schedule) i = some w' →
      w'.remaining < (exec (initWorld [] calls) schedule).remaining) ∧
    (exec (initWorld [] calls) schedule).remaining ≤ 6 * calls.length ∧
    ((exec (initWorld [] calls) schedule).Done →
      (exec (initWorld [] calls) schedule).results calls.length =
        calls.map fun call => some (freshTopic call.1 call.2)) ∧
    (∃ more, (exec (initWorld [] calls) (schedule ++ more)).Done ∧
      (exec (initWorld [] calls) (schedule ++ more)).results calls.length =
        calls.map fun call => some (freshTopic call.1 call.2)) := by
  have inv : ∀ s : List Nat, (exec (initWorld [] calls) s).Inv :=
    fun s => exec_inv s _ (init_inv [] CacheSound_nil calls)
  have hcalls : ∀ s : List Nat, (exec (initWorld [] calls) s).Calls calls :=
    fun s => exec_calls s calls _ (init_calls [] calls)
  have h := inv schedule
  refine ⟨h.fresh, Inv.discipline _ h,
    fun i j a b ha hb hne hw => Inv.no_race _ h i j a b ha hb hne hw,
    deadlock_free _ h, fun i w' hs => step_remaining _ w' i hs, ?_,
    done_results _ calls (hcalls schedule) h.fresh, ?_⟩
  · have := exec_remaining schedule (initWorld [] calls)
    rw [init_remaining] at this
    exact this
  · obtain ⟨more, hm⟩ := can_complete _ h
    refine ⟨more, ?_, ?_⟩
    · rw [exec_append]
      exact hm
    · apply done_results _ calls (hcalls _) (inv _).fresh
      rw [exec_append]
      exact hm

theorem concurrent_Topic_witness :
    (exec (initWorld [] [(⟨"a.b"⟩, ⟨"a.*"⟩), (⟨"a"⟩, ⟨"b.#"⟩)])
        [0, 1, 0, 1, 2, 0, 1, 2, 3, 2, 3, 2, 3, 3, 3]).Done ∧
    (exec (initWorld [] [(⟨"a.b"⟩, ⟨"a.*"⟩), (⟨"a"⟩, ⟨"b.#"⟩)])
        [0, 1, 0, 1, 2, 0, 1, 2, 3, 2, 3, 2, 3, 3, 3]).results 2 =
      [some (some true), some (some false)] ∧
    ((exec (initWorld [] [(⟨"a.b"⟩, ⟨"a.*"⟩), (⟨"a"⟩, ⟨"b.#"⟩)])
        [0, 1, 0, 1, 2, 0, 1, 2, 3, 2, 3, 2, 3, 3, 3]).cache.map fun kv => kv.1) =
      ["a.*", "b.#"] ∧
    (exec (initWorld [] [(⟨"a.b"⟩, ⟨"a.*"⟩), (⟨"a"⟩, ⟨"b.#"⟩)])
        [0, 1, 0, 1, 2, 0, 1, 2, 3, 2, 3, 2, 3, 3, 3]).RaceFree :=
  ⟨by decide, by decide, by decide,
    (concurrent_Topic [(⟨"a.b"⟩, ⟨"a.*"⟩), (⟨"a"⟩, ⟨"b.#"⟩)]
      [0, 1, 0, 1, 2, 0, 1, 2, 3, 2, 3, 2, 3, 3, 3]).2.2.1⟩

/-! ## `Topic` against the reference matcher -/

/-- Claim C16: for a binding key whose segments are words, `*` or `#` with no two `#`
next to each other, and a valid routing key, `Topic` returns true exactly when the segments
of the routing key match the segments of the binding key under the reference matcher
(a literal matches an equal segment, `*` one segment, `#` zero or more segments). -/
theorem Topic_eq_refMatch (cache : PatternCache) (hc : CacheSound cache) (msg : Message)
    (binding : Binding)
    (hP : ∀ s ∈ segments binding.bindingKey, IsPatternSegment s)
    (hA : NoAdjacentHash (segments binding.bindingKey))
    (hR : ValidKey msg.routingKey) :
    ∃ out, Topic cache msg binding = some out ∧
      out.matched = refMatch (segments binding.bindingKey) (segments msg.routingKey) := by
  obtain ⟨ht, hok⟩ := translate_segments binding.bindingKey.toList hP hA
  obtain ⟨out, ho, hm⟩ := Topic_of_pieces cache hc msg binding _ hok ht
  refine ⟨out, ho, ?_⟩
  rw [Bool.eq_iff_iff, hm]
  unfold segments at hP hA ⊢
  cases hl : binding.bindingKey.toList.splitOn '.' with
  | nil => exact absurd hl (splitOn_ne_nil _)
  | cons s more =>
    rw [hl] at hP hA
    rw [first_lang_iff, ← dotted_splitOn]
    exact rest_lang (s :: more) hP hA _ hR

theorem Topic_eq_refMatch_witness :
    ∃ out, Topic [] ⟨"a.x.y.b.c"⟩ ⟨"#.a.#.*.c"⟩ = some out ∧
      out.matched = refMatch (segments "#.a.#.*.c") (segments "a.x.y.b.c") :=
  Topic_eq_refMatch [] CacheSound_nil ⟨"a.x.y.b.c"⟩ ⟨"#.a.#.*.c"⟩
    (by decide) (by decide) (by decide)

end Matcher
